import Mathlib

/-!
# Verification of the Jaro similarity engine of rapidfuzz-cpp

Shallow embedding of `rapidfuzz/distance/Jaro_impl.hpp`.

Sequences of symbols are modelled as `List Nat` (one `Nat` per code point),
64-bit machine words as `Nat` with explicit truncation `% 2^64` where the
C++ code can overflow, `double` as `ℚ` (the engine performs only exact
small-denominator arithmetic: sums of quotients of small integers), and
`int64_t` quantities that can go negative (the window `Bound`) as `Int`.

The bit intrinsics (`popcount`, `blsi`, `blsr`, `countr_zero`,
`bit_mask_lsb`) and the pattern-match vectors live in headers that are not
part of the analysed source tree; they are modelled from the spec, each
with a doc comment saying so.
-/

namespace RapidFuzz

/-! ## Bit-level helpers (modelled collaborators) -/

/-- First `q ∈ [start, start+rem)` with `f q = true`, scanning upward. -/
def findLowest (f : Nat → Bool) : Nat → Nat → Option Nat
  | _, 0 => none
  | s, r + 1 => if f s then some s else findLowest f (s + 1) r

/-- The set bits of `n` below position `k`, in increasing order. -/
def bitsBelow (k n : Nat) : List Nat :=
  (List.range k).filter (fun i => n.testBit i)

/-- Number of set bits among the `k` lowest bits of `n`. -/
def countBits (k n : Nat) : Nat := (bitsBelow k n).length

/-- Modelled from the spec: the `popcount` intrinsic
(`details/intrinsics.hpp`, not under `src/`) — population count of a
64-bit word. -/
def popcount (n : Nat) : Nat := countBits 64 n

/-- Modelled from the spec: the `countr_zero` intrinsic
(`details/intrinsics.hpp`, not under `src/`) — index of the lowest set bit
of a 64-bit word, `64` when the word is zero. -/
def countr_zero (n : Nat) : Nat :=
  (findLowest (fun i => n.testBit i) 0 64).getD 64

/-- Modelled from the spec: the `blsi` intrinsic
(`details/intrinsics.hpp`, not under `src/`) — isolate the lowest set bit
(`x & -x` on a machine; `0` for `0`). -/
def blsi (n : Nat) : Nat := if n = 0 then 0 else 1 <<< countr_zero n

/-- Modelled from the spec: the `blsr` intrinsic
(`details/intrinsics.hpp`, not under `src/`) — reset the lowest set bit. -/
def blsr (n : Nat) : Nat := n ^^^ blsi n

/-- Modelled from the spec: `bit_mask_lsb<uint64_t>(n)`
(`details/intrinsics.hpp`, not under `src/`) — the mask of the `n` lowest
bits of a 64-bit word, saturating to all-ones for `n ≥ 64`.  The C++
helper takes an `int`; a nonpositive count yields the empty mask (the
engine only reaches it with `n ≥ 0`). -/
def bit_mask_lsb (n : Int) : Nat :=
  if n ≤ 0 then 0
  else if n < 64 then (1 <<< n.toNat) - 1
  else (1 <<< 64) - 1

/-- Bitwise complement of a 64-bit word (`~x` on `uint64_t`). -/
def comp64 (n : Nat) : Nat := (2 ^ 64 - 1) ^^^ n

/-! ## The occurrence index (external collaborator, modelled) -/

/-- Modelled from the spec: the Occurrence Index
(`details/PatternMatchVector.hpp`, not under `src/`): bit `p` of
`occMask P c` is set iff `P[p] = c`. -/
def occMask : List Nat → Nat → Nat
  | [], _ => 0
  | a :: rest, c => (if a = c then 1 else 0) ||| (occMask rest c <<< 1)

/-- Modelled from the spec: `BlockPatternMatchVector::get(w, c)` — the
64-bit word `w` of the occurrence mask of symbol `c` (bit `i` of word `w`
encodes reference position `64*w + i`). -/
def blockGet (P : List Nat) (w : Nat) (c : Nat) : Nat :=
  (occMask P c >>> (64 * w)) &&& (2 ^ 64 - 1)

/-! ## Flag sets (`Jaro_impl.hpp` data model) -/

/-- `struct FlaggedCharsWord` — one 64-bit flag word per side. -/
structure FlaggedCharsWord where
  P_flag : Nat
  T_flag : Nat
deriving DecidableEq

/-- `struct FlaggedCharsMultiword` — per-64-bit-word flag arrays. -/
structure FlaggedCharsMultiword where
  P_flag : List Nat
  T_flag : List Nat
deriving DecidableEq

/-- `struct SearchBoundMask` — the block path's sliding-window state. -/
structure SearchBoundMask where
  words : Nat
  empty_words : Nat
  last_mask : Nat
  first_mask : Nat
deriving DecidableEq

/-! ## Score assembly and filters -/

/-- `jaro_calculate_similarity` (`Jaro_impl.hpp` line 40): halves the raw
transposition count (integer division) and assembles the score from the
*original* sequence lengths. -/
def jaro_calculate_similarity (P_len T_len : Nat) (CommonChars Transpositions : Nat) : ℚ :=
  let Transpositions := Transpositions / 2
  ((CommonChars : ℚ) / (P_len : ℚ) + (CommonChars : ℚ) / (T_len : ℚ) +
      ((CommonChars : ℚ) - (Transpositions : ℚ)) / (CommonChars : ℚ)) / 3

/-- `jaro_length_filter` (line 55): upper bound of the score from the two
lengths alone; rejects when a length is zero. -/
def jaro_length_filter (P_len T_len : Nat) (score_cutoff : ℚ) : Bool :=
  if T_len = 0 ∨ P_len = 0 then false
  else
    let min_len : ℚ := ((min P_len T_len : Nat) : ℚ)
    decide ((min_len / (P_len : ℚ) + min_len / (T_len : ℚ) + 1) / 3 ≥ score_cutoff)

/-- `jaro_common_char_filter` (line 68): upper bound of the score assuming
zero transpositions; rejects when no common characters were found. -/
def jaro_common_char_filter (P_len T_len : Nat) (CommonChars : Nat) (score_cutoff : ℚ) : Bool :=
  if CommonChars = 0 then false
  else
    decide (((CommonChars : ℚ) / (P_len : ℚ) + (CommonChars : ℚ) / (T_len : ℚ) + 1) / 3 ≥
      score_cutoff)

/-- `count_common_chars` on `FlaggedCharsWord` (line 81). -/
def count_common_chars_word (flagged : FlaggedCharsWord) : Nat :=
  popcount flagged.P_flag

/-- `count_common_chars` on `FlaggedCharsMultiword` (line 86): sums the
popcounts of whichever flag array has fewer words. -/
def count_common_chars_multiword (flagged : FlaggedCharsMultiword) : Nat :=
  if flagged.P_flag.length < flagged.T_flag.length then
    (flagged.P_flag.map popcount).sum
  else
    (flagged.T_flag.map popcount).sum

/-! ## Word-path flagger (`flag_similar_characters_word`, line 102) -/

/-- Loop body and state of `flag_similar_characters_word`.  The source has
two consecutive loops over `j` whose bodies are identical and whose split
point is `min(Bound, T.size())`; since `j < T.size()` always holds inside
the loops, they are merged here with the phase test `j < Bound` deciding
whether the bound mask grows (`(m << 1) | 1`) or only shifts (`m << 1`),
exactly as in the source.  `get0 c` is `PM.get(0, c)`. -/
def flag_similar_characters_word_go (get0 : Nat → Nat) (Bound : Int) :
    Nat → Nat → FlaggedCharsWord → List Nat → FlaggedCharsWord
  | _, _, flagged, [] => flagged
  | j, BoundMask, flagged, c :: rest =>
      let PM_j := get0 c &&& BoundMask &&& comp64 flagged.P_flag
      let flagged' : FlaggedCharsWord :=
        ⟨flagged.P_flag ||| blsi PM_j,
         flagged.T_flag ||| ((if PM_j ≠ 0 then 1 else 0) <<< j)⟩
      let BoundMask' :=
        if (j : Int) < Bound then ((BoundMask <<< 1) ||| 1) % 2 ^ 64
        else (BoundMask <<< 1) % 2 ^ 64
      flag_similar_characters_word_go get0 Bound (j + 1) BoundMask' flagged' rest

/-- `flag_similar_characters_word` (line 102). -/
def flag_similar_characters_word (get0 : Nat → Nat) (T : List Nat) (Bound : Int) :
    FlaggedCharsWord :=
  flag_similar_characters_word_go get0 Bound 0 (bit_mask_lsb (Bound + 1)) ⟨0, 0⟩ T

/-! ## Block-path flagger (`flag_similar_characters_step` line 136,
`flag_similar_characters_block` line 214) -/

/-- The plain ascending interior-word scan of `flag_similar_characters_step`
(line 196): first word index `w ∈ [word, word+rem)` with `pm w ≠ 0`. -/
def scan_words (pm : Nat → Nat) : Nat → Nat → Option Nat
  | _, 0 => none
  | word, rem + 1 =>
      if pm word ≠ 0 then some word else scan_words pm (word + 1) rem

/-- The unrolled groups-of-four interior scan (line 167): while at least
four words remain (`word + 3 < last_word - 1`), probe four words and stop
at the first hit, falling through to the plain scan for the remainder. -/
def scan_words_unrolled (pm : Nat → Nat) : Nat → Nat → Option Nat
  | word, rem + 4 =>
      if pm word ≠ 0 then some word
      else if pm (word + 1) ≠ 0 then some (word + 1)
      else if pm (word + 2) ≠ 0 then some (word + 2)
      else if pm (word + 3) ≠ 0 then some (word + 3)
      else scan_words_unrolled pm (word + 4) rem
  | word, rem => scan_words pm word rem

/-- `flag_similar_characters_step` (line 136).  `get w c` is
`PM.get(w, c)`.  In the unrolled branch the source narrows the symbol
with `static_cast<uint8_t>` after checking `T_j < 256`, modelled by
`T_j % 256` (the identity under that check). -/
def flag_similar_characters_step (get : Nat → Nat → Nat) (T_j : Nat)
    (flagged : FlaggedCharsMultiword) (j : Nat) (BoundMask : SearchBoundMask) :
    FlaggedCharsMultiword :=
  let j_word := j / 64
  let j_pos := j % 64
  let word := BoundMask.empty_words
  let last_word := word + BoundMask.words
  if BoundMask.words = 1 then
    let PM_j := get word T_j &&& BoundMask.last_mask &&& BoundMask.first_mask &&&
      comp64 (flagged.P_flag.getD word 0)
    ⟨flagged.P_flag.set word (flagged.P_flag.getD word 0 ||| blsi PM_j),
     flagged.T_flag.set j_word
       (flagged.T_flag.getD j_word 0 ||| ((if PM_j ≠ 0 then 1 else 0) <<< j_pos))⟩
  else
    let PM_first := get word T_j &&& BoundMask.first_mask &&&
      comp64 (flagged.P_flag.getD word 0)
    if BoundMask.first_mask ≠ 0 ∧ PM_first ≠ 0 then
      ⟨flagged.P_flag.set word (flagged.P_flag.getD word 0 ||| blsi PM_first),
       flagged.T_flag.set j_word (flagged.T_flag.getD j_word 0 ||| (1 <<< j_pos))⟩
    else
      let word1 := if BoundMask.first_mask ≠ 0 then word + 1 else word
      let pm := fun w => get w T_j &&& comp64 (flagged.P_flag.getD w 0)
      let pm8 := fun w => get w (T_j % 256) &&& comp64 (flagged.P_flag.getD w 0)
      let interior :=
        if T_j < 256 then scan_words_unrolled pm8 word1 (last_word - 1 - word1)
        else scan_words pm word1 (last_word - 1 - word1)
      match interior with
      | some w =>
          ⟨flagged.P_flag.set w (flagged.P_flag.getD w 0 ||| blsi (pm w)),
           flagged.T_flag.set j_word (flagged.T_flag.getD j_word 0 ||| (1 <<< j_pos))⟩
      | none =>
          if BoundMask.last_mask ≠ 0 then
            let wl := last_word - 1
            let PM_l := get wl T_j &&& BoundMask.last_mask &&&
              comp64 (flagged.P_flag.getD wl 0)
            ⟨flagged.P_flag.set wl (flagged.P_flag.getD wl 0 ||| blsi PM_l),
             flagged.T_flag.set j_word
               (flagged.T_flag.getD j_word 0 ||| ((if PM_l ≠ 0 then 1 else 0) <<< j_pos))⟩
          else flagged

/-- Loop of `flag_similar_characters_block` (line 234): one step per text
position, then the two window-mask updates (trailing edge growth while
`j + Bound + 1 < P_len`, leading edge shift once `j ≥ Bound`), with the
64-bit truncations of the C++ shifts made explicit. -/
def flag_similar_characters_block_go (get : Nat → Nat → Nat) (P_len : Nat) (Bound : Int) :
    Nat → SearchBoundMask → FlaggedCharsMultiword → List Nat → FlaggedCharsMultiword
  | _, _, flagged, [] => flagged
  | j, BM, flagged, c :: rest =>
      let flagged' := flag_similar_characters_step get c flagged j BM
      let BM1 :=
        if (j : Int) + Bound + 1 < (P_len : Int) then
          let lm := ((BM.last_mask <<< 1) ||| 1) % 2 ^ 64
          if (j : Int) + Bound + 2 < (P_len : Int) ∧ lm = 2 ^ 64 - 1 then
            ⟨BM.words + 1, BM.empty_words, 0, BM.first_mask⟩
          else
            ⟨BM.words, BM.empty_words, lm, BM.first_mask⟩
        else BM
      let BM2 :=
        if (j : Int) ≥ Bound then
          let fm := (BM1.first_mask <<< 1) % 2 ^ 64
          if fm = 0 then
            ⟨BM1.words - 1, BM1.empty_words + 1, BM1.last_mask, 2 ^ 64 - 1⟩
          else
            ⟨BM1.words, BM1.empty_words, BM1.last_mask, fm⟩
        else BM1
      flag_similar_characters_block_go get P_len Bound (j + 1) BM2 flagged' rest

/-- The trailing-edge (window growth) mask update of the block loop
(line 241), split out of `flag_similar_characters_block_go` verbatim. -/
def bmGrow (P_len : Nat) (Bound : Int) (j : Nat) (BM : SearchBoundMask) : SearchBoundMask :=
  if (j : Int) + Bound + 1 < (P_len : Int) then
    let lm := ((BM.last_mask <<< 1) ||| 1) % 2 ^ 64
    if (j : Int) + Bound + 2 < (P_len : Int) ∧ lm = 2 ^ 64 - 1 then
      ⟨BM.words + 1, BM.empty_words, 0, BM.first_mask⟩
    else
      ⟨BM.words, BM.empty_words, lm, BM.first_mask⟩
  else BM

/-- The leading-edge (window retirement) mask update of the block loop
(line 249), split out of `flag_similar_characters_block_go` verbatim. -/
def bmRetire (Bound : Int) (j : Nat) (BM1 : SearchBoundMask) : SearchBoundMask :=
  if (j : Int) ≥ Bound then
    let fm := (BM1.first_mask <<< 1) % 2 ^ 64
    if fm = 0 then
      ⟨BM1.words - 1, BM1.empty_words + 1, BM1.last_mask, 2 ^ 64 - 1⟩
    else
      ⟨BM1.words, BM1.empty_words, BM1.last_mask, fm⟩
  else BM1

theorem block_go_cons (get : Nat → Nat → Nat) (P_len : Nat) (Bound : Int) (j : Nat)
    (BM : SearchBoundMask) (flagged : FlaggedCharsMultiword) (c : Nat) (rest : List Nat) :
    flag_similar_characters_block_go get P_len Bound j BM flagged (c :: rest) =
      flag_similar_characters_block_go get P_len Bound (j + 1)
        (bmRetire Bound j (bmGrow P_len Bound j BM))
        (flag_similar_characters_step get c flagged j BM) rest := rfl

/-- `flag_similar_characters_block` (line 214). -/
def flag_similar_characters_block (get : Nat → Nat → Nat) (P_len : Nat) (T : List Nat)
    (Bound : Int) : FlaggedCharsMultiword :=
  let flagged : FlaggedCharsMultiword :=
    ⟨List.replicate ((P_len + 63) / 64) 0, List.replicate ((T.length + 63) / 64) 0⟩
  let start_range : Nat := (min (Bound + 1) (P_len : Int)).toNat
  let BM : SearchBoundMask :=
    ⟨1 + start_range / 64, 0, ((1 <<< (start_range % 64)) - 1) % 2 ^ 64, 2 ^ 64 - 1⟩
  flag_similar_characters_block_go get P_len Bound 0 BM flagged T

/-! ## Transposition counters (`count_transpositions_word` line 258,
`count_transpositions_block` line 277) -/

/-- Loop of `count_transpositions_word`: one iteration per set bit of
`T_flag` (each iteration resets exactly one bit, so the popcount of the
initial `T_flag` is the exact iteration count, used as structural fuel). -/
def count_transpositions_word_go (get0 : Nat → Nat) (T : List Nat) :
    Nat → Nat → Nat → Nat → Nat
  | 0, _, _, acc => acc
  | fuel + 1, P_flag, T_flag, acc =>
      if T_flag = 0 then acc
      else
        let PatternFlagMask := blsi P_flag
        let acc' := acc +
          (if get0 (T.getD (countr_zero T_flag) 0) &&& PatternFlagMask = 0 then 1 else 0)
        count_transpositions_word_go get0 T fuel (P_flag ^^^ PatternFlagMask)
          (blsr T_flag) acc'

/-- `count_transpositions_word` (line 258). -/
def count_transpositions_word (get0 : Nat → Nat) (T : List Nat)
    (flagged : FlaggedCharsWord) : Nat :=
  count_transpositions_word_go get0 T (popcount flagged.T_flag)
    flagged.P_flag flagged.T_flag 0

/-- Loop of `count_transpositions_block` (line 277), merged into a single
recursion with the same priorities as the source's nested `while`s: pair
off bits while the current text word has any, otherwise stop when
`FlaggedChars` is exhausted, otherwise advance to the next text word.
The structural fuel covers every iteration kind (each pairing consumes a
flag, each advance consumes a word). -/
def count_transpositions_block_go (get : Nat → Nat → Nat) (T : List Nat)
    (Pfl Tfl : List Nat) :
    Nat → Nat → Nat → Nat → Nat → Nat → Nat → Nat
  | 0, _, _, _, _, _, acc => acc
  | fuel + 1, TextWord, PatternWord, T_flag, P_flag, FlaggedChars, acc =>
      if T_flag ≠ 0 then
        if P_flag = 0 then
          count_transpositions_block_go get T Pfl Tfl fuel TextWord (PatternWord + 1)
            T_flag (Pfl.getD (PatternWord + 1) 0) FlaggedChars acc
        else
          let PatternFlagMask := blsi P_flag
          let sym := T.getD (64 * TextWord + countr_zero T_flag) 0
          let acc' := acc + (if get PatternWord sym &&& PatternFlagMask = 0 then 1 else 0)
          count_transpositions_block_go get T Pfl Tfl fuel TextWord PatternWord
            (blsr T_flag) (P_flag ^^^ PatternFlagMask) (FlaggedChars - 1) acc'
      else if FlaggedChars = 0 then acc
      else
        count_transpositions_block_go get T Pfl Tfl fuel (TextWord + 1) PatternWord
          (Tfl.getD (TextWord + 1) 0) P_flag FlaggedChars acc

/-- `count_transpositions_block` (line 277). -/
def count_transpositions_block (get : Nat → Nat → Nat) (T : List Nat)
    (flagged : FlaggedCharsMultiword) (FlaggedChars : Nat) : Nat :=
  if FlaggedChars = 0 then 0
  else
    count_transpositions_block_go get T flagged.P_flag flagged.T_flag
      (FlaggedChars + flagged.P_flag.length + flagged.T_flag.length + 1)
      0 0 (flagged.T_flag.getD 0 0) (flagged.P_flag.getD 0 0) FlaggedChars 0

/-! ## Bounds, trimming, prefix removal, and the scalar entry point -/

/-- `jaro_bounds(P_len, T_len)` (line 319): the sliding-window half-width
from the larger length. -/
def jaro_bounds_len (P_len T_len : Nat) : Int :=
  if T_len > P_len then (T_len : Int) / 2 - 1 else (P_len : Int) / 2 - 1

/-- The range overload of `jaro_bounds` (line 338): besides computing the
bound it drops the out-of-window suffix of the longer sequence
(`remove_suffix` is `List.take` of the kept length; the `Int.toNat` clamp
is only reached on inputs the callers filter out).  Returns
`(Bound, trimmed P, trimmed T)`. -/
def jaro_bounds_trim (P T : List Nat) : Int × List Nat × List Nat :=
  let P_len := P.length
  let T_len := T.length
  if T_len > P_len then
    let Bound : Int := (T_len : Int) / 2 - 1
    let T' := if (T_len : Int) > (P_len : Int) + Bound then
        T.take ((P_len : Int) + Bound).toNat else T
    (Bound, P, T')
  else
    let Bound : Int := (P_len : Int) / 2 - 1
    let P' := if (P_len : Int) > (T_len : Int) + Bound then
        P.take ((T_len : Int) + Bound).toNat else P
    (Bound, P', T)

/-- Modelled from the spec: `remove_common_prefix` (`details/common.hpp`,
not under `src/`) — length of the longest common prefix, which both
ranges then drop. -/
def commonPrefixLength : List Nat → List Nat → Nat
  | a :: as, b :: bs => if a = b then commonPrefixLength as bs + 1 else 0
  | _, _ => 0

/-- `jaro_similarity(P, T, score_cutoff)` (line 358), the scalar entry
point: degenerate cases, length filter, 1×1 shortcut, bound computation
with suffix trim, common-prefix strip, dispatch to the word or block
flagger, common-character filter, transposition count, final score and
cutoff threshold.  All formulas use the original lengths. -/
def jaro_similarity (P T : List Nat) (score_cutoff : ℚ) : ℚ :=
  let P_len := P.length
  let T_len := T.length
  if 1 < score_cutoff then 0
  else if P_len = 0 ∧ T_len = 0 then 1
  else if !jaro_length_filter P_len T_len score_cutoff then 0
  else if P_len = 1 ∧ T_len = 1 then (if P.getD 0 0 = T.getD 0 0 then 1 else 0)
  else
    let bt := jaro_bounds_trim P T
    let Bound := bt.1
    let P1 := bt.2.1
    let T1 := bt.2.2
    let l := commonPrefixLength P1 T1
    let P2 := P1.drop l
    let T2 := T1.drop l
    if P2.length = 0 ∨ T2.length = 0 then
      let Sim := jaro_calculate_similarity P_len T_len l 0
      if Sim ≥ score_cutoff then Sim else 0
    else if P2.length ≤ 64 ∧ T2.length ≤ 64 then
      let get0 := occMask P2
      let flagged := flag_similar_characters_word get0 T2 Bound
      let CommonChars := l + count_common_chars_word flagged
      if !jaro_common_char_filter P_len T_len CommonChars score_cutoff then 0
      else
        let Transpositions := count_transpositions_word get0 T2 flagged
        let Sim := jaro_calculate_similarity P_len T_len CommonChars Transpositions
        if Sim ≥ score_cutoff then Sim else 0
    else
      let get := blockGet P2
      let flagged := flag_similar_characters_block get P2.length T2 Bound
      let FlaggedChars := count_common_chars_multiword flagged
      let CommonChars := l + FlaggedChars
      if !jaro_common_char_filter P_len T_len CommonChars score_cutoff then 0
      else
        let Transpositions := count_transpositions_block get T2 flagged FlaggedChars
        let Sim := jaro_calculate_similarity P_len T_len CommonChars Transpositions
        if Sim ≥ score_cutoff then Sim else 0

/-! ## Reference flagging semantics (the spec's description)

Spec §4.4/§4.5: at every text position `j` the admissible reference
position range is `[max(0, j−Bound), min(P_len−1, j+Bound)]`, and the
lowest not-yet-flagged matching reference position is taken ("first match
within the window wins", strict ascending-position priority).  These
definitions transcribe that description; the flaggers are later proved
equal to them. -/

/-- Is reference position `p` inside the admissible window of text
position `j`? -/
def refWindow (B : Int) (j p : Nat) : Bool :=
  decide ((j : Int) - B ≤ (p : Int)) && decide ((p : Int) ≤ (j : Int) + B)

/-- Can reference position `p` be newly flagged against text symbol `c` at
text position `j`? -/
def refCond (P : List Nat) (B : Int) (fl : FlaggedCharsWord) (c : Nat) (j p : Nat) : Bool :=
  decide (P.getD p 0 = c) && !(fl.P_flag.testBit p) && refWindow B j p

/-- One reference flagging step: flag the lowest admissible unflagged
match, if any, and record text bit `j` exactly when a match was found. -/
def refStep (P : List Nat) (B : Int) (j : Nat) (fl : FlaggedCharsWord) (c : Nat) :
    FlaggedCharsWord :=
  match findLowest (refCond P B fl c j) 0 P.length with
  | some p => ⟨fl.P_flag ||| (1 <<< p), fl.T_flag ||| (1 <<< j)⟩
  | none => fl

/-- Reference flagging of a text suffix starting at position `j`. -/
def refFlagGo (P : List Nat) (B : Int) : Nat → FlaggedCharsWord → List Nat → FlaggedCharsWord
  | _, fl, [] => fl
  | j, fl, c :: rest => refFlagGo P B (j + 1) (refStep P B j fl c) rest

/-- Reference flagging of the whole text. -/
def refFlag (P T : List Nat) (B : Int) : FlaggedCharsWord := refFlagGo P B 0 ⟨0, 0⟩ T

/-- Reference transposition count (spec §4.6): walk the matched reference
and text positions in increasing order in lockstep and count the aligned
pairs whose symbols differ. -/
def refTrans (P T : List Nat) (pf tf : Nat) : Nat :=
  ((bitsBelow P.length pf).zip (bitsBelow T.length tf)).countP
    (fun pr => decide (P.getD pr.1 0 ≠ T.getD pr.2 0))

/-! ## Basic lemmas about the bit-level helpers -/

theorem findLowest_some {f : Nat → Bool} :
    ∀ {r s p : Nat}, findLowest f s r = some p →
      s ≤ p ∧ p < s + r ∧ f p = true ∧ ∀ q, s ≤ q → q < p → f q = false := by
  intro r
  induction r with
  | zero => intro s p h; simp [findLowest] at h
  | succ r ih =>
    intro s p h
    by_cases hf : f s
    · rw [findLowest, if_pos hf] at h
      cases h
      exact ⟨le_rfl, by omega, hf, fun q h1 h2 => absurd (h1.trans_lt h2) (lt_irrefl _)⟩
    · rw [findLowest, if_neg hf] at h
      obtain ⟨h1, h2, h3, h4⟩ := ih h
      refine ⟨by omega, by omega, h3, ?_⟩
      intro q hq1 hq2
      rcases Nat.eq_or_lt_of_le hq1 with rfl | hlt
      · exact Bool.not_eq_true _ ▸ (Bool.eq_false_iff.mpr hf)
      · exact h4 q hlt hq2

theorem findLowest_none {f : Nat → Bool} :
    ∀ {r s : Nat}, findLowest f s r = none ↔ ∀ q, s ≤ q → q < s + r → f q = false := by
  intro r
  induction r with
  | zero => intro s; simp [findLowest]; intro q h1 h2; omega
  | succ r ih =>
    intro s
    by_cases hf : f s
    · simp only [findLowest, if_pos hf]
      constructor
      · intro h; cases h
      · intro h
        have := h s le_rfl (by omega)
        rw [hf] at this; cases this
    · simp only [findLowest, if_neg hf, ih]
      constructor
      · intro h q hq1 hq2
        rcases Nat.eq_or_lt_of_le hq1 with rfl | hlt
        · exact Bool.eq_false_iff.mpr hf
        · exact h q hlt (by omega)
      · intro h q hq1 hq2
        exact h q (by omega) (by omega)

theorem testBit_false_of_lt_two_pow {n k p : Nat} (hn : n < 2 ^ k) (hp : k ≤ p) :
    n.testBit p = false :=
  Nat.testBit_lt_two_pow (lt_of_lt_of_le hn (Nat.pow_le_pow_right (by norm_num) hp))

theorem exists_testBit_of_ne_zero {n : Nat} (hn : n ≠ 0) : ∃ i, n.testBit i = true := by
  by_contra h
  push_neg at h
  exact hn (Nat.eq_of_testBit_eq (fun i => by
    rw [Nat.zero_testBit]
    exact Bool.eq_false_iff.mpr (h i)))

theorem countr_zero_spec {n : Nat} (hn : n ≠ 0) (h64 : n < 2 ^ 64) :
    countr_zero n < 64 ∧ n.testBit (countr_zero n) = true ∧
      ∀ q, q < countr_zero n → n.testBit q = false := by
  unfold countr_zero
  cases hfind : findLowest (fun i => n.testBit i) 0 64 with
  | none =>
    exfalso
    rw [findLowest_none] at hfind
    obtain ⟨i, hi⟩ := exists_testBit_of_ne_zero hn
    by_cases h : i < 64
    · rw [hfind i (Nat.zero_le _) (by omega)] at hi; cases hi
    · rw [testBit_false_of_lt_two_pow h64 (by omega)] at hi; cases hi
  | some p =>
    obtain ⟨_, h2, h3, h4⟩ := findLowest_some hfind
    exact ⟨by simpa using h2, h3, fun q hq => h4 q (Nat.zero_le _) hq⟩

theorem blsi_eq_two_pow {n : Nat} (hn : n ≠ 0) : blsi n = 2 ^ countr_zero n := by
  simp [blsi, hn, Nat.one_shiftLeft]

theorem blsi_zero : blsi 0 = 0 := rfl

theorem testBit_blsi {n p : Nat} :
    (blsi n).testBit p = (decide (n ≠ 0) && decide (p = countr_zero n)) := by
  by_cases hn : n = 0
  · subst hn; simp [blsi_zero]
  · rw [blsi_eq_two_pow hn]
    by_cases hp : p = countr_zero n
    · subst hp; simp [hn, Nat.testBit_two_pow_self]
    · simp [hn, hp, Nat.testBit_two_pow_of_ne (Ne.symm hp)]

theorem testBit_blsr {n p : Nat} (h64 : n < 2 ^ 64) :
    (blsr n).testBit p = (n.testBit p && !(decide (n ≠ 0) && decide (p = countr_zero n))) := by
  rw [blsr, Nat.testBit_xor, testBit_blsi]
  by_cases hn : n = 0
  · subst hn; simp
  · by_cases hp : p = countr_zero n
    · subst hp; simp [hn, (countr_zero_spec hn h64).2.1]
    · simp [hn, hp]

theorem countBits_zero_right (k : Nat) : countBits k 0 = 0 := by
  simp [countBits, bitsBelow]

theorem countBits_succ (k n : Nat) :
    countBits (k + 1) n = countBits k n + (if n.testBit k then 1 else 0) := by
  simp only [countBits, bitsBelow, List.range_succ, List.filter_append, List.length_append]
  by_cases h : n.testBit k <;> simp [h]

theorem countBits_congr {k a b : Nat} (h : ∀ i, i < k → a.testBit i = b.testBit i) :
    countBits k a = countBits k b := by
  simp only [countBits, bitsBelow]
  rw [List.filter_congr]
  intro x hx
  rw [List.mem_range] at hx
  exact h x hx

theorem bitsBelow_eq_nil {k n : Nat} (h : ∀ i, i < k → n.testBit i = false) :
    bitsBelow k n = [] := by
  simp only [bitsBelow, List.filter_eq_nil_iff]
  intro x hx
  rw [List.mem_range] at hx
  simp [h x hx]

theorem countBits_high {k K n : Nat} (hk : k ≤ K)
    (h : ∀ i, k ≤ i → n.testBit i = false) : countBits K n = countBits k n := by
  induction K, hk using Nat.le_induction with
  | base => rfl
  | succ m hm ih => rw [countBits_succ, ih, h m (by omega)]; simp

theorem countBits_le (k n : Nat) : countBits k n ≤ k := by
  calc countBits k n ≤ (List.range k).length := List.length_filter_le _ _
  _ = k := List.length_range k

theorem countBits_lor_disjoint {k a b : Nat}
    (h : ∀ i, ¬(a.testBit i = true ∧ b.testBit i = true)) :
    countBits k (a ||| b) = countBits k a + countBits k b := by
  induction k with
  | zero => rfl
  | succ m ih =>
    rw [countBits_succ, countBits_succ, countBits_succ, ih, Nat.testBit_lor]
    have := h m
    by_cases ha : a.testBit m <;> by_cases hb : b.testBit m <;> simp [ha, hb] at this ⊢ <;> omega

theorem countBits_two_pow {k p : Nat} (h : p < k) : countBits k (2 ^ p) = 1 := by
  have h0 : countBits p (2 ^ p) = 0 := by
    rw [show countBits p (2 ^ p) = countBits p 0 from
      countBits_congr (fun i hi => by
        rw [Nat.testBit_two_pow_of_ne (by omega), Nat.zero_testBit])]
    exact countBits_zero_right p
  have h1 : countBits k (2 ^ p) = countBits (p + 1) (2 ^ p) :=
    countBits_high (by omega) (fun i hi => Nat.testBit_two_pow_of_ne (by omega))
  rw [h1, countBits_succ, h0, Nat.testBit_two_pow_self, if_pos rfl]

theorem bitsBelow_succ (k n : Nat) :
    bitsBelow (k + 1) n = bitsBelow k n ++ if n.testBit k then [k] else [] := by
  simp only [bitsBelow, List.range_succ, List.filter_append]
  by_cases h : n.testBit k <;> simp [h]

theorem testBit_xor_two_pow (n c i : Nat) :
    (n ^^^ (1 <<< c)).testBit i = (n.testBit i != decide (i = c)) := by
  rw [Nat.testBit_xor, Nat.one_shiftLeft]
  by_cases h : i = c
  · subst h; simp [Nat.testBit_two_pow_self]
  · simp [h, Nat.testBit_two_pow_of_ne (Ne.symm h)]

theorem bitsBelow_cons {c n : Nat} (hbit : n.testBit c = true)
    (hlow : ∀ q, q < c → n.testBit q = false) :
    ∀ {k : Nat}, c < k → bitsBelow k n = c :: bitsBelow k (n ^^^ (1 <<< c)) := by
  intro k
  induction k with
  | zero => omega
  | succ m ih =>
    intro hc
    rcases Nat.lt_or_ge c m with hlt | hge
    · have hcond : (n ^^^ (1 <<< c)).testBit m = n.testBit m := by
        rw [testBit_xor_two_pow]; simp [show m ≠ c by omega]
      rw [bitsBelow_succ, bitsBelow_succ, ih hlt, hcond, List.cons_append]
    · have hcm : c = m := by omega
      subst hcm
      have hxc : (n ^^^ (1 <<< c)).testBit c = false := by
        rw [testBit_xor_two_pow]; simp [hbit]
      have hlow' : ∀ q, q < c → (n ^^^ (1 <<< c)).testBit q = false := by
        intro q hq
        rw [testBit_xor_two_pow]; simp [hlow q hq, show q ≠ c by omega]
      rw [bitsBelow_succ, bitsBelow_succ, bitsBelow_eq_nil hlow, bitsBelow_eq_nil hlow',
        hxc, hbit]
      simp

theorem lt_two_pow_of_high_false {n k : Nat} (h : ∀ i, k ≤ i → n.testBit i = false) :
    n < 2 ^ k := by
  by_contra hc
  obtain ⟨i, hi, hbit⟩ := @Nat.ge_two_pow_implies_high_bit_true k n (by omega)
  rw [h i hi] at hbit
  cases hbit

theorem testBit_comp64 {n : Nat} (h : n < 2 ^ 64) (p : Nat) :
    (comp64 n).testBit p = (decide (p < 64) && !n.testBit p) := by
  rw [comp64, Nat.testBit_xor, Nat.testBit_two_pow_sub_one]
  by_cases hp : p < 64
  · simp [hp]
  · have hn : n.testBit p = false := testBit_false_of_lt_two_pow h (by omega)
    simp [hp, hn]

theorem comp64_lt {n : Nat} (h : n < 2 ^ 64) : comp64 n < 2 ^ 64 :=
  Nat.xor_lt_two_pow (by norm_num) h

theorem testBit_bit_mask_lsb (n : Int) (p : Nat) :
    (bit_mask_lsb n).testBit p = decide ((p : Int) < n ∧ p < 64) := by
  unfold bit_mask_lsb
  rcases le_or_lt n 0 with h0 | h0
  · rw [if_pos h0]
    have : ¬((p : Int) < n) := by omega
    simp [this]
  · rw [if_neg (by omega)]
    rcases lt_or_ge n 64 with h64 | h64
    · rw [if_pos h64, Nat.one_shiftLeft, Nat.testBit_two_pow_sub_one]
      exact decide_eq_decide.mpr (by omega)
    · rw [if_neg (by omega), Nat.one_shiftLeft, Nat.testBit_two_pow_sub_one]
      exact decide_eq_decide.mpr (by omega)

theorem bit_mask_lsb_lt (n : Int) : bit_mask_lsb n < 2 ^ 64 :=
  lt_two_pow_of_high_false (fun i hi => by
    rw [testBit_bit_mask_lsb]
    simp only [decide_eq_false_iff_not]
    omega)

theorem testBit_occMask (P : List Nat) (c : Nat) :
    ∀ p, (occMask P c).testBit p = (decide (p < P.length) && decide (P.getD p 0 = c)) := by
  induction P with
  | nil => intro p; simp [occMask]
  | cons a rest ih =>
    intro p
    rw [occMask, Nat.testBit_lor]
    cases p with
    | zero =>
      have h1 : ((occMask rest c) <<< 1).testBit 0 = false := by
        simp [Nat.testBit_shiftLeft]
      rw [h1]
      by_cases h : a = c <;> simp [h, List.getD]
    | succ q =>
      have h1 : (if a = c then (1 : Nat) else 0).testBit (q + 1) = false := by
        by_cases h : a = c
        · rw [if_pos h]
          exact testBit_false_of_lt_two_pow (show (1 : Nat) < 2 ^ 1 by norm_num) (by omega)
        · rw [if_neg h]; simp
      have h2 : ((occMask rest c) <<< 1).testBit (q + 1) = (occMask rest c).testBit q := by
        rw [Nat.testBit_shiftLeft]
        simp
      rw [h1, h2, ih q]
      simp [List.getD]

theorem occMask_lt (P : List Nat) (c : Nat) : occMask P c < 2 ^ P.length :=
  lt_two_pow_of_high_false (fun i hi => by
    rw [testBit_occMask]
    simp only [Bool.and_eq_false_imp, decide_eq_true_eq, decide_eq_false_iff_not]
    omega)

theorem occMask_lt64 (P : List Nat) (c : Nat) (h : P.length ≤ 64) : occMask P c < 2 ^ 64 :=
  lt_of_lt_of_le (occMask_lt P c) (Nat.pow_le_pow_right (by norm_num) h)

/-! ## Word-path flagger = reference semantics -/

/-- `refStep` either leaves the state alone or flags one fresh reference
position `p < P_len` (and text bit `j`). -/
theorem refStep_cases (P : List Nat) (B : Int) (j : Nat) (fl : FlaggedCharsWord) (c : Nat) :
    refStep P B j fl c = fl ∨
      ∃ p, p < P.length ∧ refCond P B fl c j p = true ∧
        refStep P B j fl c = ⟨fl.P_flag ||| (1 <<< p), fl.T_flag ||| (1 <<< j)⟩ := by
  unfold refStep
  cases hfind : findLowest (refCond P B fl c j) 0 P.length with
  | none => exact Or.inl rfl
  | some p =>
    obtain ⟨_, h2, h3, _⟩ := findLowest_some hfind
    exact Or.inr ⟨p, by omega, h3, rfl⟩

/-- Pointwise description of the word step's candidate mask `PM_j`. -/
theorem word_PMj_testBit {get0 : Nat → Nat} {P : List Nat} {B : Int} {L : Nat}
    (hP : P.length ≤ 64)
    (h1 : ∀ c p, p < P.length → (get0 c).testBit p = decide (P.getD p 0 = c))
    (h2 : ∀ c p, P.length ≤ p → (p : Int) ≤ (L : Int) - 1 + B → (get0 c).testBit p = false)
    {j : Nat} (hj : j < L)
    {mask : Nat} (hmask64 : mask < 2 ^ 64)
    (hmask : ∀ p, p < 64 →
      mask.testBit p = decide ((j : Int) - B ≤ (p : Int) ∧ (p : Int) ≤ (j : Int) + B))
    {fl : FlaggedCharsWord} (hfl64 : fl.P_flag < 2 ^ 64)
    (c : Nat) :
    ∀ q, (get0 c &&& mask &&& comp64 fl.P_flag).testBit q =
      (decide (q < P.length) && refCond P B fl c j q) := by
  intro q
  rw [Nat.testBit_land, Nat.testBit_land, testBit_comp64 hfl64]
  by_cases hq64 : q < 64
  · by_cases hqP : q < P.length
    · have hwin : decide ((j : Int) - B ≤ (q : Int) ∧ (q : Int) ≤ (j : Int) + B) =
          (decide ((j : Int) - B ≤ (q : Int)) && decide ((q : Int) ≤ (j : Int) + B)) := by
        by_cases hA : (j : Int) - B ≤ (q : Int) <;>
          by_cases hB : (q : Int) ≤ (j : Int) + B <;> simp [hA, hB]
      rw [h1 c q hqP, hmask q hq64, hwin]
      simp only [refCond, refWindow]
      cases hd1 : decide (P.getD q 0 = c) <;>
        cases hd2 : fl.P_flag.testBit q <;>
        cases hd3 : decide ((j : Int) - B ≤ (q : Int)) <;>
        cases hd4 : decide ((q : Int) ≤ (j : Int) + B) <;>
        simp [hq64, hqP]
    · by_cases hw : ((j : Int) - B ≤ (q : Int) ∧ (q : Int) ≤ (j : Int) + B)
      · rw [h2 c q (by omega) (by omega)]
        simp [hqP]
      · have hm : mask.testBit q = false := by
          rw [hmask q hq64, decide_eq_false_iff_not]
          exact hw
        rw [hm]
        simp [hqP]
  · rw [testBit_false_of_lt_two_pow hmask64 (by omega)]
    simp [show ¬(q < P.length) by omega]

/-- The word step computes exactly `refStep`. -/
theorem word_step_eq_refStep {get0 : Nat → Nat} {P : List Nat} {B : Int} {L : Nat}
    (hP : P.length ≤ 64)
    (h1 : ∀ c p, p < P.length → (get0 c).testBit p = decide (P.getD p 0 = c))
    (h2 : ∀ c p, P.length ≤ p → (p : Int) ≤ (L : Int) - 1 + B → (get0 c).testBit p = false)
    {j : Nat} (hj : j < L)
    {mask : Nat} (hmask64 : mask < 2 ^ 64)
    (hmask : ∀ p, p < 64 →
      mask.testBit p = decide ((j : Int) - B ≤ (p : Int) ∧ (p : Int) ≤ (j : Int) + B))
    {fl : FlaggedCharsWord} (hfl64 : fl.P_flag < 2 ^ 64)
    (c : Nat) :
    (⟨fl.P_flag ||| blsi (get0 c &&& mask &&& comp64 fl.P_flag),
      fl.T_flag ||| ((if (get0 c &&& mask &&& comp64 fl.P_flag) ≠ 0 then 1 else 0) <<< j)⟩ :
      FlaggedCharsWord) = refStep P B j fl c := by
  have hbit := word_PMj_testBit hP h1 h2 hj hmask64 hmask hfl64 c
  set PM := get0 c &&& mask &&& comp64 fl.P_flag with hPM
  have hhigh : ∀ q, P.length ≤ q → PM.testBit q = false := by
    intro q hq
    rw [hbit q]
    simp [show ¬(q < P.length) by omega]
  have hPM64 : PM < 2 ^ 64 := lt_two_pow_of_high_false (fun i hi => hhigh i (by omega))
  unfold refStep
  cases hfind : findLowest (refCond P B fl c j) 0 P.length with
  | none =>
    rw [findLowest_none] at hfind
    have hzero : PM = 0 := by
      apply Nat.eq_of_testBit_eq
      intro i
      rw [Nat.zero_testBit, hbit i]
      by_cases hiP : i < P.length
      · rw [hfind i (Nat.zero_le _) (by omega)]; simp
      · simp [hiP]
    rw [hzero]
    simp [blsi_zero]
  | some p =>
    obtain ⟨_, hplt, hcond, hlower⟩ := findLowest_some hfind
    have hplt' : p < P.length := by omega
    have hbitp : PM.testBit p = true := by rw [hbit p]; simp [hplt', hcond]
    have hlow : ∀ q, q < p → PM.testBit q = false := by
      intro q hq
      rw [hbit q, hlower q (Nat.zero_le _) hq]
      simp
    have hne : PM ≠ 0 := by
      intro h0
      rw [h0, Nat.zero_testBit] at hbitp
      cases hbitp
    obtain ⟨hc1, hc2, hc3⟩ := countr_zero_spec hne hPM64
    have hctz : countr_zero PM = p := by
      rcases Nat.lt_trichotomy (countr_zero PM) p with h | h | h
      · rw [hlow _ h] at hc2; cases hc2
      · exact h
      · rw [hc3 p h] at hbitp; cases hbitp
    rw [blsi_eq_two_pow hne, hctz, if_pos hne]
    simp [Nat.one_shiftLeft]

/-- Window-mask invariant is preserved by the word loop's mask update. -/
theorem word_mask_update {B : Int} {j : Nat} {mask : Nat}
    (hmask : ∀ p, p < 64 →
      mask.testBit p = decide ((j : Int) - B ≤ (p : Int) ∧ (p : Int) ≤ (j : Int) + B)) :
    ∀ p, p < 64 →
      ((if (j : Int) < B then ((mask <<< 1) ||| 1) % 2 ^ 64
        else (mask <<< 1) % 2 ^ 64).testBit p)
      = decide ((j + 1 : Int) - B ≤ (p : Int) ∧ (p : Int) ≤ (j + 1 : Int) + B) := by
  intro p hp
  have hshift : ∀ q, (mask <<< 1).testBit (q + 1) = mask.testBit q := by
    intro q
    rw [Nat.testBit_shiftLeft]
    simp
  have hshift0 : (mask <<< 1).testBit 0 = false := by
    rw [Nat.testBit_shiftLeft]
    simp
  by_cases hgrow : (j : Int) < B
  · rw [if_pos hgrow, Nat.testBit_mod_two_pow]
    rw [decide_eq_true hp, Bool.true_and]
    cases p with
    | zero =>
      rw [Nat.testBit_lor, hshift0, Nat.testBit_one_zero]
      simp only [Bool.false_or]
      symm
      rw [decide_eq_true_eq]
      push_cast
      omega
    | succ q =>
      rw [Nat.testBit_lor, hshift q,
        show (1 : Nat).testBit (q + 1) = false from
          testBit_false_of_lt_two_pow (show (1 : Nat) < 2 ^ 1 by norm_num) (by omega),
        hmask q (by omega)]
      simp only [Bool.or_false]
      exact decide_eq_decide.mpr (by push_cast; omega)
  · rw [if_neg hgrow, Nat.testBit_mod_two_pow]
    rw [decide_eq_true hp, Bool.true_and]
    cases p with
    | zero =>
      rw [hshift0]
      symm
      rw [decide_eq_false_iff_not]
      push_cast
      omega
    | succ q =>
      rw [hshift q, hmask q (by omega)]
      exact decide_eq_decide.mpr (by push_cast; omega)

/-- The word flagger's loop agrees with the reference flagging loop. -/
theorem flag_word_go_eq_refFlagGo {get0 : Nat → Nat} {P : List Nat} {B : Int} {L : Nat}
    (hP : P.length ≤ 64)
    (h1 : ∀ c p, p < P.length → (get0 c).testBit p = decide (P.getD p 0 = c))
    (h2 : ∀ c p, P.length ≤ p → (p : Int) ≤ (L : Int) - 1 + B → (get0 c).testBit p = false) :
    ∀ (rest : List Nat) (j mask : Nat) (fl : FlaggedCharsWord),
      j + rest.length ≤ L → mask < 2 ^ 64 →
      (∀ p, p < 64 →
        mask.testBit p = decide ((j : Int) - B ≤ (p : Int) ∧ (p : Int) ≤ (j : Int) + B)) →
      fl.P_flag < 2 ^ 64 →
      flag_similar_characters_word_go get0 B j mask fl rest = refFlagGo P B j fl rest := by
  intro rest
  induction rest with
  | nil => intro j mask fl _ _ _ _; rfl
  | cons c rest ih =>
    intro j mask fl hL hmask64 hmask hfl64
    rw [flag_similar_characters_word_go, refFlagGo]
    have hstep := word_step_eq_refStep hP h1 h2 (show j < L by simp at hL; omega)
      hmask64 hmask hfl64 c
    rw [hstep]
    have hfl64' : (refStep P B j fl c).P_flag < 2 ^ 64 := by
      rcases refStep_cases P B j fl c with h | ⟨p, hpP, _, h⟩
      · rw [h]; exact hfl64
      · rw [h]
        exact Nat.or_lt_two_pow hfl64 (by
          rw [Nat.one_shiftLeft]
          exact Nat.pow_lt_pow_right (by norm_num) (by omega))
    exact ih (j + 1) _ (refStep P B j fl c) (by simp at hL ⊢; omega)
      (by split <;> exact Nat.mod_lt _ (by norm_num)) (word_mask_update hmask) hfl64'

/-- The word flagger computes the reference flagging semantics, for any
occurrence function that agrees with `P` on the reference positions and is
silent on the positions the window can reach beyond them. -/
theorem flag_word_eq_refFlag {get0 : Nat → Nat} {P T : List Nat} {B : Int}
    (hP : P.length ≤ 64)
    (h1 : ∀ c p, p < P.length → (get0 c).testBit p = decide (P.getD p 0 = c))
    (h2 : ∀ c p, P.length ≤ p → (p : Int) ≤ (T.length : Int) - 1 + B →
      (get0 c).testBit p = false) :
    flag_similar_characters_word get0 T B = refFlag P T B := by
  unfold flag_similar_characters_word refFlag
  apply flag_word_go_eq_refFlagGo hP h1 h2
  · simp
  · exact bit_mask_lsb_lt _
  · intro p hp
    rw [testBit_bit_mask_lsb]
    exact decide_eq_decide.mpr (by push_cast; omega)
  · norm_num

/-- Instantiation: the word flagger fed the pattern's own occurrence masks
(the plain-overload configuration). -/
theorem flag_word_occ_eq_refFlag {P T : List Nat} {B : Int} (hP : P.length ≤ 64) :
    flag_similar_characters_word (occMask P) T B = refFlag P T B := by
  apply flag_word_eq_refFlag hP
  · intro c p hp
    rw [testBit_occMask]
    simp [hp]
  · intro c p hp _
    rw [testBit_occMask]
    simp only [Bool.and_eq_false_imp, decide_eq_true_eq, decide_eq_false_iff_not]
    omega

/-! ## Reference-level invariants -/

/-- The matching invariant of the reference flagging loop: reference flags
stay inside `[0, P_len)`, text flags inside `[0, j)`, and both flag sets
always have the same cardinality (each step adds one bit to each side or
to neither). -/
theorem refFlagGo_inv {P : List Nat} {B : Int} {K1 K2 : Nat} (hK1 : P.length ≤ K1) :
    ∀ (rest : List Nat) (j : Nat) (fl : FlaggedCharsWord),
      j + rest.length ≤ K2 →
      (∀ p, fl.P_flag.testBit p = true → p < P.length) →
      (∀ q, fl.T_flag.testBit q = true → q < j) →
      countBits K1 fl.P_flag = countBits K2 fl.T_flag →
      (∀ p, (refFlagGo P B j fl rest).P_flag.testBit p = true → p < P.length) ∧
      (∀ q, (refFlagGo P B j fl rest).T_flag.testBit q = true → q < j + rest.length) ∧
      countBits K1 (refFlagGo P B j fl rest).P_flag =
        countBits K2 (refFlagGo P B j fl rest).T_flag := by
  intro rest
  induction rest with
  | nil =>
    intro j fl _ hp ht hc
    exact ⟨hp, fun q hq => by simpa using (ht q hq).trans_le (by simp), hc⟩
  | cons c rest ih =>
    intro j fl hK2 hp ht hc
    rw [refFlagGo]
    have hstep : (∀ p, (refStep P B j fl c).P_flag.testBit p = true → p < P.length) ∧
        (∀ q, (refStep P B j fl c).T_flag.testBit q = true → q < j + 1) ∧
        countBits K1 (refStep P B j fl c).P_flag =
          countBits K2 (refStep P B j fl c).T_flag := by
      rcases refStep_cases P B j fl c with h | ⟨p, hpP, hcond, h⟩
      · rw [h]
        exact ⟨hp, fun q hq => (ht q hq).trans (by omega), hc⟩
      · rw [h]
        have hfresh : fl.P_flag.testBit p = false := by
          have := hcond
          unfold refCond at this
          cases hb : fl.P_flag.testBit p
          · rfl
          · rw [hb] at this; simp at this
        have hjfresh : fl.T_flag.testBit j = false := by
          cases hb : fl.T_flag.testBit j
          · rfl
          · exact absurd (ht j hb) (lt_irrefl j)
        constructor
        · intro p' hp'
          rw [Nat.testBit_lor, Nat.one_shiftLeft] at hp'
          rcases Bool.or_eq_true_iff.mp hp' with h' | h'
          · exact hp p' h'
          · rw [Nat.testBit_two_pow, decide_eq_true_eq] at h'
            omega
        constructor
        · intro q hq
          rw [Nat.testBit_lor, Nat.one_shiftLeft] at hq
          rcases Bool.or_eq_true_iff.mp hq with h' | h'
          · exact (ht q h').trans (by omega)
          · rw [Nat.testBit_two_pow, decide_eq_true_eq] at h'
            omega
        · rw [Nat.one_shiftLeft, Nat.one_shiftLeft,
            countBits_lor_disjoint (fun i h' => by
              rcases h' with ⟨h1', h2'⟩
              rw [Nat.testBit_two_pow, decide_eq_true_eq] at h2'
              subst h2'
              rw [hfresh] at h1'; cases h1'),
            countBits_lor_disjoint (fun i h' => by
              rcases h' with ⟨h1', h2'⟩
              rw [Nat.testBit_two_pow, decide_eq_true_eq] at h2'
              subst h2'
              rw [hjfresh] at h1'; cases h1'),
            countBits_two_pow (show p < K1 by omega),
            countBits_two_pow (show j < K2 by simp at hK2; omega), hc]
    obtain ⟨h1', h2', h3'⟩ := hstep
    have := ih (j + 1) (refStep P B j fl c) (by simp at hK2 ⊢; omega) h1' h2' h3'
    refine ⟨this.1, fun q hq => ?_, this.2.2⟩
    have := this.2.1 q hq
    simp at hK2 ⊢
    omega

/-- Invariants of the fully-run reference flagger. -/
theorem refFlag_inv {P T : List Nat} {B : Int} {K1 K2 : Nat}
    (hK1 : P.length ≤ K1) (hK2 : T.length ≤ K2) :
    (∀ p, (refFlag P T B).P_flag.testBit p = true → p < P.length) ∧
    (∀ q, (refFlag P T B).T_flag.testBit q = true → q < T.length) ∧
    countBits K1 (refFlag P T B).P_flag = countBits K2 (refFlag P T B).T_flag := by
  have := @refFlagGo_inv P B K1 K2 hK1 T 0 ⟨0, 0⟩ (by omega)
    (fun p hp => by simp at hp) (fun q hq => by simp at hq)
    (by rw [countBits_zero_right, countBits_zero_right])
  exact ⟨this.1, fun q hq => by have := this.2.1 q hq; omega, this.2.2⟩

theorem land_two_pow_eq_zero_iff {x p : Nat} : x &&& 2 ^ p = 0 ↔ x.testBit p = false := by
  constructor
  · intro h
    cases hb : x.testBit p
    · rfl
    · have : (x &&& 2 ^ p).testBit p = true := by
        rw [Nat.testBit_land, hb, Nat.testBit_two_pow_self]
        rfl
      rw [h, Nat.zero_testBit] at this
      cases this
  · intro h
    apply Nat.eq_of_testBit_eq
    intro i
    rw [Nat.testBit_land, Nat.zero_testBit]
    by_cases hip : i = p
    · subst hip; rw [h]; rfl
    · rw [Nat.testBit_two_pow_of_ne (Ne.symm hip)]
      simp

/-! ## Word transposition counter = reference transposition count -/

theorem ctw_go_eq_refTrans {get0 : Nat → Nat} {P T : List Nat}
    (h1 : ∀ c p, p < P.length → (get0 c).testBit p = decide (P.getD p 0 = c))
    (hP64 : P.length ≤ 64) (hT64 : T.length ≤ 64) :
    ∀ (n : Nat) (pf tf acc : Nat),
      (∀ p, pf.testBit p = true → p < P.length) →
      (∀ q, tf.testBit q = true → q < T.length) →
      countBits 64 pf = n → countBits 64 tf = n →
      count_transpositions_word_go get0 T n pf tf acc =
        acc + ((bitsBelow P.length pf).zip (bitsBelow T.length tf)).countP
          (fun pr => decide (P.getD pr.1 0 ≠ T.getD pr.2 0)) := by
  intro n
  induction n with
  | zero =>
    intro pf tf acc hpf htf hcp hct
    have : bitsBelow T.length tf = [] := by
      have h0 : countBits T.length tf = 0 := by
        rw [countBits_high hT64 (fun i hi => by
          cases hb : tf.testBit i
          · rfl
          · exact absurd (htf i hb) (by omega))] at hct
        exact hct
      exact List.length_eq_zero.mp h0
    rw [this]
    simp [count_transpositions_word_go]
  | succ n ih =>
    intro pf tf acc hpf htf hcp hct
    have htfne : tf ≠ 0 := by
      intro h0
      rw [h0, countBits_zero_right] at hct
      omega
    have hpfne : pf ≠ 0 := by
      intro h0
      rw [h0, countBits_zero_right] at hcp
      omega
    have htf64 : tf < 2 ^ 64 :=
      lt_two_pow_of_high_false (fun i hi => by
        cases hb : tf.testBit i
        · rfl
        · exact absurd (htf i hb) (by omega))
    have hpf64 : pf < 2 ^ 64 :=
      lt_two_pow_of_high_false (fun i hi => by
        cases hb : pf.testBit i
        · rfl
        · exact absurd (hpf i hb) (by omega))
    obtain ⟨hct1, hct2, hct3⟩ := countr_zero_spec htfne htf64
    obtain ⟨hcp1, hcp2, hcp3⟩ := countr_zero_spec hpfne hpf64
    have hctT : countr_zero tf < T.length := htf _ hct2
    have hcpP : countr_zero pf < P.length := hpf _ hcp2
    have hconsT : bitsBelow T.length tf =
        countr_zero tf :: bitsBelow T.length (tf ^^^ (1 <<< countr_zero tf)) :=
      bitsBelow_cons hct2 hct3 hctT
    have hconsP : bitsBelow P.length pf =
        countr_zero pf :: bitsBelow P.length (pf ^^^ (1 <<< countr_zero pf)) :=
      bitsBelow_cons hcp2 hcp3 hcpP
    rw [count_transpositions_word_go, if_neg (by exact htfne)]
    have hblsi : blsi pf = 1 <<< countr_zero pf := by rw [blsi, if_neg hpfne]
    have hblsr : blsr tf = tf ^^^ (1 <<< countr_zero tf) := by
      rw [blsr, blsi, if_neg htfne]
    have hcond : (get0 (T.getD (countr_zero tf) 0) &&& 2 ^ countr_zero pf = 0) ↔
        (P.getD (countr_zero pf) 0 ≠ T.getD (countr_zero tf) 0) := by
      rw [land_two_pow_eq_zero_iff, h1 _ _ hcpP]
      simp
    have hind : (if get0 (T.getD (countr_zero tf) 0) &&& blsi pf = 0 then 1 else 0) =
        (if P.getD (countr_zero pf) 0 ≠ T.getD (countr_zero tf) 0 then (1 : Nat) else 0) := by
      rw [hblsi, Nat.one_shiftLeft]
      exact if_congr hcond rfl rfl
    have hpf' : ∀ p, (pf ^^^ (1 <<< countr_zero pf)).testBit p = true → p < P.length := by
      intro p hp
      rw [testBit_xor_two_pow] at hp
      apply hpf p
      cases hb : pf.testBit p
      · exfalso
        rw [hb] at hp
        by_cases hpc : p = countr_zero pf
        · rw [hpc] at hb
          rw [hcp2] at hb
          cases hb
        · simp [hpc] at hp
      · rfl
    have htf' : ∀ q, (tf ^^^ (1 <<< countr_zero tf)).testBit q = true → q < T.length := by
      intro q hq
      rw [testBit_xor_two_pow] at hq
      apply htf q
      cases hb : tf.testBit q
      · exfalso
        rw [hb] at hq
        by_cases hqc : q = countr_zero tf
        · rw [hqc] at hb
          rw [hct2] at hb
          cases hb
        · simp [hqc] at hq
      · rfl
    have hcount64 : ∀ (m : Nat) (len : Nat), len ≤ 64 → (∀ p, m.testBit p = true → p < len) →
        countBits 64 m = countBits len m := by
      intro m len hlen hm
      exact countBits_high hlen (fun i hi => by
        cases hb : m.testBit i
        · rfl
        · exact absurd (hm i hb) (by omega))
    have hcp' : countBits 64 (pf ^^^ (1 <<< countr_zero pf)) = n := by
      have e1 : countBits P.length pf = 1 + countBits P.length (pf ^^^ (1 <<< countr_zero pf)) := by
        rw [countBits, countBits, hconsP]
        simp
        omega
      have e2 : countBits 64 pf = countBits P.length pf := hcount64 _ _ hP64 hpf
      have e3 : countBits 64 (pf ^^^ (1 <<< countr_zero pf)) =
          countBits P.length (pf ^^^ (1 <<< countr_zero pf)) := hcount64 _ _ hP64 hpf'
      omega
    have hct' : countBits 64 (tf ^^^ (1 <<< countr_zero tf)) = n := by
      have e1 : countBits T.length tf = 1 + countBits T.length (tf ^^^ (1 <<< countr_zero tf)) := by
        rw [countBits, countBits, hconsT]
        simp
        omega
      have e2 : countBits 64 tf = countBits T.length tf := hcount64 _ _ hT64 htf
      have e3 : countBits 64 (tf ^^^ (1 <<< countr_zero tf)) =
          countBits T.length (tf ^^^ (1 <<< countr_zero tf)) := hcount64 _ _ hT64 htf'
      omega
    rw [hblsr, hblsi,
      ih (pf ^^^ (1 <<< countr_zero pf)) (tf ^^^ (1 <<< countr_zero tf)) _ hpf' htf' hcp' hct',
      hconsT, hconsP, List.zip_cons_cons, List.countP_cons]
    rw [hblsi] at hind
    rw [hind]
    simp only [decide_eq_true_eq]
    omega

theorem count_transpositions_word_eq_refTrans {get0 : Nat → Nat} {P T : List Nat}
    {pf tf : Nat}
    (h1 : ∀ c p, p < P.length → (get0 c).testBit p = decide (P.getD p 0 = c))
    (hP64 : P.length ≤ 64) (hT64 : T.length ≤ 64)
    (hpf : ∀ p, pf.testBit p = true → p < P.length)
    (htf : ∀ q, tf.testBit q = true → q < T.length)
    (hcount : countBits 64 pf = countBits 64 tf) :
    count_transpositions_word get0 T ⟨pf, tf⟩ = refTrans P T pf tf := by
  unfold count_transpositions_word refTrans
  simp only
  rw [show popcount tf = countBits 64 tf from rfl]
  rw [ctw_go_eq_refTrans h1 hP64 hT64 (countBits 64 tf) pf tf 0 hpf htf hcount rfl]
  simp

/-! ## Small facts about prefix stripping and trimming -/

theorem commonPrefixLength_le_left : ∀ (a b : List Nat), commonPrefixLength a b ≤ a.length := by
  intro a
  induction a with
  | nil => intro b; cases b <;> simp [commonPrefixLength]
  | cons x xs ih =>
    intro b
    cases b with
    | nil => simp [commonPrefixLength]
    | cons y ys =>
      rw [commonPrefixLength]
      by_cases h : x = y
      · rw [if_pos h]
        simpa using ih ys
      · rw [if_neg h]
        simp

theorem commonPrefixLength_le_right : ∀ (a b : List Nat), commonPrefixLength a b ≤ b.length := by
  intro a
  induction a with
  | nil => intro b; cases b <;> simp [commonPrefixLength]
  | cons x xs ih =>
    intro b
    cases b with
    | nil => simp [commonPrefixLength]
    | cons y ys =>
      rw [commonPrefixLength]
      by_cases h : x = y
      · rw [if_pos h]
        simpa using ih ys
      · rw [if_neg h]
        simp

theorem jaro_length_filter_nonzero {P_len T_len : Nat} {c : ℚ}
    (h : jaro_length_filter P_len T_len c = true) : P_len ≠ 0 ∧ T_len ≠ 0 := by
  by_contra hc
  unfold jaro_length_filter at h
  rw [if_pos (by tauto)] at h
  cases h

/-- Shape of the trimming overload: the bound value and the two kept
ranges, by case. -/
theorem jaro_bounds_trim_spec (P T : List Nat) :
    (T.length > P.length →
      jaro_bounds_trim P T = ((T.length : Int) / 2 - 1, P,
        if (T.length : Int) > (P.length : Int) + ((T.length : Int) / 2 - 1) then
          T.take ((P.length : Int) + ((T.length : Int) / 2 - 1)).toNat else T)) ∧
    (¬(T.length > P.length) →
      jaro_bounds_trim P T = ((P.length : Int) / 2 - 1,
        (if (P.length : Int) > (T.length : Int) + ((P.length : Int) / 2 - 1) then
          P.take ((T.length : Int) + ((P.length : Int) / 2 - 1)).toNat else P), T)) := by
  constructor
  · intro h
    rw [jaro_bounds_trim, if_pos h]
  · intro h
    rw [jaro_bounds_trim, if_neg h]

/-! ## Claim C4 — the word-path flagger -/

/-- **C4**: for both lengths ≤ 64 and a `Bound` meeting the word-path
precondition, `flag_similar_characters_word` processes the text left to
right and at each position `j` flags exactly the lowest not-yet-flagged
reference position `p` with `P[p] = T[j]` and `p ∈ [j−Bound, j+Bound] ∩
[0, P_len)`, setting text bit `j` iff such `p` exists — that is, it
computes the reference greedy semantics `refFlag` (whose step takes the
lowest admissible unflagged match and records the text bit exactly on
success). -/
theorem word_flagger_matches_reference (P T : List Nat) (B : Int)
    (hP : P.length ≤ 64) (hT : T.length ≤ 64)
    (hpre : B > (P.length : Int) ∨ (P.length : Int) - B ≤ (T.length : Int)) :
    flag_similar_characters_word (occMask P) T B = refFlag P T B :=
  flag_word_occ_eq_refFlag hP

theorem word_flagger_matches_reference_witness :
    ([1, 2, 1] : List Nat).length ≤ 64 ∧ ([2, 1, 1] : List Nat).length ≤ 64 ∧
      ((1 : Int) > (([1, 2, 1] : List Nat).length : Int) ∨
        (([1, 2, 1] : List Nat).length : Int) - 1 ≤ (([2, 1, 1] : List Nat).length : Int)) ∧
      flag_similar_characters_word (occMask [1, 2, 1]) [2, 1, 1] 1 = refFlag [1, 2, 1] [2, 1, 1] 1 :=
  ⟨by decide, by decide, by decide,
    word_flagger_matches_reference [1, 2, 1] [2, 1, 1] 1 (by decide) (by decide)
      (by right; decide)⟩

/-! ## Claim C2 — the final score formula -/

/-- The score formula in the words of the spec (§4.7): common-character
ratios against both *original* lengths plus the transposition term, with
the raw transposition count halved by integer division. -/
def specScore (P_len T_len C traw : Nat) : ℚ :=
  ((C : ℚ) / (P_len : ℚ) + (C : ℚ) / (T_len : ℚ) +
      ((C : ℚ) - ((traw / 2 : Nat) : ℚ)) / (C : ℚ)) / 3

theorem jaro_calculate_similarity_eq_specScore (P_len T_len C traw : Nat) :
    jaro_calculate_similarity P_len T_len C traw = specScore P_len T_len C traw := rfl

/-- **C2**: whenever `jaro_similarity` reaches final scoring (any of its
three scoring sites), the value it thresholds against the cutoff is
exactly `(C/P_len + C/T_len + (C − traw/2)/C)/3` with integer halving of
the raw transposition count and with the original lengths `P.length`,
`T.length` (not the trimmed or prefix-stripped ones). -/
theorem final_score_formula (P T : List Nat) (c : ℚ) (Bound : Int)
    (P1 T1 : List Nat) (l : Nat)
    (hc : ¬ 1 < c)
    (hne : ¬(P.length = 0 ∧ T.length = 0))
    (hlen : jaro_length_filter P.length T.length c = true)
    (h11 : ¬(P.length = 1 ∧ T.length = 1))
    (hbt : jaro_bounds_trim P T = (Bound, P1, T1))
    (hl : l = commonPrefixLength P1 T1) :
    (((P1.drop l).length = 0 ∨ (T1.drop l).length = 0) →
      jaro_similarity P T c =
        (if specScore P.length T.length l 0 ≥ c then specScore P.length T.length l 0 else 0)) ∧
    (¬((P1.drop l).length = 0 ∨ (T1.drop l).length = 0) →
      ((P1.drop l).length ≤ 64 ∧ (T1.drop l).length ≤ 64) →
      ∀ C traw,
        C = l + count_common_chars_word
          (flag_similar_characters_word (occMask (P1.drop l)) (T1.drop l) Bound) →
        traw = count_transpositions_word (occMask (P1.drop l)) (T1.drop l)
          (flag_similar_characters_word (occMask (P1.drop l)) (T1.drop l) Bound) →
        jaro_common_char_filter P.length T.length C c = true →
        jaro_similarity P T c =
          (if specScore P.length T.length C traw ≥ c then specScore P.length T.length C traw
           else 0)) ∧
    (¬((P1.drop l).length = 0 ∨ (T1.drop l).length = 0) →
      ¬((P1.drop l).length ≤ 64 ∧ (T1.drop l).length ≤ 64) →
      ∀ C traw,
        C = l + count_common_chars_multiword
          (flag_similar_characters_block (blockGet (P1.drop l)) (P1.drop l).length
            (T1.drop l) Bound) →
        traw = count_transpositions_block (blockGet (P1.drop l)) (T1.drop l)
          (flag_similar_characters_block (blockGet (P1.drop l)) (P1.drop l).length
            (T1.drop l) Bound)
          (count_common_chars_multiword
            (flag_similar_characters_block (blockGet (P1.drop l)) (P1.drop l).length
              (T1.drop l) Bound)) →
        jaro_common_char_filter P.length T.length C c = true →
        jaro_similarity P T c =
          (if specScore P.length T.length C traw ≥ c then specScore P.length T.length C traw
           else 0)) := by
  unfold jaro_similarity
  rw [if_neg hc, if_neg hne, hlen]
  simp only [Bool.not_true, Bool.false_eq_true, if_false, if_neg h11, hbt, ← hl]
  refine ⟨?_, ?_, ?_⟩
  · intro hempty
    rw [if_pos hempty, jaro_calculate_similarity_eq_specScore]
  · intro hempty hword C traw hC htraw hccf
    rw [if_neg hempty, if_pos hword, ← hC, hccf]
    simp only [Bool.not_true, Bool.false_eq_true, if_false, ← htraw,
      jaro_calculate_similarity_eq_specScore]
  · intro hempty hword C traw hC htraw hccf
    rw [if_neg hempty, if_neg hword, ← hC, hccf]
    simp only [Bool.not_true, Bool.false_eq_true, if_false, ← htraw,
      jaro_calculate_similarity_eq_specScore]

theorem final_score_formula_witness :
    jaro_similarity [77, 65, 82, 84, 72, 65] [77, 65, 82, 72, 84, 65] 0 =
      (if specScore 6 6 6 2 ≥ 0 then specScore 6 6 6 2 else 0) :=
  (final_score_formula [77, 65, 82, 84, 72, 65] [77, 65, 82, 72, 84, 65] 0 2
      [77, 65, 82, 84, 72, 65] [77, 65, 82, 72, 84, 65] 3
      (by norm_num) (by decide) (by norm_num [jaro_length_filter]) (by decide)
      (by decide) (by decide)).2.1
    (by decide) (by decide) 6 2 (by decide) (by decide)
    (by norm_num [jaro_common_char_filter])

/-! ## Claim C10 — the flagger preconditions hold at the dispatch sites -/

/-- **C10**: whenever the scalar entry point reaches a flagger after its
filters, trimming and prefix stripping, the flagger's asserted
preconditions hold: on the word branch both remaining lengths are ≤ 64
(branch condition) and `Bound > P_len ∨ P_len − Bound ≤ T_len`; on the
block branch some remaining length exceeds 64, the same bound relation
holds, and `Bound ≥ 31`.  Hence the assertion-failure branches are
unreachable from `jaro_similarity`. -/
theorem dispatch_preconditions (P T : List Nat) (c : ℚ) (Bound : Int)
    (P1 T1 : List Nat) (l : Nat)
    (hlen : jaro_length_filter P.length T.length c = true)
    (h11 : ¬(P.length = 1 ∧ T.length = 1))
    (hbt : jaro_bounds_trim P T = (Bound, P1, T1))
    (hl : l = commonPrefixLength P1 T1)
    (hne2 : ¬((P1.drop l).length = 0 ∨ (T1.drop l).length = 0)) :
    (((P1.drop l).length ≤ 64 ∧ (T1.drop l).length ≤ 64) →
      (Bound > ((P1.drop l).length : Int) ∨
        ((P1.drop l).length : Int) - Bound ≤ ((T1.drop l).length : Int))) ∧
    (¬((P1.drop l).length ≤ 64 ∧ (T1.drop l).length ≤ 64) →
      (64 < (P1.drop l).length ∨ 64 < (T1.drop l).length) ∧
      (Bound > ((P1.drop l).length : Int) ∨
        ((P1.drop l).length : Int) - Bound ≤ ((T1.drop l).length : Int)) ∧
      31 ≤ Bound) := by
  obtain ⟨hP0, hT0⟩ := jaro_length_filter_nonzero hlen
  have hlP1 : l ≤ P1.length := hl ▸ commonPrefixLength_le_left P1 T1
  have hlT1 : l ≤ T1.length := hl ▸ commonPrefixLength_le_right P1 T1
  have hdropP : (P1.drop l).length = P1.length - l := List.length_drop l P1
  have hdropT : (T1.drop l).length = T1.length - l := List.length_drop l T1
  -- extract the case structure of the trimming overload
  have hmain : (Bound = (max P.length T.length : Int) / 2 - 1) ∧
      ((T.length > P.length ∧ P1.length = P.length ∧
          (T1.length : Int) = min (T.length : Int) ((P.length : Int) + Bound)) ∨
        (T.length ≤ P.length ∧ T1.length = T.length ∧
          (P1.length : Int) = min (P.length : Int) ((T.length : Int) + Bound))) := by
    unfold jaro_bounds_trim at hbt
    by_cases hTP : T.length > P.length
    · rw [if_pos hTP] at hbt
      simp only [Prod.mk.injEq] at hbt
      obtain ⟨hB, hP1, hT1⟩ := hbt
      constructor
      · rw [← hB]
        congr 1
        omega
      · left
        refine ⟨hTP, ?_, ?_⟩
        · rw [← hP1]
        · rw [← hT1]
          by_cases htrim : (T.length : Int) > (P.length : Int) + ((T.length : Int) / 2 - 1)
          · rw [if_pos htrim]
            rw [List.length_take]
            rw [← hB]
            have : (((P.length : Int) + Bound).toNat : Int) = (P.length : Int) + Bound := by
              rw [← hB]
              omega
            omega
          · rw [if_neg htrim]
            rw [← hB]
            omega
    · rw [if_neg hTP] at hbt
      simp only [Prod.mk.injEq] at hbt
      obtain ⟨hB, hP1, hT1⟩ := hbt
      constructor
      · rw [← hB]
        congr 1
        omega
      · right
        refine ⟨by omega, ?_, ?_⟩
        · rw [← hT1]
        · rw [← hP1]
          by_cases htrim : (P.length : Int) > (T.length : Int) + ((P.length : Int) / 2 - 1)
          · rw [if_pos htrim]
            rw [List.length_take]
            rw [← hB]
            have : (((T.length : Int) + Bound).toNat : Int) = (T.length : Int) + Bound := by
              rw [← hB]
              omega
            omega
          · rw [if_neg htrim]
            rw [← hB]
            omega
  obtain ⟨hB, hcases⟩ := hmain
  have h11' : P.length ≠ 1 ∨ T.length ≠ 1 := by tauto
  have hmax2 : 2 ≤ max P.length T.length := by omega
  have hB0 : 0 ≤ Bound := by rw [hB]; omega
  push_neg at hne2
  obtain ⟨hP2ne, hT2ne⟩ := hne2
  rw [hdropP] at hP2ne
  rw [hdropT] at hT2ne
  rw [hdropP, hdropT]
  rcases hcases with ⟨hTP, hP1len, hT1len⟩ | ⟨hTP, hT1len, hP1len⟩
  · constructor
    · intro _
      right
      push_cast
      rw [hB]
      omega
    · intro hblock
      refine ⟨by omega, Or.inr ?_, ?_⟩
      · push_cast
        rw [hB]
        omega
      · rw [hB]
        have hPb : P1.length ≤ max P.length T.length := by omega
        have hTb : (T1.length : Int) ≤ (max P.length T.length : Int) := by
          push_cast
          omega
        omega
  · constructor
    · intro _
      right
      push_cast
      rw [hB]
      omega
    · intro hblock
      refine ⟨by omega, Or.inr ?_, ?_⟩
      · push_cast
        rw [hB]
        omega
      · rw [hB]
        have hTb : T1.length ≤ max P.length T.length := by omega
        have hPb : (P1.length : Int) ≤ (max P.length T.length : Int) := by
          push_cast
          omega
        omega

theorem dispatch_preconditions_witness :
    ((3 : Nat) ≤ 64 ∧ (3 : Nat) ≤ 64 →
      ((2 : Int) > (3 : Nat) ∨ ((3 : Nat) : Int) - 2 ≤ ((3 : Nat) : Int))) ∧
    (¬((3 : Nat) ≤ 64 ∧ (3 : Nat) ≤ 64) →
      (64 < (3 : Nat) ∨ 64 < (3 : Nat)) ∧
      ((2 : Int) > (3 : Nat) ∨ ((3 : Nat) : Int) - 2 ≤ ((3 : Nat) : Int)) ∧
      31 ≤ (2 : Int)) :=
  dispatch_preconditions [77, 65, 82, 84, 72, 65] [77, 65, 82, 72, 84, 65] 0 2
    [77, 65, 82, 84, 72, 65] [77, 65, 82, 72, 84, 65] 3
    (by norm_num [jaro_length_filter]) (by decide) (by decide) (by decide) (by decide)

/-! ## Block-path machinery: combining per-word flag arrays -/

/-- View a little-endian array of 64-bit words as one big bitset. -/
def combineWords : List Nat → Nat
  | [] => 0
  | w :: ws => w ||| (combineWords ws <<< 64)

theorem getD_of_forall_mem {l : List Nat} (h : ∀ w ∈ l, w < 2 ^ 64) (i : Nat) :
    l.getD i 0 < 2 ^ 64 := by
  induction l generalizing i with
  | nil => simp [List.getD]
  | cons x xs ih =>
    cases i with
    | zero => exact h x (by simp)
    | succ n =>
      simp only [List.getD_cons_succ]
      exact ih (fun w hw => h w (by simp [hw])) n

theorem getD_set_eq (l : List Nat) (w v i : Nat) :
    (l.set w v).getD i 0 = if w = i ∧ w < l.length then v else l.getD i 0 := by
  induction l generalizing w i with
  | nil => simp [List.getD]
  | cons x xs ih =>
    cases w with
    | zero =>
      cases i with
      | zero => simp
      | succ n => simp
    | succ m =>
      cases i with
      | zero => simp
      | succ n =>
        simp only [List.set_cons_succ, List.getD_cons_succ, ih, List.length_cons]
        by_cases h : m = n ∧ m < xs.length
        · rw [if_pos h, if_pos (by omega)]
        · rw [if_neg h, if_neg (by omega)]

theorem combineWords_testBit {l : List Nat} (h : ∀ w ∈ l, w < 2 ^ 64) (i : Nat) :
    (combineWords l).testBit i = (l.getD (i / 64) 0).testBit (i % 64) := by
  induction l generalizing i with
  | nil => simp [combineWords, List.getD]
  | cons x xs ih =>
    rw [combineWords, Nat.testBit_lor, Nat.testBit_shiftLeft]
    by_cases hi : i < 64
    · have hge : ¬(i ≥ 64) := by omega
      rw [show i / 64 = 0 by omega, show i % 64 = i by omega]
      simp [hge]
    · have h1 : x.testBit i = false :=
        testBit_false_of_lt_two_pow (h x (by simp)) (by omega)
      rw [h1, Bool.false_or, decide_eq_true (by omega : i ≥ 64), Bool.true_and,
        ih (fun w hw => h w (by simp [hw])) (i - 64),
        show i / 64 = (i - 64) / 64 + 1 by omega, List.getD_cons_succ,
        show (i - 64) % 64 = i % 64 by omega]

theorem wf_set {l : List Nat} (h : ∀ w ∈ l, w < 2 ^ 64) {i v : Nat} (hv : v < 2 ^ 64) :
    ∀ w ∈ l.set i v, w < 2 ^ 64 := by
  intro w hw
  rcases List.mem_or_eq_of_mem_set hw with h' | h'
  · exact h w h'
  · exact h' ▸ hv

theorem combineWords_set_or {l : List Nat} (h : ∀ w ∈ l, w < 2 ^ 64) {w : Nat}
    (hw : w < l.length) {v : Nat} (hv : v < 2 ^ 64) :
    combineWords (l.set w (l.getD w 0 ||| v)) = combineWords l ||| (v <<< (64 * w)) := by
  have hwf' : ∀ x ∈ l.set w (l.getD w 0 ||| v), x < 2 ^ 64 :=
    wf_set h (Nat.or_lt_two_pow (getD_of_forall_mem h w) hv)
  apply Nat.eq_of_testBit_eq
  intro i
  rw [combineWords_testBit hwf' i, Nat.testBit_lor, combineWords_testBit h i,
    Nat.testBit_shiftLeft, getD_set_eq]
  by_cases hcase : w = i / 64
  · rw [if_pos ⟨hcase, hw⟩, Nat.testBit_lor, ← hcase,
      show i - 64 * w = i % 64 by omega, decide_eq_true (show i ≥ 64 * w by omega),
      Bool.true_and]
  · rw [if_neg (by tauto)]
    have : (decide (i ≥ 64 * w) && v.testBit (i - 64 * w)) = false := by
      by_cases hge : i ≥ 64 * w
      · have : 64 ≤ i - 64 * w := by omega
        rw [testBit_false_of_lt_two_pow hv this]
        simp
      · simp [hge]
    rw [this, Bool.or_false]

theorem countBits_shiftLeft (s m : Nat) : ∀ k, countBits (k + s) (m <<< s) = countBits k m := by
  intro k
  induction k with
  | zero =>
    rw [Nat.zero_add, show countBits 0 m = 0 from rfl, countBits, bitsBelow_eq_nil]
    · rfl
    · intro i hi
      rw [Nat.testBit_shiftLeft]
      simp [show ¬(i ≥ s) by omega]
  | succ k ih =>
    rw [show k + 1 + s = (k + s) + 1 by omega, countBits_succ, countBits_succ, ih,
      Nat.testBit_shiftLeft, decide_eq_true (show k + s ≥ s by omega), Bool.true_and,
      show k + s - s = k by omega]

theorem sum_popcount_eq_countBits {l : List Nat} (h : ∀ w ∈ l, w < 2 ^ 64) :
    (l.map popcount).sum = countBits (64 * l.length) (combineWords l) := by
  induction l with
  | nil => rfl
  | cons x xs ih =>
    have hx : x < 2 ^ 64 := h x (by simp)
    have hxs : ∀ w ∈ xs, w < 2 ^ 64 := fun w hw => h w (by simp [hw])
    have hdisj : ∀ i, ¬(x.testBit i = true ∧ (combineWords xs <<< 64).testBit i = true) := by
      intro i ⟨h1, h2⟩
      rw [Nat.testBit_shiftLeft] at h2
      have hi : i ≥ 64 := by
        by_contra hc
        simp [hc] at h2
      rw [testBit_false_of_lt_two_pow hx (by omega)] at h1
      cases h1
    have e1 : countBits (64 * xs.length + 64) x = popcount x := by
      rw [popcount]
      exact countBits_high (by omega) (fun i hi => testBit_false_of_lt_two_pow hx (by omega))
    have e2 : countBits (64 * xs.length + 64) (combineWords xs <<< 64) =
        countBits (64 * xs.length) (combineWords xs) :=
      countBits_shiftLeft 64 (combineWords xs) (64 * xs.length)
    rw [List.map_cons, List.sum_cons, combineWords, List.length_cons,
      show 64 * (xs.length + 1) = 64 * xs.length + 64 by ring,
      countBits_lor_disjoint hdisj, e1, e2, ih hxs]

theorem findLowest_some_iff {f : Nat → Bool} :
    ∀ {r s p : Nat}, findLowest f s r = some p ↔
      (s ≤ p ∧ p < s + r ∧ f p = true ∧ ∀ q, s ≤ q → q < p → f q = false) := by
  intro r
  induction r with
  | zero =>
    intro s p
    simp only [findLowest]
    constructor
    · intro h; cases h
    · intro ⟨h1, h2, _, _⟩; omega
  | succ r ih =>
    intro s p
    rw [findLowest]
    by_cases hf : f s
    · rw [if_pos hf]
      constructor
      · intro h; cases h
        exact ⟨le_rfl, by omega, hf, fun q h1 h2 => absurd (h1.trans_lt h2) (lt_irrefl _)⟩
      · intro ⟨h1, h2, h3, h4⟩
        rcases Nat.eq_or_lt_of_le h1 with h | h
        · rw [h]
        · rw [h4 s le_rfl h] at hf; cases hf
    · rw [if_neg hf, ih]
      constructor
      · intro ⟨h1, h2, h3, h4⟩
        refine ⟨by omega, by omega, h3, fun q hq1 hq2 => ?_⟩
        rcases Nat.eq_or_lt_of_le hq1 with h | h
        · rw [← h]; exact Bool.eq_false_iff.mpr hf
        · exact h4 q h hq2
      · intro ⟨h1, h2, h3, h4⟩
        have hsp : s ≠ p := by
          intro h
          rw [h] at hf
          exact hf h3
        exact ⟨by omega, by omega, h3, fun q hq1 hq2 => h4 q (by omega) hq2⟩

theorem scan_words_none_iff {pm : Nat → Nat} :
    ∀ {r w : Nat}, scan_words pm w r = none ↔ ∀ u, w ≤ u → u < w + r → pm u = 0 := by
  intro r
  induction r with
  | zero =>
    intro w
    simp only [scan_words]
    constructor
    · intro _ u h1 h2; omega
    · intro _; trivial
  | succ r ih =>
    intro w
    rw [scan_words]
    by_cases hp : pm w ≠ 0
    · rw [if_pos hp]
      constructor
      · intro h; cases h
      · intro h
        exact absurd (h w le_rfl (by omega)) hp
    · rw [if_neg hp, ih]
      push_neg at hp
      constructor
      · intro h u h1 h2
        rcases Nat.eq_or_lt_of_le h1 with h' | h'
        · rw [← h']; exact hp
        · exact h u h' (by omega)
      · intro h u h1 h2
        exact h u (by omega) (by omega)

theorem scan_words_some_iff {pm : Nat → Nat} :
    ∀ {r w w' : Nat}, scan_words pm w r = some w' ↔
      (w ≤ w' ∧ w' < w + r ∧ pm w' ≠ 0 ∧ ∀ u, w ≤ u → u < w' → pm u = 0) := by
  intro r
  induction r with
  | zero =>
    intro w w'
    simp only [scan_words]
    constructor
    · intro h; cases h
    · intro ⟨h1, h2, _, _⟩; omega
  | succ r ih =>
    intro w w'
    rw [scan_words]
    by_cases hp : pm w ≠ 0
    · rw [if_pos hp]
      constructor
      · intro h; cases h
        exact ⟨le_rfl, by omega, hp, fun u h1 h2 => absurd (h1.trans_lt h2) (lt_irrefl _)⟩
      · intro ⟨h1, h2, h3, h4⟩
        rcases Nat.eq_or_lt_of_le h1 with h | h
        · rw [h]
        · rw [h4 w le_rfl h] at hp; exact absurd rfl hp
    · rw [if_neg hp, ih]
      push_neg at hp
      constructor
      · intro ⟨h1, h2, h3, h4⟩
        refine ⟨by omega, by omega, h3, fun u hu1 hu2 => ?_⟩
        rcases Nat.eq_or_lt_of_le hu1 with h | h
        · rw [← h]; exact hp
        · exact h4 u h hu2
      · intro ⟨h1, h2, h3, h4⟩
        have hwp : w ≠ w' := by
          intro h
          rw [← h] at h3
          exact h3 hp
        exact ⟨by omega, by omega, h3, fun u hu1 hu2 => h4 u (by omega) hu2⟩

theorem scan_words_unrolled_eq (pm : Nat → Nat) :
    ∀ r w, scan_words_unrolled pm w r = scan_words pm w r := by
  intro r
  induction r using Nat.strong_induction_on with
  | _ r ih =>
    intro w
    match r with
    | 0 => rfl
    | 1 => rfl
    | 2 => rfl
    | 3 => rfl
    | r + 4 =>
      rw [scan_words_unrolled, ih r (by omega) (w + 4)]
      rw [scan_words, scan_words, scan_words, scan_words]

/-! ## The block path's sliding-window invariant -/

/-- Lower end (inclusive) of the admissible reference window at text
position `j`: `max(0, j − Bound)`. -/
def winLo (B : Int) (j : Nat) : Nat := ((j : Int) - B).toNat

/-- Upper end (exclusive) of the admissible reference window at text
position `j`, clamped to the reference length: `min(P_len, j + Bound + 1)`. -/
def winHi (Plen : Nat) (B : Int) (j : Nat) : Nat :=
  min Plen (((j : Int) + B + 1).toNat)

/-- What the `SearchBoundMask` state means at text position `j`: the
retired words cover exactly the positions below the window, `first_mask`
keeps the bits from `winLo` upward in its word, the covered words reach
exactly up to `winHi`, and `last_mask` keeps the bits below `winHi` in the
final covered word. -/
def BMinv (Plen : Nat) (B : Int) (j : Nat) (BM : SearchBoundMask) : Prop :=
  1 ≤ BM.words ∧
  BM.empty_words = winLo B j / 64 ∧
  BM.first_mask = 2 ^ 64 - 2 ^ (winLo B j % 64) ∧
  64 * (BM.empty_words + BM.words - 1) ≤ winHi Plen B j ∧
  winHi Plen B j ≤ 64 * (BM.empty_words + BM.words) ∧
  BM.last_mask = 2 ^ (winHi Plen B j - 64 * (BM.empty_words + BM.words - 1)) - 1 ∧
  (winHi Plen B j = 64 * (BM.empty_words + BM.words) → winHi Plen B j = Plen)

theorem high_mask_testBit {k : Nat} (hk : k ≤ 64) (i : Nat) :
    (2 ^ 64 - 2 ^ k).testBit i = decide (k ≤ i ∧ i < 64) := by
  have he : 2 ^ 64 - 2 ^ k = (2 ^ (64 - k) - 1) <<< k := by
    rw [Nat.shiftLeft_eq, Nat.sub_mul, ← Nat.pow_add, Nat.one_mul,
      show 64 - k + k = 64 by omega]
  rw [he, Nat.testBit_shiftLeft, Nat.testBit_two_pow_sub_one]
  by_cases h1 : k ≤ i
  · by_cases h2 : i < 64
    · simp [h1, h2, show i - k < 64 - k by omega, ge_iff_le]
    · simp [h1, h2, show ¬(i - k < 64 - k) by omega, ge_iff_le]
  · simp [h1, show ¬(i ≥ k) by omega]

theorem findLowest_shrink {f : Nat → Bool} {len lo hi : Nat} (hhi : hi ≤ len)
    (h : ∀ q, q < len → f q = true → (lo ≤ q ∧ q < hi)) :
    findLowest f 0 len = findLowest f lo (hi - lo) := by
  cases hR : findLowest f lo (hi - lo) with
  | none =>
    rw [findLowest_none] at hR ⊢
    intro q hq0 hqlen
    cases hf : f q
    · rfl
    · obtain ⟨h1, h2⟩ := h q (by omega) hf
      rw [hR q h1 (by omega)] at hf
      cases hf
  | some p =>
    obtain ⟨h1, h2, h3, h4⟩ := findLowest_some hR
    rw [findLowest_some_iff]
    refine ⟨Nat.zero_le _, ?_, h3, ?_⟩
    · have := (h p (by omega) h3).2
      omega
    · intro q _ hq
      cases hf : f q
      · rfl
      · obtain ⟨hq1, _⟩ := h q (by omega) hf
        rw [h4 q hq1 hq] at hf
        cases hf

/-- Reading a masked word of candidates: if every bit of `V` below 64 is
the candidate predicate of the corresponding global position in the
segment `[base+a, base+b)` then `V = 0` exactly when the segment has no
candidate. -/
theorem segment_none_iff {V : Nat} {F : Nat → Bool} {base a b : Nat}
    (hbit : ∀ t, t < 64 → V.testBit t = (decide (a ≤ t ∧ t < b) && F (base + t)))
    (hb : b ≤ 64) (hV64 : V < 2 ^ 64) :
    (V = 0 ↔ ∀ q, base + a ≤ q → q < base + b → F q = false) := by
  constructor
  · intro h0 q hq1 hq2
    have ht : q - base < 64 := by omega
    have := hbit (q - base) ht
    rw [h0, Nat.zero_testBit] at this
    have hcond : (decide (a ≤ q - base ∧ q - base < b) : Bool) = true := by
      rw [decide_eq_true_eq]
      omega
    rw [hcond, Bool.true_and, show base + (q - base) = q by omega] at this
    exact this.symm
  · intro hall
    apply Nat.eq_of_testBit_eq
    intro i
    rw [Nat.zero_testBit]
    by_cases hi : i < 64
    · rw [hbit i hi]
      by_cases hc : a ≤ i ∧ i < b
      · rw [hall (base + i) (by omega) (by omega)]
        simp
      · simp [hc]
    · exact testBit_false_of_lt_two_pow hV64 (by omega)

/-- Reading a masked word of candidates: when `V ≠ 0` its lowest set bit
is the lowest candidate of the segment. -/
theorem segment_some_spec {V : Nat} {F : Nat → Bool} {base a b : Nat}
    (hbit : ∀ t, t < 64 → V.testBit t = (decide (a ≤ t ∧ t < b) && F (base + t)))
    (hb : b ≤ 64) (hV64 : V < 2 ^ 64) (hV : V ≠ 0) :
    a ≤ countr_zero V ∧ countr_zero V < b ∧ F (base + countr_zero V) = true ∧
      ∀ q, base + a ≤ q → q < base + countr_zero V → F q = false := by
  obtain ⟨hc1, hc2, hc3⟩ := countr_zero_spec hV hV64
  have hcz := hbit (countr_zero V) hc1
  rw [hc2] at hcz
  have hrange : a ≤ countr_zero V ∧ countr_zero V < b := by
    by_contra hc
    rw [decide_eq_false hc] at hcz
    simp at hcz
  rw [decide_eq_true hrange, Bool.true_and] at hcz
  refine ⟨hrange.1, hrange.2, hcz.symm, ?_⟩
  intro q hq1 hq2
  have ht : q - base < 64 := by omega
  have := hbit (q - base) ht
  rw [hc3 (q - base) (by omega), show base + (q - base) = q by omega] at this
  have hcond : (decide (a ≤ q - base ∧ q - base < b) : Bool) = true := by
    rw [decide_eq_true_eq]
    omega
  rw [hcond, Bool.true_and] at this
  exact this.symm

theorem shiftLeft_shiftLeft_one (a b : Nat) : (1 <<< a) <<< b = 1 <<< (a + b) := by
  rw [Nat.shiftLeft_eq, Nat.shiftLeft_eq, Nat.shiftLeft_eq, Nat.one_mul, Nat.one_mul,
    ← Nat.pow_add]

/-- Updating one word of a flag array with an `or`ed-in zero leaves the
combined bitset unchanged. -/
theorem combineWords_set_or_zero {l : List Nat} (h : ∀ w ∈ l, w < 2 ^ 64) {w : Nat}
    (hw : w < l.length) :
    combineWords (l.set w (l.getD w 0 ||| 0)) = combineWords l := by
  rw [combineWords_set_or h hw (by norm_num), Nat.zero_shiftLeft, Nat.or_zero]

/-- The state produced by flagging reference bit `countr_zero V` of word
`w` and text bit `j` matches the reference update. -/
theorem apply_hit_state {P : List Nat} {B : Int} {j : Nat}
    {flagged : FlaggedCharsMultiword} {rf : FlaggedCharsWord} {c : Nat}
    (hwfP : ∀ x ∈ flagged.P_flag, x < 2 ^ 64) (hwfT : ∀ x ∈ flagged.T_flag, x < 2 ^ 64)
    (hcmbP : combineWords flagged.P_flag = rf.P_flag)
    (hcmbT : combineWords flagged.T_flag = rf.T_flag)
    {w V : Nat} (hw : w < flagged.P_flag.length) (hV : V ≠ 0) (hV64 : V < 2 ^ 64)
    (hjT : j < 64 * flagged.T_flag.length)
    (hfind : findLowest (refCond P B rf c j) 0 P.length = some (64 * w + countr_zero V)) :
    combineWords (flagged.P_flag.set w (flagged.P_flag.getD w 0 ||| blsi V)) =
        (refStep P B j rf c).P_flag ∧
    combineWords (flagged.T_flag.set (j / 64)
        (flagged.T_flag.getD (j / 64) 0 ||| (1 <<< (j % 64)))) = (refStep P B j rf c).T_flag ∧
    (∀ x ∈ flagged.P_flag.set w (flagged.P_flag.getD w 0 ||| blsi V), x < 2 ^ 64) ∧
    (∀ x ∈ flagged.T_flag.set (j / 64)
        (flagged.T_flag.getD (j / 64) 0 ||| (1 <<< (j % 64))), x < 2 ^ 64) := by
  obtain ⟨hc1, _, _⟩ := countr_zero_spec hV hV64
  have hblsi : blsi V = 1 <<< countr_zero V := by rw [blsi, if_neg hV]
  have hblsi64 : blsi V < 2 ^ 64 := by
    rw [hblsi, Nat.one_shiftLeft]
    exact Nat.pow_lt_pow_right (by norm_num) hc1
  have hone64 : (1 : Nat) <<< (j % 64) < 2 ^ 64 := by
    rw [Nat.one_shiftLeft]
    exact Nat.pow_lt_pow_right (by norm_num) (by omega)
  rw [refStep, hfind]
  refine ⟨?_, ?_, ?_, ?_⟩
  · rw [combineWords_set_or hwfP hw hblsi64, hcmbP, hblsi,
      shiftLeft_shiftLeft_one, Nat.add_comm (countr_zero V) (64 * w)]
  · rw [combineWords_set_or hwfT (by omega) hone64, hcmbT,
      shiftLeft_shiftLeft_one, show j % 64 + 64 * (j / 64) = j by omega]
  · exact wf_set hwfP (Nat.or_lt_two_pow (getD_of_forall_mem hwfP w) hblsi64)
  · exact wf_set hwfT (Nat.or_lt_two_pow (getD_of_forall_mem hwfT (j / 64)) hone64)

/-- When no admissible match exists the reference state is unchanged. -/
theorem apply_none_state {P : List Nat} {B : Int} {j : Nat} {rf : FlaggedCharsWord} {c : Nat}
    (hfind : findLowest (refCond P B rf c j) 0 P.length = none) :
    refStep P B j rf c = rf := by
  rw [refStep, hfind]

theorem two_pow_sub_one_shift (m : Nat) : ((2 ^ m - 1) <<< 1) ||| 1 = 2 ^ (m + 1) - 1 := by
  apply Nat.eq_of_testBit_eq
  intro i
  cases i with
  | zero =>
    rw [Nat.testBit_lor, Nat.testBit_shiftLeft, Nat.testBit_two_pow_sub_one]
    simp
  | succ n =>
    rw [Nat.testBit_lor, Nat.testBit_shiftLeft, Nat.testBit_two_pow_sub_one,
      Nat.testBit_two_pow_sub_one]
    have h1 : (1 : Nat).testBit (n + 1) = false := by
      apply Nat.testBit_lt_two_pow
      calc (1 : Nat) < 2 ^ 1 := by norm_num
        _ ≤ 2 ^ (n + 1) := Nat.pow_le_pow_right (by norm_num) (by omega)
    rw [h1, Bool.or_false, decide_eq_true (show n + 1 ≥ 1 by omega), Bool.true_and,
      show n + 1 - 1 = n from rfl, decide_eq_decide]
    omega

theorem high_mask_shift_mod {k : Nat} (hk : k < 64) :
    ((2 ^ 64 - 2 ^ k) <<< 1) % 2 ^ 64 =
      if k = 63 then 0 else 2 ^ 64 - 2 ^ (k + 1) := by
  by_cases h63 : k = 63
  · subst h63
    rw [if_pos rfl]
    norm_num [Nat.shiftLeft_eq]
  · rw [if_neg h63, Nat.shiftLeft_eq, pow_one]
    have h1 : 2 ^ (k + 1) ≤ 2 ^ 64 := Nat.pow_le_pow_right (by norm_num) (by omega)
    have h2 : 2 ^ (k + 1) = 2 ^ k * 2 := by rw [pow_succ]
    have h4 : 2 ^ k ≤ 2 ^ 64 := Nat.pow_le_pow_right (by norm_num) (by omega)
    have h3 : (2 ^ 64 - 2 ^ k) * 2 = 2 ^ 64 + (2 ^ 64 - 2 ^ (k + 1)) := by omega
    have h5 : 0 < 2 ^ (k + 1) := pow_pos (by norm_num) _
    rw [h3, Nat.add_mod_left, Nat.mod_eq_of_lt (by omega)]

/-- The leading-edge update keeps the window invariant: it turns a state
whose retired-words data describe position `j` but whose covered-words
data already describe position `j + 1` into the full invariant at
`j + 1`. -/
theorem bm_retire_inv {Plen : Nat} {B : Int} {j : Nat} {BM1 : SearchBoundMask}
    (hB : 0 ≤ B)
    (hw1 : 1 ≤ BM1.words)
    (he : BM1.empty_words = winLo B j / 64)
    (hfm : BM1.first_mask = 2 ^ 64 - 2 ^ (winLo B j % 64))
    (hlo64 : 64 * (BM1.empty_words + BM1.words - 1) ≤ winHi Plen B (j + 1))
    (hhi64 : winHi Plen B (j + 1) ≤ 64 * (BM1.empty_words + BM1.words))
    (hlm : BM1.last_mask =
      2 ^ (winHi Plen B (j + 1) - 64 * (BM1.empty_words + BM1.words - 1)) - 1)
    (hsat : winHi Plen B (j + 1) = 64 * (BM1.empty_words + BM1.words) →
      winHi Plen B (j + 1) = Plen)
    (hwin' : winLo B (j + 1) < winHi Plen B (j + 1)) :
    BMinv Plen B (j + 1) (bmRetire B j BM1) := by
  have hk64 : winLo B j % 64 < 64 := Nat.mod_lt _ (by norm_num)
  unfold bmRetire
  by_cases hret : (j : Int) ≥ B
  · have hlo' : winLo B (j + 1) = winLo B j + 1 := by
      unfold winLo
      push_cast
      omega
    rw [if_pos hret]
    dsimp only
    rw [hfm, high_mask_shift_mod hk64]
    by_cases h63 : winLo B j % 64 = 63
    · rw [if_pos (by rw [if_pos h63])]
      have hw2 : 2 ≤ BM1.words := by omega
      unfold BMinv
      dsimp only
      refine ⟨by omega, by omega, ?_, ?_, ?_, ?_, ?_⟩
      · have hmod : winLo B (j + 1) % 64 = 0 := by omega
        rw [hmod]
        norm_num
      · rw [show BM1.empty_words + 1 + (BM1.words - 1) - 1 =
          BM1.empty_words + BM1.words - 1 by omega]
        exact hlo64
      · rw [show BM1.empty_words + 1 + (BM1.words - 1) =
          BM1.empty_words + BM1.words by omega]
        exact hhi64
      · rw [show BM1.empty_words + 1 + (BM1.words - 1) - 1 =
          BM1.empty_words + BM1.words - 1 by omega]
        exact hlm
      · rw [show BM1.empty_words + 1 + (BM1.words - 1) =
          BM1.empty_words + BM1.words by omega]
        exact hsat
    · have hp : 2 ^ (winLo B j % 64 + 1) < 2 ^ 64 :=
        Nat.pow_lt_pow_right (by norm_num) (by omega)
      rw [if_neg (by rw [if_neg h63]; omega), if_neg h63]
      unfold BMinv
      dsimp only
      refine ⟨hw1, by omega, ?_, hlo64, hhi64, hlm, hsat⟩
      have hmod : winLo B (j + 1) % 64 = winLo B j % 64 + 1 := by omega
      rw [hmod]
  · rw [if_neg hret]
    have hlo0 : winLo B j = 0 := by
      unfold winLo
      omega
    have hlo0' : winLo B (j + 1) = 0 := by
      unfold winLo
      omega
    exact ⟨hw1, by rw [he, hlo0, hlo0'], by rw [hfm, hlo0, hlo0'],
      hlo64, hhi64, hlm, hsat⟩

/-- The trailing-edge update moves the covered-words data of the window
invariant from position `j` to position `j + 1` while leaving the
retired-words data at `j`. -/
theorem bm_grow_inv {Plen : Nat} {B : Int} {j : Nat} {BM : SearchBoundMask}
    (hB : 0 ≤ B) (hinv : BMinv Plen B j BM) :
    1 ≤ (bmGrow Plen B j BM).words ∧
    (bmGrow Plen B j BM).empty_words = winLo B j / 64 ∧
    (bmGrow Plen B j BM).first_mask = 2 ^ 64 - 2 ^ (winLo B j % 64) ∧
    64 * ((bmGrow Plen B j BM).empty_words + (bmGrow Plen B j BM).words - 1) ≤
      winHi Plen B (j + 1) ∧
    winHi Plen B (j + 1) ≤
      64 * ((bmGrow Plen B j BM).empty_words + (bmGrow Plen B j BM).words) ∧
    (bmGrow Plen B j BM).last_mask = 2 ^ (winHi Plen B (j + 1) -
      64 * ((bmGrow Plen B j BM).empty_words + (bmGrow Plen B j BM).words - 1)) - 1 ∧
    (winHi Plen B (j + 1) =
        64 * ((bmGrow Plen B j BM).empty_words + (bmGrow Plen B j BM).words) →
      winHi Plen B (j + 1) = Plen) := by
  obtain ⟨hw1, he, hfm, hlo64, hhi64, hlm, hsat⟩ := hinv
  unfold bmGrow
  by_cases hg : (j : Int) + B + 1 < (Plen : Int)
  · have hHj : ((winHi Plen B j : Nat) : Int) = (j : Int) + B + 1 := by
      unfold winHi
      omega
    have hHj1 : winHi Plen B (j + 1) = winHi Plen B j + 1 := by
      unfold winHi
      push_cast
      omega
    have hm63 : winHi Plen B j - 64 * (BM.empty_words + BM.words - 1) ≤ 63 := by
      by_contra hc
      have h1 : winHi Plen B j = 64 * (BM.empty_words + BM.words) := by omega
      have h2 := hsat h1
      omega
    rw [if_pos hg]
    dsimp only
    rw [hlm, two_pow_sub_one_shift, Nat.mod_eq_of_lt (by
      have h1 : 2 ^ (winHi Plen B j - 64 * (BM.empty_words + BM.words - 1) + 1) ≤ 2 ^ 64 :=
        Nat.pow_le_pow_right (by norm_num) (by omega)
      omega)]
    by_cases hm : winHi Plen B j - 64 * (BM.empty_words + BM.words - 1) = 63
    · by_cases hg2 : (j : Int) + B + 2 < (Plen : Int)
      · rw [if_pos ⟨hg2, by rw [hm]⟩]
        dsimp only
        refine ⟨by omega, he, hfm, by omega, by omega, ?_, by intro h; omega⟩
        rw [show winHi Plen B (j + 1) -
          64 * (BM.empty_words + (BM.words + 1) - 1) = 0 by omega]
        norm_num
      · rw [if_neg (fun hh => hg2 hh.1)]
        dsimp only
        refine ⟨hw1, he, hfm, by omega, by omega, ?_, ?_⟩
        · rw [show winHi Plen B (j + 1) -
            64 * (BM.empty_words + BM.words - 1) = 64 by omega, hm]
        · intro h
          unfold winHi at hHj1 ⊢
          omega
    · have hp : 2 ^ (winHi Plen B j - 64 * (BM.empty_words + BM.words - 1) + 1) < 2 ^ 64 :=
        Nat.pow_lt_pow_right (by norm_num) (by omega)
      rw [if_neg (fun hh => by omega)]
      dsimp only
      refine ⟨hw1, he, hfm, by omega, by omega, ?_, by intro h; omega⟩
      rw [show winHi Plen B (j + 1) - 64 * (BM.empty_words + BM.words - 1) =
        winHi Plen B j - 64 * (BM.empty_words + BM.words - 1) + 1 by omega]
  · have hHP : winHi Plen B j = Plen := by
      unfold winHi
      omega
    have hHeq : winHi Plen B (j + 1) = winHi Plen B j := by
      unfold winHi
      push_cast
      omega
    rw [if_neg hg, hHeq]
    exact ⟨hw1, he, hfm, hlo64, hhi64, hlm, hsat⟩

/-- One full mask update preserves the window invariant, advancing it
from text position `j` to `j + 1`, provided the window at `j + 1` is
nonempty. -/
theorem bm_next_inv {Plen : Nat} {B : Int} {j : Nat} {BM : SearchBoundMask}
    (hB : 0 ≤ B) (hinv : BMinv Plen B j BM)
    (hwin' : winLo B (j + 1) < winHi Plen B (j + 1)) :
    BMinv Plen B (j + 1) (bmRetire B j (bmGrow Plen B j BM)) := by
  obtain ⟨g1, g2, g3, g4, g5, g6, g7⟩ := bm_grow_inv hB hinv
  exact bm_retire_inv hB g1 g2 g3 g4 g5 g6 g7 hwin'

/-- The conclusions of one block-flagging step: combined flags follow the
reference step, array lengths are unchanged, and all words stay 64-bit. -/
def StepConcl (get : Nat → Nat → Nat) (P : List Nat) (B : Int) (c : Nat) (j : Nat)
    (flagged : FlaggedCharsMultiword) (rf : FlaggedCharsWord) (BM : SearchBoundMask) : Prop :=
  combineWords (flag_similar_characters_step get c flagged j BM).P_flag =
      (refStep P B j rf c).P_flag ∧
  combineWords (flag_similar_characters_step get c flagged j BM).T_flag =
      (refStep P B j rf c).T_flag ∧
  (flag_similar_characters_step get c flagged j BM).P_flag.length = flagged.P_flag.length ∧
  (flag_similar_characters_step get c flagged j BM).T_flag.length = flagged.T_flag.length ∧
  (∀ x ∈ (flag_similar_characters_step get c flagged j BM).P_flag, x < 2 ^ 64) ∧
  (∀ x ∈ (flag_similar_characters_step get c flagged j BM).T_flag, x < 2 ^ 64)

theorem block_step_correct {get : Nat → Nat → Nat} {P : List Nat} {B : Int}
    (hget64 : ∀ w c, get w c < 2 ^ 64)
    (hget1 : ∀ c p, p < P.length →
      (get (p / 64) c).testBit (p % 64) = decide (P.getD p 0 = c))
    {j : Nat} {BM : SearchBoundMask} {flagged : FlaggedCharsMultiword} {rf : FlaggedCharsWord}
    (hwin : winLo B j < winHi P.length B j)
    (hPlen : P.length ≤ 64 * flagged.P_flag.length)
    (hTj : j < 64 * flagged.T_flag.length)
    (hwfP : ∀ x ∈ flagged.P_flag, x < 2 ^ 64)
    (hwfT : ∀ x ∈ flagged.T_flag, x < 2 ^ 64)
    (hcmbP : combineWords flagged.P_flag = rf.P_flag)
    (hcmbT : combineWords flagged.T_flag = rf.T_flag)
    (hinv : BMinv P.length B j BM)
    (c : Nat) :
    StepConcl get P B c j flagged rf BM := by
  obtain ⟨hw1, he, hfm, hlo64, hhi64, hlm, -⟩ := hinv
  have hhiP : winHi P.length B j ≤ P.length := Nat.min_le_left _ _
  have hjB : 0 ≤ (j : Int) + B := by
    unfold winLo winHi at hwin
    omega
  have hhiB : ((winHi P.length B j : Nat) : Int) ≤ (j : Int) + B + 1 := by
    unfold winHi
    omega
  have hloB : ((j : Int) - B) ≤ ((winLo B j : Nat) : Int) := by
    unfold winLo
    omega
  have hloB' : (0 : Int) ≤ (j : Int) - B → ((winLo B j : Nat) : Int) = (j : Int) - B := by
    unfold winLo
    omega
  -- the candidate predicate and its window restriction
  have hFwin : ∀ p, winLo B j ≤ p → p < winHi P.length B j →
      refCond P B rf c j p = (decide (P.getD p 0 = c) && !(rf.P_flag.testBit p)) := by
    intro p h1 h2
    unfold refCond refWindow
    rw [decide_eq_true (show (j : Int) - B ≤ (p : Int) by
        have : ((winLo B j : Nat) : Int) ≤ (p : Int) := by exact_mod_cast Nat.cast_le.mpr h1
        omega),
      decide_eq_true (show (p : Int) ≤ (j : Int) + B by
        have : ((p : Nat) : Int) < ((winHi P.length B j : Nat) : Int) := by exact_mod_cast h2
        omega)]
    simp
  have hFout : ∀ q, q < P.length → refCond P B rf c j q = true →
      winLo B j ≤ q ∧ q < winHi P.length B j := by
    intro q hq hF
    unfold refCond refWindow at hF
    simp only [Bool.and_eq_true, decide_eq_true_eq] at hF
    obtain ⟨-, h1, h2⟩ := hF
    unfold winLo winHi
    omega
  have htransfer : findLowest (refCond P B rf c j) 0 P.length =
      findLowest (refCond P B rf c j) (winLo B j)
        (winHi P.length B j - winLo B j) := by
    exact findLowest_shrink hhiP hFout
  have hrfbit : ∀ w t, t < 64 →
      rf.P_flag.testBit (64 * w + t) = (flagged.P_flag.getD w 0).testBit t := by
    intro w t ht
    rw [← hcmbP, combineWords_testBit hwfP, show (64 * w + t) / 64 = w by omega,
      show (64 * w + t) % 64 = t by omega]
  have hchar : ∀ w t, t < 64 → winLo B j ≤ 64 * w + t → 64 * w + t < winHi P.length B j →
      ((get w c).testBit t && !((flagged.P_flag.getD w 0).testBit t)) =
        refCond P B rf c j (64 * w + t) := by
    intro w t ht h1 h2
    rw [hFwin _ h1 h2, ← hrfbit w t ht,
      show (get w c).testBit t = (get ((64 * w + t) / 64) c).testBit ((64 * w + t) % 64) by
        rw [show (64 * w + t) / 64 = w by omega, show (64 * w + t) % 64 = t by omega],
      hget1 c _ (by omega)]
  have hP64 : ∀ w, flagged.P_flag.getD w 0 < 2 ^ 64 := getD_of_forall_mem hwfP
  have hk64 : winLo B j % 64 < 64 := Nat.mod_lt _ (by norm_num)
  have hlo_decomp : winLo B j = 64 * BM.empty_words + winLo B j % 64 := by
    rw [he]
    omega
  have heP : BM.empty_words < flagged.P_flag.length := by
    rw [he]
    omega
  have hjw : j / 64 < flagged.T_flag.length := by omega
  unfold StepConcl
  simp only [flag_similar_characters_step]
  by_cases hW : BM.words = 1
  · rw [if_pos hW]
    set V := get BM.empty_words c &&& BM.last_mask &&& BM.first_mask &&&
      comp64 (flagged.P_flag.getD BM.empty_words 0) with hV_def
    have hm64 : winHi P.length B j - 64 * BM.empty_words ≤ 64 := by omega
    have hlm' : BM.last_mask = 2 ^ (winHi P.length B j - 64 * BM.empty_words) - 1 := by
      rw [hlm, hW, Nat.add_sub_cancel]
    have hV64 : V < 2 ^ 64 := Nat.lt_of_le_of_lt Nat.and_le_right (comp64_lt (hP64 _))
    have hbit : ∀ t, t < 64 → V.testBit t =
        (decide (winLo B j % 64 ≤ t ∧ t < winHi P.length B j - 64 * BM.empty_words) &&
          refCond P B rf c j (64 * BM.empty_words + t)) := by
      intro t ht
      rw [hV_def, Nat.testBit_land, Nat.testBit_land, Nat.testBit_land, hlm', hfm,
        Nat.testBit_two_pow_sub_one, high_mask_testBit (le_of_lt hk64) t,
        testBit_comp64 (hP64 BM.empty_words) t, decide_eq_true ht, Bool.true_and]
      by_cases hc : winLo B j % 64 ≤ t ∧ t < winHi P.length B j - 64 * BM.empty_words
      · rw [decide_eq_true hc, Bool.true_and, decide_eq_true hc.2,
          decide_eq_true (show winLo B j % 64 ≤ t ∧ t < 64 from ⟨hc.1, ht⟩),
          Bool.and_true, Bool.and_true]
        exact hchar BM.empty_words t ht (by omega) (by omega)
      · rw [decide_eq_false hc, Bool.false_and]
        rcases not_and_or.mp hc with h | h
        · rw [decide_eq_false (show ¬(winLo B j % 64 ≤ t ∧ t < 64) from fun hh => h hh.1),
            Bool.and_false, Bool.false_and]
        · rw [decide_eq_false h, Bool.and_false, Bool.false_and, Bool.false_and]
    by_cases hVz : V = 0
    · have hfind : findLowest (refCond P B rf c j) 0 P.length = none := by
        rw [htransfer, findLowest_none]
        intro q h1 h2
        exact (segment_none_iff hbit hm64 hV64).mp hVz q (by omega) (by omega)
      rw [apply_none_state hfind, hVz, show blsi 0 = 0 from rfl,
        if_neg (show ¬(0 : Nat) ≠ 0 from fun h => h rfl), Nat.zero_shiftLeft]
      dsimp only
      refine ⟨(combineWords_set_or_zero hwfP heP).trans hcmbP,
        (combineWords_set_or_zero hwfT hjw).trans hcmbT, by simp, by simp,
        wf_set hwfP (Nat.or_lt_two_pow (hP64 _) (by norm_num)),
        wf_set hwfT (Nat.or_lt_two_pow (getD_of_forall_mem hwfT _) (by norm_num))⟩
    · obtain ⟨h1, h2, h3, h4⟩ := segment_some_spec hbit hm64 hV64 hVz
      have hfind : findLowest (refCond P B rf c j) 0 P.length =
          some (64 * BM.empty_words + countr_zero V) := by
        rw [htransfer, findLowest_some_iff]
        refine ⟨by omega, by omega, h3, ?_⟩
        intro q hq1 hq2
        exact h4 q (by omega) hq2
      rw [if_pos hVz]
      dsimp only
      obtain ⟨hA, hB, hC, hD⟩ := apply_hit_state hwfP hwfT hcmbP hcmbT heP hVz hV64 hTj hfind
      exact ⟨hA, hB, by simp, by simp, hC, hD⟩
  · rw [if_neg hW]
    have hW2 : 2 ≤ BM.words := by omega
    have hfm0 : BM.first_mask ≠ 0 := by
      rw [hfm]
      have h2 : 2 ^ (winLo B j % 64) < 2 ^ 64 := Nat.pow_lt_pow_right (by norm_num) hk64
      omega
    set PMf := get BM.empty_words c &&& BM.first_mask &&&
      comp64 (flagged.P_flag.getD BM.empty_words 0) with hPMf_def
    have hPMf64 : PMf < 2 ^ 64 := Nat.lt_of_le_of_lt Nat.and_le_right (comp64_lt (hP64 _))
    have hfe : 64 * (BM.empty_words + 1) ≤ winHi P.length B j := by omega
    have hbitF : ∀ t, t < 64 → PMf.testBit t =
        (decide (winLo B j % 64 ≤ t ∧ t < 64) &&
          refCond P B rf c j (64 * BM.empty_words + t)) := by
      intro t ht
      rw [hPMf_def, Nat.testBit_land, Nat.testBit_land, hfm,
        high_mask_testBit (le_of_lt hk64) t,
        testBit_comp64 (hP64 BM.empty_words) t, decide_eq_true ht, Bool.true_and]
      by_cases hc : winLo B j % 64 ≤ t
      · rw [decide_eq_true (show winLo B j % 64 ≤ t ∧ t < 64 from ⟨hc, ht⟩),
          Bool.and_true, Bool.true_and]
        exact hchar BM.empty_words t ht (by omega) (by omega)
      · rw [decide_eq_false (show ¬(winLo B j % 64 ≤ t ∧ t < 64) from fun hh => hc hh.1),
          Bool.and_false, Bool.false_and, Bool.false_and]
    by_cases hPF : PMf = 0
    · rw [if_neg (show ¬(BM.first_mask ≠ 0 ∧ PMf ≠ 0) from fun hh => hh.2 hPF),
        if_pos hfm0]
      have hno_first : ∀ q, winLo B j ≤ q → q < 64 * (BM.empty_words + 1) →
          refCond P B rf c j q = false := by
        intro q hq1 hq2
        exact (segment_none_iff hbitF (le_refl 64) hPMf64).mp hPF q (by omega) (by omega)
      have hpm64 : ∀ u, get u c &&& comp64 (flagged.P_flag.getD u 0) < 2 ^ 64 :=
        fun u => Nat.lt_of_le_of_lt Nat.and_le_right (comp64_lt (hP64 u))
      have hbitI : ∀ u, BM.empty_words + 1 ≤ u → u < BM.empty_words + BM.words - 1 →
          ∀ t, t < 64 → (get u c &&& comp64 (flagged.P_flag.getD u 0)).testBit t =
            (decide (0 ≤ t ∧ t < 64) && refCond P B rf c j (64 * u + t)) := by
        intro u hu1 hu2 t ht
        rw [Nat.testBit_land, testBit_comp64 (hP64 u) t, decide_eq_true ht, Bool.true_and,
          decide_eq_true (show 0 ≤ t ∧ t < 64 from ⟨Nat.zero_le _, ht⟩), Bool.true_and]
        exact hchar u t ht (by omega) (by omega)
      have hscrut : (if c < 256
          then scan_words_unrolled (fun w => get w (c % 256) &&&
            comp64 (flagged.P_flag.getD w 0)) (BM.empty_words + 1)
            (BM.empty_words + BM.words - 1 - (BM.empty_words + 1))
          else scan_words (fun w => get w c &&& comp64 (flagged.P_flag.getD w 0))
            (BM.empty_words + 1) (BM.empty_words + BM.words - 1 - (BM.empty_words + 1)))
        = scan_words (fun w => get w c &&& comp64 (flagged.P_flag.getD w 0))
            (BM.empty_words + 1) (BM.empty_words + BM.words - 1 - (BM.empty_words + 1)) := by
        by_cases hc8 : c < 256
        · rw [if_pos hc8, scan_words_unrolled_eq]
          simp only [Nat.mod_eq_of_lt hc8]
        · rw [if_neg hc8]
      rw [hscrut]
      cases hscan : scan_words (fun w => get w c &&& comp64 (flagged.P_flag.getD w 0))
          (BM.empty_words + 1) (BM.empty_words + BM.words - 1 - (BM.empty_words + 1)) with
      | some u =>
        obtain ⟨hu1, hu2, hu3, hu4⟩ := scan_words_some_iff.mp hscan
        have hulw : u < BM.empty_words + BM.words - 1 := by omega
        obtain ⟨g1, g2, g3, g4⟩ := segment_some_spec (hbitI u hu1 hulw) (le_refl 64)
          (hpm64 u) hu3
        have hlow : ∀ q, winLo B j ≤ q →
            q < 64 * u + countr_zero (get u c &&& comp64 (flagged.P_flag.getD u 0)) →
            refCond P B rf c j q = false := by
          intro q hq1 hq2
          by_cases hqf : q < 64 * (BM.empty_words + 1)
          · exact hno_first q hq1 hqf
          · by_cases hqu : q < 64 * u
            · have hv1 : BM.empty_words + 1 ≤ q / 64 := by omega
              have hv2 : q / 64 < u := by omega
              exact (segment_none_iff (hbitI (q / 64) hv1 (by omega)) (le_refl 64)
                (hpm64 (q / 64))).mp (hu4 (q / 64) hv1 hv2) q (by omega) (by omega)
            · exact g4 q (by omega) hq2
        have hfind : findLowest (refCond P B rf c j) 0 P.length =
            some (64 * u + countr_zero (get u c &&& comp64 (flagged.P_flag.getD u 0))) := by
          rw [htransfer, findLowest_some_iff]
          exact ⟨by omega, by omega, g3, fun q hq1 hq2 => hlow q hq1 hq2⟩
        have huP : u < flagged.P_flag.length := by omega
        dsimp only
        obtain ⟨hA, hB, hC, hD⟩ := apply_hit_state hwfP hwfT hcmbP hcmbT huP hu3
          (hpm64 u) hTj hfind
        exact ⟨hA, hB, by simp, by simp, hC, hD⟩
      | none =>
        have hno_int : ∀ q, winLo B j ≤ q → q < 64 * (BM.empty_words + BM.words - 1) →
            refCond P B rf c j q = false := by
          intro q hq1 hq2
          by_cases hqf : q < 64 * (BM.empty_words + 1)
          · exact hno_first q hq1 hqf
          · have hv1 : BM.empty_words + 1 ≤ q / 64 := by omega
            have hv2 : q / 64 < BM.empty_words + BM.words - 1 := by omega
            have hz := scan_words_none_iff.mp hscan (q / 64) hv1 (by omega)
            exact (segment_none_iff (hbitI (q / 64) hv1 hv2) (le_refl 64)
              (hpm64 (q / 64))).mp hz q (by omega) (by omega)
        by_cases hLM : BM.last_mask = 0
        · rw [if_neg (show ¬BM.last_mask ≠ 0 from fun hh => hh hLM)]
          have hhi_lw : winHi P.length B j ≤ 64 * (BM.empty_words + BM.words - 1) := by
            rw [hlm] at hLM
            have h1 : winHi P.length B j - 64 * (BM.empty_words + BM.words - 1) = 0 := by
              by_contra hc
              have h2 : 2 ≤ 2 ^ (winHi P.length B j -
                  64 * (BM.empty_words + BM.words - 1)) := by
                calc (2 : Nat) = 2 ^ 1 := rfl
                  _ ≤ _ := Nat.pow_le_pow_right (by norm_num) (by omega)
              omega
            omega
          have hfind : findLowest (refCond P B rf c j) 0 P.length = none := by
            rw [htransfer, findLowest_none]
            intro q hq1 hq2
            exact hno_int q hq1 (by omega)
          rw [apply_none_state hfind]
          exact ⟨hcmbP, hcmbT, rfl, rfl, hwfP, hwfT⟩
        · rw [if_pos hLM]
          have hmlpos : 64 * (BM.empty_words + BM.words - 1) < winHi P.length B j := by
            rw [hlm] at hLM
            by_contra hc
            push_neg at hc
            have h1 : winHi P.length B j - 64 * (BM.empty_words + BM.words - 1) = 0 := by
              omega
            rw [h1] at hLM
            exact hLM (by norm_num)
          have hml64 : winHi P.length B j - 64 * (BM.empty_words + BM.words - 1) ≤ 64 := by
            omega
          have hlwP : BM.empty_words + BM.words - 1 < flagged.P_flag.length := by omega
          have hPMl64 : get (BM.empty_words + BM.words - 1) c &&& BM.last_mask &&&
              comp64 (flagged.P_flag.getD (BM.empty_words + BM.words - 1) 0) < 2 ^ 64 :=
            Nat.lt_of_le_of_lt Nat.and_le_right (comp64_lt (hP64 _))
          have hbitL : ∀ t, t < 64 →
              (get (BM.empty_words + BM.words - 1) c &&& BM.last_mask &&&
                comp64 (flagged.P_flag.getD (BM.empty_words + BM.words - 1) 0)).testBit t =
              (decide (0 ≤ t ∧
                  t < winHi P.length B j - 64 * (BM.empty_words + BM.words - 1)) &&
                refCond P B rf c j (64 * (BM.empty_words + BM.words - 1) + t)) := by
            intro t ht
            rw [Nat.testBit_land, Nat.testBit_land, hlm, Nat.testBit_two_pow_sub_one,
              testBit_comp64 (hP64 _) t, decide_eq_true ht, Bool.true_and]
            by_cases hc : t < winHi P.length B j - 64 * (BM.empty_words + BM.words - 1)
            · rw [decide_eq_true hc, Bool.and_true,
                decide_eq_true (show 0 ≤ t ∧
                  t < winHi P.length B j - 64 * (BM.empty_words + BM.words - 1) from
                    ⟨Nat.zero_le _, hc⟩), Bool.true_and]
              exact hchar _ t ht (by omega) (by omega)
            · rw [decide_eq_false hc, Bool.and_false, Bool.false_and,
                decide_eq_false (show ¬(0 ≤ t ∧
                  t < winHi P.length B j - 64 * (BM.empty_words + BM.words - 1)) from
                    fun hh => hc hh.2), Bool.false_and]
          by_cases hVz : get (BM.empty_words + BM.words - 1) c &&& BM.last_mask &&&
              comp64 (flagged.P_flag.getD (BM.empty_words + BM.words - 1) 0) = 0
          · have hfind : findLowest (refCond P B rf c j) 0 P.length = none := by
              rw [htransfer, findLowest_none]
              intro q hq1 hq2
              by_cases hql : q < 64 * (BM.empty_words + BM.words - 1)
              · exact hno_int q hq1 hql
              · exact (segment_none_iff hbitL hml64 hPMl64).mp hVz q (by omega) (by omega)
            rw [apply_none_state hfind, hVz, show blsi 0 = 0 from rfl,
              if_neg (show ¬(0 : Nat) ≠ 0 from fun h => h rfl), Nat.zero_shiftLeft]
            dsimp only
            refine ⟨(combineWords_set_or_zero hwfP hlwP).trans hcmbP,
              (combineWords_set_or_zero hwfT hjw).trans hcmbT, by simp, by simp,
              wf_set hwfP (Nat.or_lt_two_pow (hP64 _) (by norm_num)),
              wf_set hwfT (Nat.or_lt_two_pow (getD_of_forall_mem hwfT _) (by norm_num))⟩
          · obtain ⟨g1, g2, g3, g4⟩ := segment_some_spec hbitL hml64 hPMl64 hVz
            have hfind : findLowest (refCond P B rf c j) 0 P.length =
                some (64 * (BM.empty_words + BM.words - 1) +
                  countr_zero (get (BM.empty_words + BM.words - 1) c &&& BM.last_mask &&&
                    comp64 (flagged.P_flag.getD (BM.empty_words + BM.words - 1) 0))) := by
              rw [htransfer, findLowest_some_iff]
              refine ⟨by omega, by omega, g3, ?_⟩
              intro q hq1 hq2
              by_cases hql : q < 64 * (BM.empty_words + BM.words - 1)
              · exact hno_int q hq1 hql
              · exact g4 q (by omega) hq2
            rw [if_pos hVz]
            dsimp only
            obtain ⟨hA, hB, hC, hD⟩ := apply_hit_state hwfP hwfT hcmbP hcmbT hlwP hVz
              hPMl64 hTj hfind
            exact ⟨hA, hB, by simp, by simp, hC, hD⟩
    · rw [if_pos ⟨hfm0, hPF⟩]
      obtain ⟨h1, h2, h3, h4⟩ := segment_some_spec hbitF (le_refl 64) hPMf64 hPF
      have hfind : findLowest (refCond P B rf c j) 0 P.length =
          some (64 * BM.empty_words + countr_zero PMf) := by
        rw [htransfer, findLowest_some_iff]
        exact ⟨by omega, by omega, h3, fun q hq1 hq2 => h4 q (by omega) hq2⟩
      dsimp only
      obtain ⟨hA, hB, hC, hD⟩ := apply_hit_state hwfP hwfT hcmbP hcmbT heP hPF hPMf64 hTj hfind
      exact ⟨hA, hB, by simp, by simp, hC, hD⟩

theorem combineWords_replicate_zero (n : Nat) :
    combineWords (List.replicate n 0) = 0 := by
  induction n with
  | zero => rfl
  | succ n ih =>
    rw [List.replicate_succ, combineWords, ih, Nat.zero_shiftLeft, Nat.zero_or]

/-- Loop correctness for the block flagger: under the window invariant the
combined multiword flags follow the reference flagger over the remaining
text, as long as every remaining position keeps the window nonempty. -/
theorem flag_block_go_correct {get : Nat → Nat → Nat} {P : List Nat} {B : Int}
    (hget64 : ∀ w c, get w c < 2 ^ 64)
    (hget1 : ∀ c p, p < P.length →
      (get (p / 64) c).testBit (p % 64) = decide (P.getD p 0 = c))
    (hB : 0 ≤ B) (hP1 : 1 ≤ P.length) :
    ∀ (T : List Nat) (j : Nat) (BM : SearchBoundMask) (flagged : FlaggedCharsMultiword)
      (rf : FlaggedCharsWord),
      ((j : Int) + T.length ≤ (P.length : Int) + B) →
      P.length ≤ 64 * flagged.P_flag.length →
      j + T.length ≤ 64 * flagged.T_flag.length →
      (∀ x ∈ flagged.P_flag, x < 2 ^ 64) →
      (∀ x ∈ flagged.T_flag, x < 2 ^ 64) →
      combineWords flagged.P_flag = rf.P_flag →
      combineWords flagged.T_flag = rf.T_flag →
      (T = [] ∨ BMinv P.length B j BM) →
      combineWords (flag_similar_characters_block_go get P.length B j BM flagged T).P_flag =
          (refFlagGo P B j rf T).P_flag ∧
        combineWords (flag_similar_characters_block_go get P.length B j BM flagged T).T_flag =
          (refFlagGo P B j rf T).T_flag ∧
        (flag_similar_characters_block_go get P.length B j BM flagged T).P_flag.length =
          flagged.P_flag.length ∧
        (flag_similar_characters_block_go get P.length B j BM flagged T).T_flag.length =
          flagged.T_flag.length ∧
        (∀ x ∈ (flag_similar_characters_block_go get P.length B j BM flagged T).P_flag,
          x < 2 ^ 64) ∧
        (∀ x ∈ (flag_similar_characters_block_go get P.length B j BM flagged T).T_flag,
          x < 2 ^ 64) := by
  intro T
  induction T with
  | nil =>
    intro j BM flagged rf _ _ _ hwfP hwfT hcmbP hcmbT _
    exact ⟨hcmbP, hcmbT, rfl, rfl, hwfP, hwfT⟩
  | cons c rest ih =>
    intro j BM flagged rf hguard hPlen hTlen hwfP hwfT hcmbP hcmbT hinv'
    rcases hinv' with hnil | hinv
    · cases hnil
    simp only [List.length_cons] at hguard hTlen
    have hwin : winLo B j < winHi P.length B j := by
      unfold winLo winHi
      push_cast at hguard ⊢
      omega
    have hTj : j < 64 * flagged.T_flag.length := by omega
    have hstep := block_step_correct hget64 hget1 hwin hPlen hTj hwfP hwfT hcmbP hcmbT hinv c
    unfold StepConcl at hstep
    obtain ⟨sA, sB, sC, sD, sE, sF⟩ := hstep
    rw [block_go_cons,
      show refFlagGo P B j rf (c :: rest) =
        refFlagGo P B (j + 1) (refStep P B j rf c) rest from rfl]
    have hrec := ih (j + 1) (bmRetire B j (bmGrow P.length B j BM))
      (flag_similar_characters_step get c flagged j BM) (refStep P B j rf c)
      (by push_cast at hguard ⊢; omega)
      (by rw [sC]; exact hPlen)
      (by rw [sD]; omega)
      sE sF sA sB
      (by
        cases rest with
        | nil => exact Or.inl rfl
        | cons c2 rest2 =>
          refine Or.inr (bm_next_inv hB hinv ?_)
          simp only [List.length_cons] at hguard
          unfold winLo winHi
          push_cast at hguard ⊢
          omega)
    exact ⟨hrec.1, hrec.2.1, hrec.2.2.1.trans sC, hrec.2.2.2.1.trans sD,
      hrec.2.2.2.2.1, hrec.2.2.2.2.2⟩

/-- Full block flagger correctness: starting from the all-zeros arrays and
the initial search mask, the combined flags equal the reference flags,
provided `0 ≤ Bound`, the reference is nonempty, and the text is short
enough to keep the window nonempty throughout
(`T.length ≤ P.length + Bound`, which `jaro_bounds` guarantees). -/
theorem flag_block_eq_refFlag {get : Nat → Nat → Nat} {P T : List Nat} {B : Int}
    (hget64 : ∀ w c, get w c < 2 ^ 64)
    (hget1 : ∀ c p, p < P.length →
      (get (p / 64) c).testBit (p % 64) = decide (P.getD p 0 = c))
    (hB : 0 ≤ B) (hP1 : 1 ≤ P.length)
    (hguard : ((T.length : Nat) : Int) ≤ (P.length : Int) + B) :
    combineWords (flag_similar_characters_block get P.length T B).P_flag =
        (refFlag P T B).P_flag ∧
      combineWords (flag_similar_characters_block get P.length T B).T_flag =
        (refFlag P T B).T_flag ∧
      (flag_similar_characters_block get P.length T B).P_flag.length =
        (P.length + 63) / 64 ∧
      (flag_similar_characters_block get P.length T B).T_flag.length =
        (T.length + 63) / 64 ∧
      (∀ x ∈ (flag_similar_characters_block get P.length T B).P_flag, x < 2 ^ 64) ∧
      (∀ x ∈ (flag_similar_characters_block get P.length T B).T_flag, x < 2 ^ 64) := by
  have h := flag_block_go_correct hget64 hget1 hB hP1 T 0
    ⟨1 + (min (B + 1) ((P.length : Nat) : Int)).toNat / 64, 0,
      ((1 <<< ((min (B + 1) ((P.length : Nat) : Int)).toNat % 64)) - 1) % 2 ^ 64,
      2 ^ 64 - 1⟩
    ⟨List.replicate ((P.length + 63) / 64) 0, List.replicate ((T.length + 63) / 64) 0⟩
    ⟨0, 0⟩
    (by push_cast; omega)
    (by rw [List.length_replicate]; omega)
    (by rw [List.length_replicate]; omega)
    (fun x hx => by rw [List.eq_of_mem_replicate hx]; norm_num)
    (fun x hx => by rw [List.eq_of_mem_replicate hx]; norm_num)
    (combineWords_replicate_zero _)
    (combineWords_replicate_zero _)
    (by
      cases T with
      | nil => exact Or.inl rfl
      | cons c rest =>
        refine Or.inr ?_
        have hsr64 : (min (B + 1) ((P.length : Nat) : Int)).toNat % 64 < 64 :=
          Nat.mod_lt _ (by norm_num)
        have hsrn : (((min (B + 1) ((P.length : Nat) : Int)).toNat : Nat) : Int) =
            min (B + 1) ((P.length : Nat) : Int) := Int.toNat_of_nonneg (by omega)
        have hlo0 : winLo B 0 = 0 := by
          unfold winLo
          omega
        have hhi0 : winHi P.length B 0 = (min (B + 1) ((P.length : Nat) : Int)).toNat := by
          unfold winHi
          push_cast
          omega
        refine ⟨?_, ?_, ?_, ?_, ?_, ?_, ?_⟩
        · dsimp only
          omega
        · dsimp only
          rw [hlo0]
        · dsimp only
          rw [hlo0]
          norm_num
        · dsimp only
          rw [hhi0]
          omega
        · dsimp only
          rw [hhi0]
          omega
        · dsimp only
          rw [hhi0, Nat.one_shiftLeft,
            show (min (B + 1) ((P.length : Nat) : Int)).toNat -
              64 * (0 + (1 + (min (B + 1) ((P.length : Nat) : Int)).toNat / 64) - 1) =
              (min (B + 1) ((P.length : Nat) : Int)).toNat % 64 by omega,
            Nat.mod_eq_of_lt]
          have h1 : 2 ^ ((min (B + 1) ((P.length : Nat) : Int)).toNat % 64) < 2 ^ 64 :=
            Nat.pow_lt_pow_right (by norm_num) hsr64
          omega
        · dsimp only
          rw [hhi0]
          intro h
          omega)
  exact ⟨h.1, h.2.1, h.2.2.1.trans (by simp), h.2.2.2.1.trans (by simp),
    h.2.2.2.2.1, h.2.2.2.2.2⟩

/-! ## The block transposition counter -/

/-- Ascending global set-bit positions of the words of `l`, where the
first word of `l` is word number `w`. -/
def wordsBits : Nat → List Nat → List Nat
  | _, [] => []
  | w, x :: xs => (bitsBelow 64 x).map (fun i => 64 * w + i) ++ wordsBits (w + 1) xs

/-- Remaining global positions mid-scan: the scan sits on word `w` whose
unconsumed bits are `cur`; the words of `arr` after `w` are untouched. -/
def maskBits (arr : List Nat) (w cur : Nat) : List Nat :=
  (bitsBelow 64 cur).map (fun i => 64 * w + i) ++ wordsBits (w + 1) (arr.drop (w + 1))

theorem bitsBelow_zero_right (k : Nat) : bitsBelow k 0 = [] :=
  bitsBelow_eq_nil (fun i _ => Nat.zero_testBit i)

theorem bitsBelow_high {k K n : Nat} (hk : k ≤ K)
    (h : ∀ i, k ≤ i → n.testBit i = false) : bitsBelow K n = bitsBelow k n := by
  obtain ⟨m, rfl⟩ : ∃ m, K = k + m := ⟨K - k, by omega⟩
  clear hk
  induction m with
  | zero => rfl
  | succ m ih =>
    rw [show k + (m + 1) = k + m + 1 by omega, bitsBelow_succ, h (k + m) (by omega), ih]
    simp

theorem getD_of_drop_cons {l : List Nat} {x : Nat} {xs : List Nat} {n : Nat}
    (h : l.drop n = x :: xs) : l.getD n 0 = x := by
  rw [List.getD_eq_getElem?_getD, show n = n + 0 by omega, ← List.getElem?_drop, h,
    List.getElem?_cons_zero]
  rfl

theorem drop_of_drop_cons {l : List Nat} {x : Nat} {xs : List Nat} {n : Nat}
    (h : l.drop n = x :: xs) : l.drop (n + 1) = xs := by
  have h2 := List.drop_drop 1 n l
  rw [h] at h2
  exact h2.symm

theorem bitsBelow_or_shift {x : Nat} (c n : Nat) (hx : x < 2 ^ 64) :
    bitsBelow (64 + 64 * n) (x ||| (c <<< 64)) =
      bitsBelow 64 x ++ (bitsBelow (64 * n) c).map (fun i => 64 + i) := by
  unfold bitsBelow
  rw [List.range_add, List.filter_append, List.filter_map]
  congr 1
  · apply List.filter_congr
    intro i hi
    rw [List.mem_range] at hi
    rw [Nat.testBit_lor, Nat.testBit_shiftLeft]
    simp [show ¬(i ≥ 64) by omega]
  · congr 1
    apply List.filter_congr
    intro i _
    simp only [Function.comp_apply]
    rw [Nat.testBit_lor, Nat.testBit_shiftLeft,
      testBit_false_of_lt_two_pow hx (by omega), Bool.false_or,
      decide_eq_true (show 64 + i ≥ 64 by omega), Bool.true_and,
      show 64 + i - 64 = i by omega]

theorem wordsBits_eq : ∀ (l : List Nat), (∀ x ∈ l, x < 2 ^ 64) → ∀ w,
    wordsBits w l =
      (bitsBelow (64 * l.length) (combineWords l)).map (fun i => 64 * w + i) := by
  intro l
  induction l with
  | nil =>
    intro _ w
    rfl
  | cons x xs ih =>
    intro h w
    have hx : x < 2 ^ 64 := h x (by simp)
    have hxs : ∀ y ∈ xs, y < 2 ^ 64 := fun y hy => h y (by simp [hy])
    rw [wordsBits, ih hxs (w + 1),
      show combineWords (x :: xs) = x ||| (combineWords xs <<< 64) from rfl,
      show (64 : Nat) * (x :: xs).length = 64 + 64 * xs.length by
        rw [List.length_cons]; ring,
      bitsBelow_or_shift _ _ hx, List.map_append, List.map_map]
    congr 1
    apply List.map_congr_left
    intro a _
    simp only [Function.comp_apply]
    omega

theorem maskBits_zero (l : List Nat) : maskBits l 0 (l.getD 0 0) = wordsBits 0 l := by
  cases l with
  | nil =>
    show maskBits [] 0 0 = []
    rw [maskBits, bitsBelow_zero_right]
    rfl
  | cons x xs =>
    rw [maskBits, wordsBits]
    rfl

theorem ctb_go_eq_pairs {get : Nat → Nat → Nat} {P T : List Nat} {Pfl Tfl : List Nat}
    (hget1 : ∀ c p, p < P.length →
      (get (p / 64) c).testBit (p % 64) = decide (P.getD p 0 = c))
    (hwfP : ∀ x ∈ Pfl, x < 2 ^ 64) (hwfT : ∀ x ∈ Tfl, x < 2 ^ 64) :
    ∀ (fuel TW PW T_flag P_flag acc FC : Nat),
      T_flag < 2 ^ 64 → P_flag < 2 ^ 64 →
      (∀ p ∈ maskBits Pfl PW P_flag, p < P.length) →
      (∀ q ∈ maskBits Tfl TW T_flag, q < T.length) →
      (maskBits Pfl PW P_flag).length = (maskBits Tfl TW T_flag).length →
      FC = (maskBits Tfl TW T_flag).length →
      FC + (Pfl.length - PW) + (Tfl.length - TW) + 1 ≤ fuel →
      count_transpositions_block_go get T Pfl Tfl fuel TW PW T_flag P_flag FC acc =
        acc + ((maskBits Pfl PW P_flag).zip (maskBits Tfl TW T_flag)).countP
          (fun pr => decide (P.getD pr.1 0 ≠ T.getD pr.2 0)) := by
  intro fuel
  induction fuel with
  | zero =>
    intro TW PW T_flag P_flag acc FC _ _ _ _ _ _ hfuel
    omega
  | succ fuel ih =>
    intro TW PW T_flag P_flag acc FC hT64 hP64 hplP htlT hlen hFC hfuel
    rw [count_transpositions_block_go]
    by_cases hTne : T_flag ≠ 0
    · rw [if_pos hTne]
      obtain ⟨ct1, ct2, ct3⟩ := countr_zero_spec hTne hT64
      have htlc : maskBits Tfl TW T_flag =
          (64 * TW + countr_zero T_flag) ::
            maskBits Tfl TW (T_flag ^^^ (1 <<< countr_zero T_flag)) := by
        rw [maskBits, maskBits, bitsBelow_cons ct2 ct3 ct1, List.map_cons, List.cons_append]
      by_cases hP0 : P_flag = 0
      · rw [if_pos hP0]
        have hplne : maskBits Pfl PW P_flag ≠ [] := by
          intro hnil
          rw [hnil, htlc] at hlen
          simp at hlen
        have hpl0 : maskBits Pfl PW P_flag = wordsBits (PW + 1) (Pfl.drop (PW + 1)) := by
          rw [hP0, maskBits, bitsBelow_zero_right, List.map_nil, List.nil_append]
        obtain ⟨x, xs, hdrop⟩ : ∃ x xs, Pfl.drop (PW + 1) = x :: xs := by
          cases hd : Pfl.drop (PW + 1) with
          | nil =>
            rw [hpl0, hd] at hplne
            exact absurd rfl hplne
          | cons a as => exact ⟨a, as, rfl⟩
        have hPW1 : PW + 1 < Pfl.length := by
          have hl := List.length_drop (PW + 1) Pfl
          rw [hdrop] at hl
          simp at hl
          omega
        have hxval : Pfl.getD (PW + 1) 0 = x := getD_of_drop_cons hdrop
        have hxs : Pfl.drop (PW + 1 + 1) = xs := drop_of_drop_cons hdrop
        have hplnew : maskBits Pfl PW P_flag =
            maskBits Pfl (PW + 1) (Pfl.getD (PW + 1) 0) := by
          rw [hpl0, hdrop, wordsBits, maskBits, hxval, hxs]
        rw [ih TW (PW + 1) T_flag (Pfl.getD (PW + 1) 0) acc FC hT64
          (getD_of_forall_mem hwfP _) (by rw [← hplnew]; exact hplP) htlT
          (by rw [← hplnew]; exact hlen) hFC (by omega), hplnew]
      · rw [if_neg hP0]
        obtain ⟨cp1, cp2, cp3⟩ := countr_zero_spec hP0 hP64
        have hplc : maskBits Pfl PW P_flag =
            (64 * PW + countr_zero P_flag) ::
              maskBits Pfl PW (P_flag ^^^ (1 <<< countr_zero P_flag)) := by
          rw [maskBits, maskBits, bitsBelow_cons cp2 cp3 cp1, List.map_cons, List.cons_append]
        have hheadP : 64 * PW + countr_zero P_flag < P.length :=
          hplP _ (by rw [hplc]; exact List.mem_cons_self _ _)
        have hblsi : blsi P_flag = 1 <<< countr_zero P_flag := by rw [blsi, if_neg hP0]
        have hblsr : blsr T_flag = T_flag ^^^ (1 <<< countr_zero T_flag) := by
          rw [blsr, blsi, if_neg hTne]
        have hocc : (get PW (T.getD (64 * TW + countr_zero T_flag) 0)).testBit
            (countr_zero P_flag) =
            decide (P.getD (64 * PW + countr_zero P_flag) 0 =
              T.getD (64 * TW + countr_zero T_flag) 0) := by
          have hg := hget1 (T.getD (64 * TW + countr_zero T_flag) 0)
            (64 * PW + countr_zero P_flag) hheadP
          rw [show (64 * PW + countr_zero P_flag) / 64 = PW by omega,
            show (64 * PW + countr_zero P_flag) % 64 = countr_zero P_flag by omega] at hg
          exact hg
        have hif : (if get PW (T.getD (64 * TW + countr_zero T_flag) 0) &&&
              blsi P_flag = 0 then 1 else 0) =
            (if P.getD (64 * PW + countr_zero P_flag) 0 ≠
                T.getD (64 * TW + countr_zero T_flag) 0 then (1 : Nat) else 0) := by
          apply if_congr _ rfl rfl
          rw [hblsi, Nat.one_shiftLeft, land_two_pow_eq_zero_iff, hocc]
          simp
        have hP64' : P_flag ^^^ (1 <<< countr_zero P_flag) < 2 ^ 64 :=
          Nat.xor_lt_two_pow hP64
            (by rw [Nat.one_shiftLeft]; exact Nat.pow_lt_pow_right (by norm_num) cp1)
        have hT64' : T_flag ^^^ (1 <<< countr_zero T_flag) < 2 ^ 64 :=
          Nat.xor_lt_two_pow hT64
            (by rw [Nat.one_shiftLeft]; exact Nat.pow_lt_pow_right (by norm_num) ct1)
        have hlen' : (maskBits Pfl PW (P_flag ^^^ (1 <<< countr_zero P_flag))).length =
            (maskBits Tfl TW (T_flag ^^^ (1 <<< countr_zero T_flag))).length := by
          rw [hplc, htlc] at hlen
          simpa using hlen
        have hFCpos : 1 ≤ FC := by
          rw [hFC, htlc, List.length_cons]
          omega
        rw [hblsr, hblsi,
          ih TW PW (T_flag ^^^ (1 <<< countr_zero T_flag))
            (P_flag ^^^ (1 <<< countr_zero P_flag)) _ (FC - 1) hT64' hP64'
            (fun p hp => hplP p (by rw [hplc]; exact List.mem_cons_of_mem _ hp))
            (fun q hq => htlT q (by rw [htlc]; exact List.mem_cons_of_mem _ hq))
            hlen'
            (by rw [hFC, htlc, List.length_cons]; omega)
            (by omega),
          hplc, htlc, List.zip_cons_cons, List.countP_cons]
        rw [hblsi] at hif
        rw [hif]
        simp only [decide_eq_true_eq]
        omega
    · rw [if_neg hTne]
      push_neg at hTne
      by_cases hFC0 : FC = 0
      · rw [if_pos hFC0]
        have htlnil : maskBits Tfl TW T_flag = [] := List.length_eq_zero.mp (by omega)
        rw [htlnil, List.zip_nil_right]
        simp
      · rw [if_neg hFC0]
        have htl0 : maskBits Tfl TW T_flag = wordsBits (TW + 1) (Tfl.drop (TW + 1)) := by
          rw [hTne, maskBits, bitsBelow_zero_right, List.map_nil, List.nil_append]
        have htlne : maskBits Tfl TW T_flag ≠ [] := by
          intro hnil
          rw [hnil] at hFC
          simp at hFC
          exact hFC0 hFC
        obtain ⟨x, xs, hdrop⟩ : ∃ x xs, Tfl.drop (TW + 1) = x :: xs := by
          cases hd : Tfl.drop (TW + 1) with
          | nil =>
            rw [htl0, hd] at htlne
            exact absurd rfl htlne
          | cons a as => exact ⟨a, as, rfl⟩
        have hTW1 : TW + 1 < Tfl.length := by
          have hl := List.length_drop (TW + 1) Tfl
          rw [hdrop] at hl
          simp at hl
          omega
        have hxval : Tfl.getD (TW + 1) 0 = x := getD_of_drop_cons hdrop
        have hxs : Tfl.drop (TW + 1 + 1) = xs := drop_of_drop_cons hdrop
        have htlnew : maskBits Tfl TW T_flag =
            maskBits Tfl (TW + 1) (Tfl.getD (TW + 1) 0) := by
          rw [htl0, hdrop, wordsBits, maskBits, hxval, hxs]
        rw [ih (TW + 1) PW (Tfl.getD (TW + 1) 0) P_flag acc FC
          (getD_of_forall_mem hwfT _) hP64 hplP (by rw [← htlnew]; exact htlT)
          (by rw [← htlnew]; exact hlen) (by rw [← htlnew]; exact hFC) (by omega),
          htlnew]

theorem count_transpositions_block_eq_refTrans {get : Nat → Nat → Nat} {P T : List Nat}
    {flagged : FlaggedCharsMultiword}
    (hget1 : ∀ c p, p < P.length →
      (get (p / 64) c).testBit (p % 64) = decide (P.getD p 0 = c))
    (hwfP : ∀ x ∈ flagged.P_flag, x < 2 ^ 64)
    (hwfT : ∀ x ∈ flagged.T_flag, x < 2 ^ 64)
    (hpf : ∀ p, (combineWords flagged.P_flag).testBit p = true → p < P.length)
    (htf : ∀ q, (combineWords flagged.T_flag).testBit q = true → q < T.length)
    (hPlen : P.length ≤ 64 * flagged.P_flag.length)
    (hTlen : T.length ≤ 64 * flagged.T_flag.length)
    (hcnt : countBits (64 * flagged.P_flag.length) (combineWords flagged.P_flag) =
      countBits (64 * flagged.T_flag.length) (combineWords flagged.T_flag)) :
    count_transpositions_block get T flagged (count_common_chars_multiword flagged) =
      refTrans P T (combineWords flagged.P_flag) (combineWords flagged.T_flag) := by
  have hhighP : ∀ i, P.length ≤ i → (combineWords flagged.P_flag).testBit i = false := by
    intro i hi
    cases hb : (combineWords flagged.P_flag).testBit i
    · rfl
    · exact absurd (hpf i hb) (by omega)
  have hhighT : ∀ i, T.length ≤ i → (combineWords flagged.T_flag).testBit i = false := by
    intro i hi
    cases hb : (combineWords flagged.T_flag).testBit i
    · rfl
    · exact absurd (htf i hb) (by omega)
  have hplbits : wordsBits 0 flagged.P_flag =
      bitsBelow P.length (combineWords flagged.P_flag) := by
    rw [wordsBits_eq flagged.P_flag hwfP 0, bitsBelow_high hPlen hhighP]
    have he : (fun i => 64 * 0 + i) = fun (i : Nat) => i := by
      funext i
      omega
    rw [he, List.map_id']
  have htlbits : wordsBits 0 flagged.T_flag =
      bitsBelow T.length (combineWords flagged.T_flag) := by
    rw [wordsBits_eq flagged.T_flag hwfT 0, bitsBelow_high hTlen hhighT]
    have he : (fun i => 64 * 0 + i) = fun (i : Nat) => i := by
      funext i
      omega
    rw [he, List.map_id']
  have hcnt' : countBits P.length (combineWords flagged.P_flag) =
      countBits T.length (combineWords flagged.T_flag) := by
    rw [← countBits_high hPlen hhighP, ← countBits_high hTlen hhighT]
    exact hcnt
  have hFCval : count_common_chars_multiword flagged =
      (bitsBelow T.length (combineWords flagged.T_flag)).length := by
    unfold count_common_chars_multiword
    by_cases hc : flagged.P_flag.length < flagged.T_flag.length
    · rw [if_pos hc, sum_popcount_eq_countBits hwfP, hcnt, countBits_high hTlen hhighT]
      rfl
    · rw [if_neg hc, sum_popcount_eq_countBits hwfT, countBits_high hTlen hhighT]
      rfl
  unfold count_transpositions_block
  by_cases hFC : count_common_chars_multiword flagged = 0
  · rw [if_pos hFC]
    unfold refTrans
    have htnil : bitsBelow T.length (combineWords flagged.T_flag) = [] :=
      List.length_eq_zero.mp (by omega)
    rw [htnil, List.zip_nil_right]
    rfl
  · rw [if_neg hFC]
    have h1 := ctb_go_eq_pairs hget1 hwfP hwfT
      (count_common_chars_multiword flagged + flagged.P_flag.length +
        flagged.T_flag.length + 1)
      0 0 (flagged.T_flag.getD 0 0) (flagged.P_flag.getD 0 0) 0
      (count_common_chars_multiword flagged)
      (getD_of_forall_mem hwfT 0) (getD_of_forall_mem hwfP 0)
      (by
        rw [maskBits_zero, hplbits]
        intro p hp
        unfold bitsBelow at hp
        rw [List.mem_filter, List.mem_range] at hp
        exact hp.1)
      (by
        rw [maskBits_zero, htlbits]
        intro q hq
        unfold bitsBelow at hq
        rw [List.mem_filter, List.mem_range] at hq
        exact hq.1)
      (by rw [maskBits_zero, maskBits_zero, hplbits, htlbits]; exact hcnt')
      (by rw [maskBits_zero, htlbits]; exact hFCval)
      (by omega)
    rw [maskBits_zero, maskBits_zero, hplbits, htlbits] at h1
    rw [h1]
    unfold refTrans
    omega

theorem blockGet_lt (P : List Nat) (w c : Nat) : blockGet P w c < 2 ^ 64 :=
  Nat.lt_of_le_of_lt Nat.and_le_right (by norm_num)

theorem testBit_blockGet (P : List Nat) (c p : Nat) (hp : p < P.length) :
    (blockGet P (p / 64) c).testBit (p % 64) = decide (P.getD p 0 = c) := by
  rw [blockGet, Nat.testBit_land, Nat.testBit_shiftRight, Nat.testBit_two_pow_sub_one,
    decide_eq_true (show p % 64 < 64 from Nat.mod_lt _ (by norm_num)), Bool.and_true,
    show 64 * (p / 64) + p % 64 = p by omega, testBit_occMask, decide_eq_true hp,
    Bool.true_and]

/-- Either branch of `count_common_chars` over multiword flags returns the
total popcount, provided both arrays carry equally many bits. -/
theorem count_common_chars_multiword_eq {flagged : FlaggedCharsMultiword}
    (hwfP : ∀ x ∈ flagged.P_flag, x < 2 ^ 64)
    (hwfT : ∀ x ∈ flagged.T_flag, x < 2 ^ 64)
    (hcnt : countBits (64 * flagged.P_flag.length) (combineWords flagged.P_flag) =
      countBits (64 * flagged.T_flag.length) (combineWords flagged.T_flag)) :
    count_common_chars_multiword flagged =
      countBits (64 * flagged.T_flag.length) (combineWords flagged.T_flag) := by
  unfold count_common_chars_multiword
  by_cases hc : flagged.P_flag.length < flagged.T_flag.length
  · rw [if_pos hc, sum_popcount_eq_countBits hwfP, hcnt]
  · rw [if_neg hc, sum_popcount_eq_countBits hwfT]

/-- C3: under the block-path preconditions (`0 ≤ Bound`, a nonempty
reference, and `T_len ≤ P_len + Bound`, which `jaro_bounds` guarantees)
the block flagger realizes exactly the reference window semantics: its
combined flags equal the reference flagger's, which flags at every text
position `j` the lowest unflagged matching reference position inside
`[max(0, j−Bound), min(P_len−1, j+Bound)]`; its transposition count
equals the reference transposition count; and whenever the word path is
applicable (both lengths ≤ 64, e.g. straddling inputs compared after
trimming) the word path produces the identical common-character count and
the identical transposition count. -/
theorem block_flagger_matches_reference (P T : List Nat) (B : Int)
    (hB : 0 ≤ B) (hP1 : 1 ≤ P.length)
    (hguard : ((T.length : Nat) : Int) ≤ (P.length : Int) + B) :
    combineWords (flag_similar_characters_block (blockGet P) P.length T B).P_flag =
        (refFlag P T B).P_flag ∧
      combineWords (flag_similar_characters_block (blockGet P) P.length T B).T_flag =
        (refFlag P T B).T_flag ∧
      count_transpositions_block (blockGet P) T
          (flag_similar_characters_block (blockGet P) P.length T B)
          (count_common_chars_multiword
            (flag_similar_characters_block (blockGet P) P.length T B)) =
        refTrans P T (refFlag P T B).P_flag (refFlag P T B).T_flag ∧
      (P.length ≤ 64 → T.length ≤ 64 →
        count_common_chars_multiword
            (flag_similar_characters_block (blockGet P) P.length T B) =
          count_common_chars_word (flag_similar_characters_word (occMask P) T B) ∧
        count_transpositions_block (blockGet P) T
            (flag_similar_characters_block (blockGet P) P.length T B)
            (count_common_chars_multiword
              (flag_similar_characters_block (blockGet P) P.length T B)) =
          count_transpositions_word (occMask P) T
            (flag_similar_characters_word (occMask P) T B)) := by
  have hget64 : ∀ w c, blockGet P w c < 2 ^ 64 := fun w c => blockGet_lt P w c
  have hget1 : ∀ c p, p < P.length →
      (blockGet P (p / 64) c).testBit (p % 64) = decide (P.getD p 0 = c) :=
    fun c p hp => testBit_blockGet P c p hp
  obtain ⟨e1, e2, e3, e4, e5, e6⟩ := flag_block_eq_refFlag hget64 hget1 hB hP1 hguard
  have hK1 : P.length ≤
      64 * (flag_similar_characters_block (blockGet P) P.length T B).P_flag.length := by
    rw [e3]
    omega
  have hK2 : T.length ≤
      64 * (flag_similar_characters_block (blockGet P) P.length T B).T_flag.length := by
    rw [e4]
    omega
  obtain ⟨rinvP, rinvT, rcnt⟩ := refFlag_inv hK1 hK2
  have hpf : ∀ p,
      (combineWords (flag_similar_characters_block
        (blockGet P) P.length T B).P_flag).testBit p = true → p < P.length := by
    intro p hp
    rw [e1] at hp
    exact rinvP p hp
  have htf : ∀ q,
      (combineWords (flag_similar_characters_block
        (blockGet P) P.length T B).T_flag).testBit q = true → q < T.length := by
    intro q hq
    rw [e2] at hq
    exact rinvT q hq
  have hcnt : countBits
      (64 * (flag_similar_characters_block (blockGet P) P.length T B).P_flag.length)
      (combineWords (flag_similar_characters_block (blockGet P) P.length T B).P_flag) =
      countBits
      (64 * (flag_similar_characters_block (blockGet P) P.length T B).T_flag.length)
      (combineWords (flag_similar_characters_block (blockGet P) P.length T B).T_flag) := by
    rw [e1, e2]
    exact rcnt
  have htrans := count_transpositions_block_eq_refTrans hget1 e5 e6 hpf htf hK1 hK2 hcnt
  rw [e1, e2] at htrans
  refine ⟨e1, e2, htrans, ?_⟩
  intro hP64 hT64
  have hword : flag_similar_characters_word (occMask P) T B = refFlag P T B :=
    flag_word_occ_eq_refFlag hP64
  obtain ⟨-, -, rcnt2⟩ := refFlag_inv (le_refl P.length) (le_refl T.length)
  have hhP : ∀ i, P.length ≤ i → (refFlag P T B).P_flag.testBit i = false := by
    intro i hi
    cases hb : (refFlag P T B).P_flag.testBit i
    · rfl
    · exact absurd (rinvP i hb) (by omega)
  have hhT : ∀ i, T.length ≤ i → (refFlag P T B).T_flag.testBit i = false := by
    intro i hi
    cases hb : (refFlag P T B).T_flag.testBit i
    · rfl
    · exact absurd (rinvT i hb) (by omega)
  have hhighT : ∀ i, T.length ≤ i →
      (combineWords (flag_similar_characters_block
        (blockGet P) P.length T B).T_flag).testBit i = false := by
    intro i hi
    rw [e2]
    exact hhT i hi
  constructor
  · calc count_common_chars_multiword (flag_similar_characters_block
          (blockGet P) P.length T B)
        = countBits
            (64 * (flag_similar_characters_block (blockGet P) P.length T B).T_flag.length)
            (combineWords (flag_similar_characters_block (blockGet P) P.length T B).T_flag) :=
          count_common_chars_multiword_eq e5 e6 hcnt
      _ = countBits T.length
            (combineWords (flag_similar_characters_block (blockGet P) P.length T B).T_flag) :=
          countBits_high hK2 hhighT
      _ = countBits T.length (refFlag P T B).T_flag := by rw [e2]
      _ = countBits P.length (refFlag P T B).P_flag := rcnt2.symm
      _ = countBits 64 (refFlag P T B).P_flag := (countBits_high hP64 hhP).symm
      _ = count_common_chars_word (flag_similar_characters_word (occMask P) T B) := by
          unfold count_common_chars_word popcount
          rw [hword]
  · have h1occ : ∀ c p, p < P.length →
        (occMask P c).testBit p = decide (P.getD p 0 = c) := by
      intro c p hp
      rw [testBit_occMask]
      simp [hp]
    have hcnt64 : countBits 64 (refFlag P T B).P_flag =
        countBits 64 (refFlag P T B).T_flag := by
      rw [countBits_high hP64 hhP, countBits_high hT64 hhT]
      exact rcnt2
    have hctw := count_transpositions_word_eq_refTrans h1occ hP64 hT64 rinvP rinvT hcnt64
    rw [hword]
    exact htrans.trans hctw.symm

theorem block_flagger_matches_reference_witness :
    (0 : Int) ≤ 31 ∧ 1 ≤ (List.replicate 65 1 : List Nat).length ∧
      ((([1] : List Nat).length : Nat) : Int) ≤
        (((List.replicate 65 1 : List Nat).length : Nat) : Int) + 31 ∧
      (combineWords (flag_similar_characters_block (blockGet (List.replicate 65 1))
            (List.replicate 65 1 : List Nat).length [1] 31).P_flag =
          (refFlag (List.replicate 65 1) [1] 31).P_flag ∧
        combineWords (flag_similar_characters_block (blockGet (List.replicate 65 1))
            (List.replicate 65 1 : List Nat).length [1] 31).T_flag =
          (refFlag (List.replicate 65 1) [1] 31).T_flag ∧
        count_transpositions_block (blockGet (List.replicate 65 1)) [1]
            (flag_similar_characters_block (blockGet (List.replicate 65 1))
              (List.replicate 65 1 : List Nat).length [1] 31)
            (count_common_chars_multiword
              (flag_similar_characters_block (blockGet (List.replicate 65 1))
                (List.replicate 65 1 : List Nat).length [1] 31)) =
          refTrans (List.replicate 65 1) [1] (refFlag (List.replicate 65 1) [1] 31).P_flag
            (refFlag (List.replicate 65 1) [1] 31).T_flag ∧
        ((List.replicate 65 1 : List Nat).length ≤ 64 → ([1] : List Nat).length ≤ 64 →
          count_common_chars_multiword
              (flag_similar_characters_block (blockGet (List.replicate 65 1))
                (List.replicate 65 1 : List Nat).length [1] 31) =
            count_common_chars_word
              (flag_similar_characters_word (occMask (List.replicate 65 1)) [1] 31) ∧
          count_transpositions_block (blockGet (List.replicate 65 1)) [1]
              (flag_similar_characters_block (blockGet (List.replicate 65 1))
                (List.replicate 65 1 : List Nat).length [1] 31)
              (count_common_chars_multiword
                (flag_similar_characters_block (blockGet (List.replicate 65 1))
                  (List.replicate 65 1 : List Nat).length [1] 31)) =
            count_transpositions_word (occMask (List.replicate 65 1)) [1]
              (flag_similar_characters_word (occMask (List.replicate 65 1)) [1] 31))) :=
  ⟨by decide, by decide, by decide,
    block_flagger_matches_reference (List.replicate 65 1) [1] 31 (by decide) (by decide)
      (by decide)⟩

/-- C9: both flaggers are left folds over the text, so the state after
any number of steps is the run on the corresponding text prefix.  For
every prefix `T.take k` the word flagger's two flag words carry equally
many set bits, the block flagger's two flag arrays carry equally many set
bits summed across words, and consequently `count_common_chars` over the
final multiword state may sum whichever array it picks and obtains the
same common-character count. -/
theorem popcount_invariant (P T : List Nat) (B : Int) (k : Nat)
    (hB : 0 ≤ B) (hP1 : 1 ≤ P.length)
    (hguard : ((T.length : Nat) : Int) ≤ (P.length : Int) + B) :
    (P.length ≤ 64 → T.length ≤ 64 →
      popcount (flag_similar_characters_word (occMask P) (T.take k) B).P_flag =
        popcount (flag_similar_characters_word (occMask P) (T.take k) B).T_flag) ∧
    (List.map popcount
        (flag_similar_characters_block (blockGet P) P.length (T.take k) B).P_flag).sum =
      (List.map popcount
        (flag_similar_characters_block (blockGet P) P.length (T.take k) B).T_flag).sum ∧
    count_common_chars_multiword (flag_similar_characters_block (blockGet P) P.length T B) =
      (List.map popcount
        (flag_similar_characters_block (blockGet P) P.length T B).P_flag).sum ∧
    count_common_chars_multiword (flag_similar_characters_block (blockGet P) P.length T B) =
      (List.map popcount
        (flag_similar_characters_block (blockGet P) P.length T B).T_flag).sum := by
  have hget64 : ∀ w c, blockGet P w c < 2 ^ 64 := fun w c => blockGet_lt P w c
  have hget1 : ∀ c p, p < P.length →
      (blockGet P (p / 64) c).testBit (p % 64) = decide (P.getD p 0 = c) :=
    fun c p hp => testBit_blockGet P c p hp
  have hblk : ∀ T' : List Nat, ((T'.length : Nat) : Int) ≤ (P.length : Int) + B →
      (List.map popcount
          (flag_similar_characters_block (blockGet P) P.length T' B).P_flag).sum =
        (List.map popcount
          (flag_similar_characters_block (blockGet P) P.length T' B).T_flag).sum := by
    intro T' hg'
    obtain ⟨e1, e2, e3, e4, e5, e6⟩ := flag_block_eq_refFlag hget64 hget1 hB hP1 hg'
    have hK1 : P.length ≤
        64 * (flag_similar_characters_block (blockGet P) P.length T' B).P_flag.length := by
      rw [e3]
      omega
    have hK2 : T'.length ≤
        64 * (flag_similar_characters_block (blockGet P) P.length T' B).T_flag.length := by
      rw [e4]
      omega
    obtain ⟨-, -, rcnt⟩ := refFlag_inv hK1 hK2
    rw [sum_popcount_eq_countBits e5, sum_popcount_eq_countBits e6, e1, e2]
    exact rcnt
  have hgtake : (((T.take k).length : Nat) : Int) ≤ (P.length : Int) + B := by
    rw [List.length_take]
    push_cast
    omega
  refine ⟨?_, hblk (T.take k) hgtake, ?_, ?_⟩
  · intro hP64 hT64
    rw [flag_word_occ_eq_refFlag hP64]
    have hK2 : (T.take k).length ≤ 64 := by
      rw [List.length_take]
      omega
    obtain ⟨-, -, rcnt⟩ := @refFlag_inv P (T.take k) B 64 64 hP64 hK2
    exact rcnt
  · unfold count_common_chars_multiword
    by_cases hc : (flag_similar_characters_block (blockGet P) P.length T B).P_flag.length <
        (flag_similar_characters_block (blockGet P) P.length T B).T_flag.length
    · rw [if_pos hc]
    · rw [if_neg hc]
      exact (hblk T hguard).symm
  · unfold count_common_chars_multiword
    by_cases hc : (flag_similar_characters_block (blockGet P) P.length T B).P_flag.length <
        (flag_similar_characters_block (blockGet P) P.length T B).T_flag.length
    · rw [if_pos hc]
      exact hblk T hguard
    · rw [if_neg hc]

theorem popcount_invariant_witness :
    (0 : Int) ≤ 31 ∧ 1 ≤ ([1, 2] : List Nat).length ∧
      ((([2, 1] : List Nat).length : Nat) : Int) ≤ ((([1, 2] : List Nat).length : Nat) : Int) + 31 ∧
      ((([1, 2] : List Nat).length ≤ 64 → ([2, 1] : List Nat).length ≤ 64 →
        popcount (flag_similar_characters_word (occMask [1, 2]) (([2, 1] : List Nat).take 1) 31).P_flag =
          popcount (flag_similar_characters_word (occMask [1, 2]) (([2, 1] : List Nat).take 1) 31).T_flag) ∧
      (List.map popcount
          (flag_similar_characters_block (blockGet [1, 2]) ([1, 2] : List Nat).length
            (([2, 1] : List Nat).take 1) 31).P_flag).sum =
        (List.map popcount
          (flag_similar_characters_block (blockGet [1, 2]) ([1, 2] : List Nat).length
            (([2, 1] : List Nat).take 1) 31).T_flag).sum ∧
      count_common_chars_multiword
          (flag_similar_characters_block (blockGet [1, 2]) ([1, 2] : List Nat).length [2, 1] 31) =
        (List.map popcount
          (flag_similar_characters_block (blockGet [1, 2]) ([1, 2] : List Nat).length
            [2, 1] 31).P_flag).sum ∧
      count_common_chars_multiword
          (flag_similar_characters_block (blockGet [1, 2]) ([1, 2] : List Nat).length [2, 1] 31) =
        (List.map popcount
          (flag_similar_characters_block (blockGet [1, 2]) ([1, 2] : List Nat).length
            [2, 1] 31).T_flag).sum) :=
  ⟨by decide, by decide, by decide, popcount_invariant [1, 2] [2, 1] 31 1 (by decide) (by decide) (by decide)⟩

/-! ## Score bounds and filter soundness (toward the thresholding claim) -/

theorem specScore_nonneg {P_len T_len C traw : Nat} (ht : traw ≤ C) :
    0 ≤ specScore P_len T_len C traw := by
  unfold specScore
  have h1 : (0 : ℚ) ≤ (C : ℚ) / (P_len : ℚ) := by positivity
  have h2 : (0 : ℚ) ≤ (C : ℚ) / (T_len : ℚ) := by positivity
  have h3 : (0 : ℚ) ≤ ((C : ℚ) - ((traw / 2 : Nat) : ℚ)) / (C : ℚ) := by
    apply div_nonneg _ (by positivity)
    rw [sub_nonneg]
    exact_mod_cast le_trans (Nat.div_le_self _ _) ht
  have hsum : (0 : ℚ) ≤ (C : ℚ) / (P_len : ℚ) + (C : ℚ) / (T_len : ℚ) +
      ((C : ℚ) - ((traw / 2 : Nat) : ℚ)) / (C : ℚ) := by linarith
  positivity

theorem specScore_trans_term_le_one (C traw : Nat) :
    ((C : ℚ) - ((traw / 2 : Nat) : ℚ)) / (C : ℚ) ≤ 1 := by
  by_cases hC : C = 0
  · subst hC
    norm_num
  · have hCpos : (0 : ℚ) < (C : ℚ) := by
      have : 0 < C := Nat.pos_of_ne_zero hC
      exact_mod_cast this
    apply (div_le_one hCpos).mpr
    have : (0 : ℚ) ≤ ((traw / 2 : Nat) : ℚ) := by positivity
    linarith

theorem specScore_le_cc (P_len T_len C traw : Nat) :
    specScore P_len T_len C traw ≤
      ((C : ℚ) / (P_len : ℚ) + (C : ℚ) / (T_len : ℚ) + 1) / 3 := by
  unfold specScore
  gcongr
  exact specScore_trans_term_le_one C traw

theorem specScore_le_len {P_len T_len C : Nat} (traw : Nat)
    (hCP : C ≤ P_len) (hCT : C ≤ T_len) :
    specScore P_len T_len C traw ≤
      (((min P_len T_len : Nat) : ℚ) / (P_len : ℚ) +
        ((min P_len T_len : Nat) : ℚ) / (T_len : ℚ) + 1) / 3 := by
  have hCm : (C : ℚ) ≤ ((min P_len T_len : Nat) : ℚ) := by
    exact_mod_cast le_min hCP hCT
  calc specScore P_len T_len C traw
      ≤ ((C : ℚ) / (P_len : ℚ) + (C : ℚ) / (T_len : ℚ) + 1) / 3 :=
        specScore_le_cc P_len T_len C traw
    _ ≤ (((min P_len T_len : Nat) : ℚ) / (P_len : ℚ) +
          ((min P_len T_len : Nat) : ℚ) / (T_len : ℚ) + 1) / 3 := by
        gcongr <;> positivity

theorem jaro_length_filter_zero {P_len T_len : Nat}
    (hP : P_len ≠ 0) (hT : T_len ≠ 0) : jaro_length_filter P_len T_len 0 = true := by
  unfold jaro_length_filter
  rw [if_neg (by tauto)]
  apply decide_eq_true
  positivity

theorem jaro_length_filter_false {P_len T_len : Nat} {c : ℚ}
    (hP : P_len ≠ 0) (hT : T_len ≠ 0)
    (h : jaro_length_filter P_len T_len c = false) :
    ¬((((min P_len T_len : Nat) : ℚ) / (P_len : ℚ) +
        ((min P_len T_len : Nat) : ℚ) / (T_len : ℚ) + 1) / 3 ≥ c) := by
  unfold jaro_length_filter at h
  rw [if_neg (by tauto)] at h
  exact of_decide_eq_false h

theorem jaro_common_char_filter_zero {P_len T_len C : Nat} (hC : C ≠ 0) :
    jaro_common_char_filter P_len T_len C 0 = true := by
  unfold jaro_common_char_filter
  rw [if_neg hC]
  apply decide_eq_true
  positivity

theorem jaro_common_char_filter_false {P_len T_len C : Nat} {c : ℚ} (hC : C ≠ 0)
    (h : jaro_common_char_filter P_len T_len C c = false) :
    ¬(((C : ℚ) / (P_len : ℚ) + (C : ℚ) / (T_len : ℚ) + 1) / 3 ≥ c) := by
  unfold jaro_common_char_filter at h
  rw [if_neg hC] at h
  exact of_decide_eq_false h

theorem refTrans_le (P T : List Nat) (pf tf : Nat) :
    refTrans P T pf tf ≤ countBits T.length tf := by
  unfold refTrans countBits
  calc ((bitsBelow P.length pf).zip (bitsBelow T.length tf)).countP
        (fun pr => decide (P.getD pr.1 0 ≠ T.getD pr.2 0))
      ≤ ((bitsBelow P.length pf).zip (bitsBelow T.length tf)).length :=
        List.countP_le_length _
    _ ≤ (bitsBelow T.length tf).length := by
        rw [List.length_zip]
        omega

/-- Word-path count facts: the common-character count is bounded by both
remaining lengths and dominates the raw transposition count. -/
theorem word_counts_bounds (P T : List Nat) (B : Int)
    (hP64 : P.length ≤ 64) (hT64 : T.length ≤ 64) :
    count_common_chars_word (flag_similar_characters_word (occMask P) T B) ≤ P.length ∧
    count_common_chars_word (flag_similar_characters_word (occMask P) T B) ≤ T.length ∧
    count_transpositions_word (occMask P) T
        (flag_similar_characters_word (occMask P) T B) ≤
      count_common_chars_word (flag_similar_characters_word (occMask P) T B) := by
  rw [flag_word_occ_eq_refFlag hP64]
  obtain ⟨rP, rT, rcnt⟩ := @refFlag_inv P T B 64 64 hP64 hT64
  have hhP : ∀ i, P.length ≤ i → (refFlag P T B).P_flag.testBit i = false := by
    intro i hi
    cases hb : (refFlag P T B).P_flag.testBit i
    · rfl
    · exact absurd (rP i hb) (by omega)
  have hhT : ∀ i, T.length ≤ i → (refFlag P T B).T_flag.testBit i = false := by
    intro i hi
    cases hb : (refFlag P T B).T_flag.testBit i
    · rfl
    · exact absurd (rT i hb) (by omega)
  have hconv : count_common_chars_word (refFlag P T B) = countBits 64 (refFlag P T B).P_flag :=
    rfl
  have hP' : countBits 64 (refFlag P T B).P_flag = countBits P.length (refFlag P T B).P_flag :=
    countBits_high hP64 hhP
  have hT' : countBits 64 (refFlag P T B).T_flag = countBits T.length (refFlag P T B).T_flag :=
    countBits_high hT64 hhT
  have h1occ : ∀ c p, p < P.length →
      (occMask P c).testBit p = decide (P.getD p 0 = c) := by
    intro c p hp
    rw [testBit_occMask]
    simp [hp]
  have hctw := count_transpositions_word_eq_refTrans h1occ hP64 hT64 rP rT rcnt
  refine ⟨?_, ?_, ?_⟩
  · rw [hconv, hP']
    exact countBits_le _ _
  · rw [hconv, rcnt, hT']
    exact countBits_le _ _
  · calc count_transpositions_word (occMask P) T (refFlag P T B)
        = refTrans P T (refFlag P T B).P_flag (refFlag P T B).T_flag := hctw
      _ ≤ countBits T.length (refFlag P T B).T_flag := refTrans_le _ _ _ _
      _ = countBits 64 (refFlag P T B).T_flag := hT'.symm
      _ = countBits 64 (refFlag P T B).P_flag := rcnt.symm
      _ = count_common_chars_word (refFlag P T B) := rfl

/-- Block-path count facts, mirroring `word_counts_bounds`. -/
theorem block_counts_bounds (P T : List Nat) (B : Int)
    (hB : 0 ≤ B) (hP1 : 1 ≤ P.length)
    (hguard : ((T.length : Nat) : Int) ≤ (P.length : Int) + B) :
    count_common_chars_multiword
        (flag_similar_characters_block (blockGet P) P.length T B) ≤ P.length ∧
    count_common_chars_multiword
        (flag_similar_characters_block (blockGet P) P.length T B) ≤ T.length ∧
    count_transpositions_block (blockGet P) T
        (flag_similar_characters_block (blockGet P) P.length T B)
        (count_common_chars_multiword
          (flag_similar_characters_block (blockGet P) P.length T B)) ≤
      count_common_chars_multiword
        (flag_similar_characters_block (blockGet P) P.length T B) := by
  have hget64 : ∀ w c, blockGet P w c < 2 ^ 64 := fun w c => blockGet_lt P w c
  have hget1 : ∀ c p, p < P.length →
      (blockGet P (p / 64) c).testBit (p % 64) = decide (P.getD p 0 = c) :=
    fun c p hp => testBit_blockGet P c p hp
  obtain ⟨e1, e2, e3, e4, e5, e6⟩ := flag_block_eq_refFlag hget64 hget1 hB hP1 hguard
  have hK1 : P.length ≤
      64 * (flag_similar_characters_block (blockGet P) P.length T B).P_flag.length := by
    rw [e3]
    omega
  have hK2 : T.length ≤
      64 * (flag_similar_characters_block (blockGet P) P.length T B).T_flag.length := by
    rw [e4]
    omega
  obtain ⟨rinvP, rinvT, rcnt⟩ := refFlag_inv hK1 hK2
  obtain ⟨-, -, rcnt2⟩ := @refFlag_inv P T B P.length T.length (le_refl _) (le_refl _)
  have hpf : ∀ p, (combineWords (flag_similar_characters_block
      (blockGet P) P.length T B).P_flag).testBit p = true → p < P.length := by
    intro p hp
    rw [e1] at hp
    exact rinvP p hp
  have htf : ∀ q, (combineWords (flag_similar_characters_block
      (blockGet P) P.length T B).T_flag).testBit q = true → q < T.length := by
    intro q hq
    rw [e2] at hq
    exact rinvT q hq
  have hcnt : countBits
      (64 * (flag_similar_characters_block (blockGet P) P.length T B).P_flag.length)
      (combineWords (flag_similar_characters_block (blockGet P) P.length T B).P_flag) =
      countBits
      (64 * (flag_similar_characters_block (blockGet P) P.length T B).T_flag.length)
      (combineWords (flag_similar_characters_block (blockGet P) P.length T B).T_flag) := by
    rw [e1, e2]
    exact rcnt
  have hhighT : ∀ i, T.length ≤ i →
      (combineWords (flag_similar_characters_block
        (blockGet P) P.length T B).T_flag).testBit i = false := by
    intro i hi
    rw [e2]
    cases hb : (refFlag P T B).T_flag.testBit i
    · rfl
    · exact absurd (rinvT i hb) (by omega)
  have hccm : count_common_chars_multiword
      (flag_similar_characters_block (blockGet P) P.length T B) =
      countBits T.length (refFlag P T B).T_flag := by
    rw [count_common_chars_multiword_eq e5 e6 hcnt, countBits_high hK2 hhighT, e2]
  have htrans := count_transpositions_block_eq_refTrans hget1 e5 e6 hpf htf hK1 hK2 hcnt
  rw [e1, e2] at htrans
  refine ⟨?_, ?_, ?_⟩
  · rw [hccm, ← rcnt2]
    exact countBits_le _ _
  · rw [hccm]
    exact countBits_le _ _
  · rw [htrans, hccm]
    exact refTrans_le _ _ _ _

/-- Shape facts about the trimming overload: the bound value, that the
kept ranges never grow, and that after trimming the text fits inside the
reference's window span. -/
theorem trim_facts {P T : List Nat} {Bound : Int} {P1 T1 : List Nat}
    (hbt : jaro_bounds_trim P T = (Bound, P1, T1)) :
    Bound = ((max P.length T.length : Nat) : Int) / 2 - 1 ∧
    P1.length ≤ P.length ∧ T1.length ≤ T.length ∧
    (0 ≤ Bound → (T1.length : Int) ≤ (P1.length : Int) + Bound) := by
  unfold jaro_bounds_trim at hbt
  by_cases hTP : T.length > P.length
  · rw [if_pos hTP] at hbt
    simp only [Prod.mk.injEq] at hbt
    obtain ⟨hB, hP1, hT1⟩ := hbt
    have hBmax : Bound = ((max P.length T.length : Nat) : Int) / 2 - 1 := by
      rw [← hB]
      congr 1
      omega
    refine ⟨hBmax, by rw [← hP1], ?_, ?_⟩
    · rw [← hT1]
      by_cases htrim : (T.length : Int) > (P.length : Int) + ((T.length : Int) / 2 - 1)
      · rw [if_pos htrim, List.length_take]
        omega
      · rw [if_neg htrim]
    · intro hB0
      rw [← hT1, ← hP1, ← hB]
      by_cases htrim : (T.length : Int) > (P.length : Int) + ((T.length : Int) / 2 - 1)
      · rw [if_pos htrim, List.length_take]
        have hc : ((((P.length : Int) + ((T.length : Int) / 2 - 1)).toNat : Nat) : Int) =
            (P.length : Int) + ((T.length : Int) / 2 - 1) := by
          rw [← hB] at hB0
          omega
        push_cast
        omega
      · rw [if_neg htrim]
        omega
  · rw [if_neg hTP] at hbt
    simp only [Prod.mk.injEq] at hbt
    obtain ⟨hB, hP1, hT1⟩ := hbt
    have hBmax : Bound = ((max P.length T.length : Nat) : Int) / 2 - 1 := by
      rw [← hB]
      congr 1
      omega
    refine ⟨hBmax, ?_, by rw [← hT1], ?_⟩
    · rw [← hP1]
      by_cases htrim : (P.length : Int) > (T.length : Int) + ((P.length : Int) / 2 - 1)
      · rw [if_pos htrim, List.length_take]
        omega
      · rw [if_neg htrim]
    · intro hB0
      rw [← hT1, ← hP1, ← hB]
      by_cases htrim : (P.length : Int) > (T.length : Int) + ((P.length : Int) / 2 - 1)
      · rw [if_pos htrim, List.length_take]
        have hc : ((((T.length : Int) + ((P.length : Int) / 2 - 1)).toNat : Nat) : Int) =
            (T.length : Int) + ((P.length : Int) / 2 - 1) := by
          rw [← hB] at hB0
          omega
        push_cast
        omega
      · rw [if_neg htrim]
        rw [← hB] at hB0
        omega

theorem len_bound_le_one {P_len T_len : Nat} (hP : P_len ≠ 0) (hT : T_len ≠ 0) :
    (((min P_len T_len : Nat) : ℚ) / (P_len : ℚ) +
      ((min P_len T_len : Nat) : ℚ) / (T_len : ℚ) + 1) / 3 ≤ 1 := by
  have hPq : (0 : ℚ) < (P_len : ℚ) := by exact_mod_cast Nat.pos_of_ne_zero hP
  have hTq : (0 : ℚ) < (T_len : ℚ) := by exact_mod_cast Nat.pos_of_ne_zero hT
  have h1 : ((min P_len T_len : Nat) : ℚ) / (P_len : ℚ) ≤ 1 :=
    (div_le_one hPq).mpr (by exact_mod_cast Nat.min_le_left P_len T_len)
  have h2 : ((min P_len T_len : Nat) : ℚ) / (T_len : ℚ) ≤ 1 :=
    (div_le_one hTq).mpr (by exact_mod_cast Nat.min_le_right P_len T_len)
  linarith

theorem ccfilter_true_ne_zero {P_len T_len C : Nat} {c : ℚ}
    (h : jaro_common_char_filter P_len T_len C c = true) : C ≠ 0 := by
  intro h0
  unfold jaro_common_char_filter at h
  rw [if_pos h0] at h
  cases h

theorem jaro_eval_gt1 (P T : List Nat) {c : ℚ} (h : 1 < c) :
    jaro_similarity P T c = 0 := by
  unfold jaro_similarity
  rw [if_pos h]

theorem jaro_eval_both (P T : List Nat) {c : ℚ} (hc : ¬ 1 < c)
    (hboth : P.length = 0 ∧ T.length = 0) : jaro_similarity P T c = 1 := by
  unfold jaro_similarity
  rw [if_neg hc, if_pos hboth]

theorem jaro_eval_lenrej (P T : List Nat) {c : ℚ} (hc : ¬ 1 < c)
    (hboth : ¬(P.length = 0 ∧ T.length = 0))
    (hlf : jaro_length_filter P.length T.length c = false) :
    jaro_similarity P T c = 0 := by
  unfold jaro_similarity
  rw [if_neg hc, if_neg hboth, hlf]
  simp

theorem jaro_eval_11 (P T : List Nat) {c : ℚ} (hc : ¬ 1 < c)
    (hboth : ¬(P.length = 0 ∧ T.length = 0))
    (hlf : jaro_length_filter P.length T.length c = true)
    (h11 : P.length = 1 ∧ T.length = 1) :
    jaro_similarity P T c = (if P.getD 0 0 = T.getD 0 0 then 1 else 0) := by
  unfold jaro_similarity
  rw [if_neg hc, if_neg hboth, hlf]
  simp only [Bool.not_true, Bool.false_eq_true, if_false]
  rw [if_pos h11]

/-- Evaluation of the scalar entry point on the main pipeline, one
equation per branch, including the common-character-filter rejections. -/
theorem jaro_eval_main (P T : List Nat) (c : ℚ) (B : Int) (P1 T1 : List Nat)
    (hc : ¬ 1 < c) (hboth : ¬(P.length = 0 ∧ T.length = 0))
    (hlen : jaro_length_filter P.length T.length c = true)
    (h11 : ¬(P.length = 1 ∧ T.length = 1))
    (hbt : jaro_bounds_trim P T = (B, P1, T1)) :
    (((P1.drop (commonPrefixLength P1 T1)).length = 0 ∨
        (T1.drop (commonPrefixLength P1 T1)).length = 0) →
      jaro_similarity P T c =
        (if specScore P.length T.length (commonPrefixLength P1 T1) 0 ≥ c
          then specScore P.length T.length (commonPrefixLength P1 T1) 0 else 0)) ∧
    (¬((P1.drop (commonPrefixLength P1 T1)).length = 0 ∨
        (T1.drop (commonPrefixLength P1 T1)).length = 0) →
      ((P1.drop (commonPrefixLength P1 T1)).length ≤ 64 ∧
          (T1.drop (commonPrefixLength P1 T1)).length ≤ 64 →
        (jaro_common_char_filter P.length T.length
            (commonPrefixLength P1 T1 + count_common_chars_word
              (flag_similar_characters_word
                (occMask (P1.drop (commonPrefixLength P1 T1)))
                (T1.drop (commonPrefixLength P1 T1)) B)) c = false →
          jaro_similarity P T c = 0) ∧
        (jaro_common_char_filter P.length T.length
            (commonPrefixLength P1 T1 + count_common_chars_word
              (flag_similar_characters_word
                (occMask (P1.drop (commonPrefixLength P1 T1)))
                (T1.drop (commonPrefixLength P1 T1)) B)) c = true →
          jaro_similarity P T c =
            (if specScore P.length T.length
                (commonPrefixLength P1 T1 + count_common_chars_word
                  (flag_similar_characters_word
                    (occMask (P1.drop (commonPrefixLength P1 T1)))
                    (T1.drop (commonPrefixLength P1 T1)) B))
                (count_transpositions_word
                  (occMask (P1.drop (commonPrefixLength P1 T1)))
                  (T1.drop (commonPrefixLength P1 T1))
                  (flag_similar_characters_word
                    (occMask (P1.drop (commonPrefixLength P1 T1)))
                    (T1.drop (commonPrefixLength P1 T1)) B)) ≥ c
              then specScore P.length T.length
                (commonPrefixLength P1 T1 + count_common_chars_word
                  (flag_similar_characters_word
                    (occMask (P1.drop (commonPrefixLength P1 T1)))
                    (T1.drop (commonPrefixLength P1 T1)) B))
                (count_transpositions_word
                  (occMask (P1.drop (commonPrefixLength P1 T1)))
                  (T1.drop (commonPrefixLength P1 T1))
                  (flag_similar_characters_word
                    (occMask (P1.drop (commonPrefixLength P1 T1)))
                    (T1.drop (commonPrefixLength P1 T1)) B))
              else 0))) ∧
      (¬((P1.drop (commonPrefixLength P1 T1)).length ≤ 64 ∧
          (T1.drop (commonPrefixLength P1 T1)).length ≤ 64) →
        (jaro_common_char_filter P.length T.length
            (commonPrefixLength P1 T1 + count_common_chars_multiword
              (flag_similar_characters_block
                (blockGet (P1.drop (commonPrefixLength P1 T1)))
                (P1.drop (commonPrefixLength P1 T1)).length
                (T1.drop (commonPrefixLength P1 T1)) B)) c = false →
          jaro_similarity P T c = 0) ∧
        (jaro_common_char_filter P.length T.length
            (commonPrefixLength P1 T1 + count_common_chars_multiword
              (flag_similar_characters_block
                (blockGet (P1.drop (commonPrefixLength P1 T1)))
                (P1.drop (commonPrefixLength P1 T1)).length
                (T1.drop (commonPrefixLength P1 T1)) B)) c = true →
          jaro_similarity P T c =
            (if specScore P.length T.length
                (commonPrefixLength P1 T1 + count_common_chars_multiword
                  (flag_similar_characters_block
                    (blockGet (P1.drop (commonPrefixLength P1 T1)))
                    (P1.drop (commonPrefixLength P1 T1)).length
                    (T1.drop (commonPrefixLength P1 T1)) B))
                (count_transpositions_block
                  (blockGet (P1.drop (commonPrefixLength P1 T1)))
                  (T1.drop (commonPrefixLength P1 T1))
                  (flag_similar_characters_block
                    (blockGet (P1.drop (commonPrefixLength P1 T1)))
                    (P1.drop (commonPrefixLength P1 T1)).length
                    (T1.drop (commonPrefixLength P1 T1)) B)
                  (count_common_chars_multiword
                    (flag_similar_characters_block
                      (blockGet (P1.drop (commonPrefixLength P1 T1)))
                      (P1.drop (commonPrefixLength P1 T1)).length
                      (T1.drop (commonPrefixLength P1 T1)) B))) ≥ c
              then specScore P.length T.length
                (commonPrefixLength P1 T1 + count_common_chars_multiword
                  (flag_similar_characters_block
                    (blockGet (P1.drop (commonPrefixLength P1 T1)))
                    (P1.drop (commonPrefixLength P1 T1)).length
                    (T1.drop (commonPrefixLength P1 T1)) B))
                (count_transpositions_block
                  (blockGet (P1.drop (commonPrefixLength P1 T1)))
                  (T1.drop (commonPrefixLength P1 T1))
                  (flag_similar_characters_block
                    (blockGet (P1.drop (commonPrefixLength P1 T1)))
                    (P1.drop (commonPrefixLength P1 T1)).length
                    (T1.drop (commonPrefixLength P1 T1)) B)
                  (count_common_chars_multiword
                    (flag_similar_characters_block
                      (blockGet (P1.drop (commonPrefixLength P1 T1)))
                      (P1.drop (commonPrefixLength P1 T1)).length
                      (T1.drop (commonPrefixLength P1 T1)) B)))
              else 0)))) := by
  unfold jaro_similarity
  rw [if_neg hc, if_neg hboth, hlen]
  simp only [Bool.not_true, Bool.false_eq_true, if_false, if_neg h11, hbt]
  refine ⟨?_, ?_⟩
  · intro hempty
    rw [if_pos hempty, jaro_calculate_similarity_eq_specScore]
  · intro hempty
    rw [if_neg hempty]
    refine ⟨?_, ?_⟩
    · intro hword
      rw [if_pos hword]
      refine ⟨?_, ?_⟩
      · intro hccf
        rw [hccf]
        simp
      · intro hccf
        rw [hccf]
        simp only [Bool.not_true, Bool.false_eq_true, if_false,
          jaro_calculate_similarity_eq_specScore]
    · intro hword
      rw [if_neg hword]
      refine ⟨?_, ?_⟩
      · intro hccf
        rw [hccf]
        simp
      · intro hccf
        rw [hccf]
        simp only [Bool.not_true, Bool.false_eq_true, if_false,
          jaro_calculate_similarity_eq_specScore]

/-- The unthresholded score is a value in `[0, 1]`, bounded by the length
filter's bound whenever both lengths are nonzero. -/
theorem jaro_zero_bounds (P T : List Nat) :
    0 ≤ jaro_similarity P T 0 ∧ jaro_similarity P T 0 ≤ 1 ∧
    (P.length ≠ 0 → T.length ≠ 0 →
      jaro_similarity P T 0 ≤
        (((min P.length T.length : Nat) : ℚ) / (P.length : ℚ) +
          ((min P.length T.length : Nat) : ℚ) / (T.length : ℚ) + 1) / 3) := by
  have hc0 : ¬ (1 : ℚ) < 0 := by norm_num
  by_cases hboth : P.length = 0 ∧ T.length = 0
  · rw [jaro_eval_both P T hc0 hboth]
    refine ⟨by norm_num, by norm_num, ?_⟩
    intro hP _
    exact absurd hboth.1 hP
  · by_cases hPT0 : P.length = 0 ∨ T.length = 0
    · have hlf0 : jaro_length_filter P.length T.length 0 = false := by
        unfold jaro_length_filter
        rw [if_pos (by tauto)]
      rw [jaro_eval_lenrej P T hc0 hboth hlf0]
      refine ⟨le_refl 0, by norm_num, ?_⟩
      intro _ _
      positivity
    · push_neg at hPT0
      obtain ⟨hP0, hT0⟩ := hPT0
      have hlf0 : jaro_length_filter P.length T.length 0 = true :=
        jaro_length_filter_zero hP0 hT0
      suffices h : 0 ≤ jaro_similarity P T 0 ∧
          jaro_similarity P T 0 ≤
            (((min P.length T.length : Nat) : ℚ) / (P.length : ℚ) +
              ((min P.length T.length : Nat) : ℚ) / (T.length : ℚ) + 1) / 3 by
        exact ⟨h.1, le_trans h.2 (len_bound_le_one hP0 hT0), fun _ _ => h.2⟩
      by_cases h11 : P.length = 1 ∧ T.length = 1
      · rw [jaro_eval_11 P T hc0 hboth hlf0 h11, h11.1, h11.2]
        constructor
        · split <;> norm_num
        · split <;> norm_num
      · rcases hbt : jaro_bounds_trim P T with ⟨B, P1, T1⟩
        obtain ⟨hBmax, hP1len, hT1len, hgg⟩ := trim_facts hbt
        have hev := jaro_eval_main P T 0 B P1 T1 hc0 hboth hlf0 h11 hbt
        have hlP1 := commonPrefixLength_le_left P1 T1
        have hlT1 := commonPrefixLength_le_right P1 T1
        by_cases hempty : ((P1.drop (commonPrefixLength P1 T1)).length = 0 ∨
            (T1.drop (commonPrefixLength P1 T1)).length = 0)
        · rw [hev.1 hempty, if_pos (specScore_nonneg (Nat.zero_le _))]
          exact ⟨specScore_nonneg (Nat.zero_le _),
            specScore_le_len 0 (by omega) (by omega)⟩
        · by_cases hword : ((P1.drop (commonPrefixLength P1 T1)).length ≤ 64 ∧
              (T1.drop (commonPrefixLength P1 T1)).length ≤ 64)
          · obtain ⟨wb1, wb2, wb3⟩ := word_counts_bounds
              (P1.drop (commonPrefixLength P1 T1))
              (T1.drop (commonPrefixLength P1 T1)) B hword.1 hword.2
            rw [List.length_drop] at wb1 wb2
            cases hccf : jaro_common_char_filter P.length T.length
                (commonPrefixLength P1 T1 + count_common_chars_word
                  (flag_similar_characters_word
                    (occMask (P1.drop (commonPrefixLength P1 T1)))
                    (T1.drop (commonPrefixLength P1 T1)) B)) 0 with
            | false =>
              rw [((hev.2 hempty).1 hword).1 hccf]
              exact ⟨le_refl 0, by positivity⟩
            | true =>
              rw [((hev.2 hempty).1 hword).2 hccf, if_pos (specScore_nonneg (by omega))]
              exact ⟨specScore_nonneg (by omega), specScore_le_len _ (by omega) (by omega)⟩
          · have hne2 := hempty
            push_neg at hne2
            have hmax65 : 65 ≤ max P.length T.length := by
              rcases not_and_or.mp hword with h | h
              · push_neg at h
                have := List.length_drop (commonPrefixLength P1 T1) P1
                omega
              · push_neg at h
                have := List.length_drop (commonPrefixLength P1 T1) T1
                omega
            have hB0 : 0 ≤ B := by
              rw [hBmax]
              omega
            have hP2ne : 1 ≤ (P1.drop (commonPrefixLength P1 T1)).length := by
              omega
            have hguard2 : (((T1.drop (commonPrefixLength P1 T1)).length : Nat) : Int) ≤
                (((P1.drop (commonPrefixLength P1 T1)).length : Nat) : Int) + B := by
              have h3 := hgg hB0
              rw [List.length_drop, List.length_drop]
              push_cast
              omega
            obtain ⟨bb1, bb2, bb3⟩ := block_counts_bounds
              (P1.drop (commonPrefixLength P1 T1))
              (T1.drop (commonPrefixLength P1 T1)) B hB0 hP2ne hguard2
            have hldP := List.length_drop (commonPrefixLength P1 T1) P1
            have hldT := List.length_drop (commonPrefixLength P1 T1) T1
            cases hccf : jaro_common_char_filter P.length T.length
                (commonPrefixLength P1 T1 + count_common_chars_multiword
                  (flag_similar_characters_block
                    (blockGet (P1.drop (commonPrefixLength P1 T1)))
                    (P1.drop (commonPrefixLength P1 T1)).length
                    (T1.drop (commonPrefixLength P1 T1)) B)) 0 with
            | false =>
              rw [((hev.2 hempty).2 hword).1 hccf]
              exact ⟨le_refl 0, by positivity⟩
            | true =>
              rw [((hev.2 hempty).2 hword).2 hccf, if_pos (specScore_nonneg (by omega))]
              exact ⟨specScore_nonneg (by omega), specScore_le_len _ (by omega) (by omega)⟩

/-- C1: for every input pair and every cutoff the scalar entry point
returns the cutoff-0 value whenever that value reaches the cutoff and 0
otherwise; in particular any cutoff above 1 rejects every input. -/
theorem cutoff_thresholding (P T : List Nat) (c : ℚ) :
    jaro_similarity P T c =
      (if jaro_similarity P T 0 ≥ c then jaro_similarity P T 0 else 0) ∧
    (1 < c → jaro_similarity P T c = 0) := by
  obtain ⟨hnn, hle1, hlenbd⟩ := jaro_zero_bounds P T
  by_cases h1c : 1 < c
  · refine ⟨?_, fun _ => jaro_eval_gt1 P T h1c⟩
    rw [jaro_eval_gt1 P T h1c, if_neg (by intro hge; linarith)]
  · refine ⟨?_, fun h => absurd h h1c⟩
    have hc0 : ¬ (1 : ℚ) < 0 := by norm_num
    by_cases hboth : P.length = 0 ∧ T.length = 0
    · rw [jaro_eval_both P T h1c hboth, jaro_eval_both P T hc0 hboth,
        if_pos (show (1 : ℚ) ≥ c by linarith)]
    · cases hlfc : jaro_length_filter P.length T.length c with
      | false =>
        rw [jaro_eval_lenrej P T h1c hboth hlfc]
        by_cases hPT0 : P.length = 0 ∨ T.length = 0
        · have hlf0 : jaro_length_filter P.length T.length 0 = false := by
            unfold jaro_length_filter
            rw [if_pos (by tauto)]
          rw [jaro_eval_lenrej P T hc0 hboth hlf0]
          by_cases hge : (0 : ℚ) ≥ c
          · rw [if_pos hge]
          · rw [if_neg hge]
        · push_neg at hPT0
          have hbd := jaro_length_filter_false hPT0.1 hPT0.2 hlfc
          push_neg at hbd
          have hrun0 := hlenbd hPT0.1 hPT0.2
          rw [if_neg (by intro hge; linarith)]
      | true =>
        obtain ⟨hP0, hT0⟩ := jaro_length_filter_nonzero hlfc
        have hlf0 : jaro_length_filter P.length T.length 0 = true :=
          jaro_length_filter_zero hP0 hT0
        by_cases h11 : P.length = 1 ∧ T.length = 1
        · rw [jaro_eval_11 P T h1c hboth hlfc h11, jaro_eval_11 P T hc0 hboth hlf0 h11]
          by_cases hpt : P.getD 0 0 = T.getD 0 0
          · rw [if_pos hpt, if_pos (show (1 : ℚ) ≥ c by linarith)]
          · rw [if_neg hpt]
            by_cases hge : (0 : ℚ) ≥ c
            · rw [if_pos hge]
            · rw [if_neg hge]
        · rcases hbt : jaro_bounds_trim P T with ⟨B, P1, T1⟩
          obtain ⟨hBmax, hP1len, hT1len, hgg⟩ := trim_facts hbt
          have hevc := jaro_eval_main P T c B P1 T1 h1c hboth hlfc h11 hbt
          have hev0 := jaro_eval_main P T 0 B P1 T1 hc0 hboth hlf0 h11 hbt
          have hlP1 := commonPrefixLength_le_left P1 T1
          have hlT1 := commonPrefixLength_le_right P1 T1
          by_cases hempty : ((P1.drop (commonPrefixLength P1 T1)).length = 0 ∨
              (T1.drop (commonPrefixLength P1 T1)).length = 0)
          · rw [hevc.1 hempty, hev0.1 hempty, if_pos (specScore_nonneg (Nat.zero_le _))]
          · by_cases hword : ((P1.drop (commonPrefixLength P1 T1)).length ≤ 64 ∧
                (T1.drop (commonPrefixLength P1 T1)).length ≤ 64)
            · obtain ⟨wb1, wb2, wb3⟩ := word_counts_bounds
                (P1.drop (commonPrefixLength P1 T1))
                (T1.drop (commonPrefixLength P1 T1)) B hword.1 hword.2
              cases hccf : jaro_common_char_filter P.length T.length
                  (commonPrefixLength P1 T1 + count_common_chars_word
                    (flag_similar_characters_word
                      (occMask (P1.drop (commonPrefixLength P1 T1)))
                      (T1.drop (commonPrefixLength P1 T1)) B)) c with
              | true =>
                have hCne := ccfilter_true_ne_zero hccf
                have hccf0 : jaro_common_char_filter P.length T.length
                    (commonPrefixLength P1 T1 + count_common_chars_word
                      (flag_similar_characters_word
                        (occMask (P1.drop (commonPrefixLength P1 T1)))
                        (T1.drop (commonPrefixLength P1 T1)) B)) 0 = true :=
                  jaro_common_char_filter_zero hCne
                rw [((hevc.2 hempty).1 hword).2 hccf, ((hev0.2 hempty).1 hword).2 hccf0,
                  if_pos (specScore_nonneg (by omega))]
              | false =>
                rw [((hevc.2 hempty).1 hword).1 hccf]
                by_cases hC0 : (commonPrefixLength P1 T1 + count_common_chars_word
                    (flag_similar_characters_word
                      (occMask (P1.drop (commonPrefixLength P1 T1)))
                      (T1.drop (commonPrefixLength P1 T1)) B)) = 0
                · have hccf0 : jaro_common_char_filter P.length T.length
                      (commonPrefixLength P1 T1 + count_common_chars_word
                        (flag_similar_characters_word
                          (occMask (P1.drop (commonPrefixLength P1 T1)))
                          (T1.drop (commonPrefixLength P1 T1)) B)) 0 = false := by
                    unfold jaro_common_char_filter
                    rw [if_pos hC0]
                  rw [((hev0.2 hempty).1 hword).1 hccf0]
                  by_cases hge : (0 : ℚ) ≥ c
                  · rw [if_pos hge]
                  · rw [if_neg hge]
                · have hccf0 : jaro_common_char_filter P.length T.length
                      (commonPrefixLength P1 T1 + count_common_chars_word
                        (flag_similar_characters_word
                          (occMask (P1.drop (commonPrefixLength P1 T1)))
                          (T1.drop (commonPrefixLength P1 T1)) B)) 0 = true :=
                    jaro_common_char_filter_zero hC0
                  have hbd := jaro_common_char_filter_false hC0 hccf
                  push_neg at hbd
                  rw [((hev0.2 hempty).1 hword).2 hccf0,
                    if_pos (specScore_nonneg (by omega)),
                    if_neg (by
                      intro hge
                      have hS := specScore_le_cc P.length T.length
                        (commonPrefixLength P1 T1 + count_common_chars_word
                          (flag_similar_characters_word
                            (occMask (P1.drop (commonPrefixLength P1 T1)))
                            (T1.drop (commonPrefixLength P1 T1)) B))
                        (count_transpositions_word
                          (occMask (P1.drop (commonPrefixLength P1 T1)))
                          (T1.drop (commonPrefixLength P1 T1))
                          (flag_similar_characters_word
                            (occMask (P1.drop (commonPrefixLength P1 T1)))
                            (T1.drop (commonPrefixLength P1 T1)) B))
                      linarith)]
            · have hne2 := hempty
              push_neg at hne2
              have hmax65 : 65 ≤ max P.length T.length := by
                rcases not_and_or.mp hword with h | h
                · push_neg at h
                  have := List.length_drop (commonPrefixLength P1 T1) P1
                  omega
                · push_neg at h
                  have := List.length_drop (commonPrefixLength P1 T1) T1
                  omega
              have hB0 : 0 ≤ B := by
                rw [hBmax]
                omega
              have hP2ne : 1 ≤ (P1.drop (commonPrefixLength P1 T1)).length := by omega
              have hguard2 : (((T1.drop (commonPrefixLength P1 T1)).length : Nat) : Int) ≤
                  (((P1.drop (commonPrefixLength P1 T1)).length : Nat) : Int) + B := by
                have h3 := hgg hB0
                rw [List.length_drop, List.length_drop]
                push_cast
                omega
              obtain ⟨bb1, bb2, bb3⟩ := block_counts_bounds
                (P1.drop (commonPrefixLength P1 T1))
                (T1.drop (commonPrefixLength P1 T1)) B hB0 hP2ne hguard2
              cases hccf : jaro_common_char_filter P.length T.length
                  (commonPrefixLength P1 T1 + count_common_chars_multiword
                    (flag_similar_characters_block
                      (blockGet (P1.drop (commonPrefixLength P1 T1)))
                      (P1.drop (commonPrefixLength P1 T1)).length
                      (T1.drop (commonPrefixLength P1 T1)) B)) c with
              | true =>
                have hCne := ccfilter_true_ne_zero hccf
                have hccf0 : jaro_common_char_filter P.length T.length
                    (commonPrefixLength P1 T1 + count_common_chars_multiword
                      (flag_similar_characters_block
                        (blockGet (P1.drop (commonPrefixLength P1 T1)))
                        (P1.drop (commonPrefixLength P1 T1)).length
                        (T1.drop (commonPrefixLength P1 T1)) B)) 0 = true :=
                  jaro_common_char_filter_zero hCne
                rw [((hevc.2 hempty).2 hword).2 hccf, ((hev0.2 hempty).2 hword).2 hccf0,
                  if_pos (specScore_nonneg (by omega))]
              | false =>
                rw [((hevc.2 hempty).2 hword).1 hccf]
                by_cases hC0 : (commonPrefixLength P1 T1 + count_common_chars_multiword
                    (flag_similar_characters_block
                      (blockGet (P1.drop (commonPrefixLength P1 T1)))
                      (P1.drop (commonPrefixLength P1 T1)).length
                      (T1.drop (commonPrefixLength P1 T1)) B)) = 0
                · have hccf0 : jaro_common_char_filter P.length T.length
                      (commonPrefixLength P1 T1 + count_common_chars_multiword
                        (flag_similar_characters_block
                          (blockGet (P1.drop (commonPrefixLength P1 T1)))
                          (P1.drop (commonPrefixLength P1 T1)).length
                          (T1.drop (commonPrefixLength P1 T1)) B)) 0 = false := by
                    unfold jaro_common_char_filter
                    rw [if_pos hC0]
                  rw [((hev0.2 hempty).2 hword).1 hccf0]
                  by_cases hge : (0 : ℚ) ≥ c
                  · rw [if_pos hge]
                  · rw [if_neg hge]
                · have hccf0 : jaro_common_char_filter P.length T.length
                      (commonPrefixLength P1 T1 + count_common_chars_multiword
                        (flag_similar_characters_block
                          (blockGet (P1.drop (commonPrefixLength P1 T1)))
                          (P1.drop (commonPrefixLength P1 T1)).length
                          (T1.drop (commonPrefixLength P1 T1)) B)) 0 = true :=
                    jaro_common_char_filter_zero hC0
                  have hbd := jaro_common_char_filter_false hC0 hccf
                  push_neg at hbd
                  rw [((hev0.2 hempty).2 hword).2 hccf0,
                    if_pos (specScore_nonneg (by omega)),
                    if_neg (by
                      intro hge
                      have hS := specScore_le_cc P.length T.length
                        (commonPrefixLength P1 T1 + count_common_chars_multiword
                          (flag_similar_characters_block
                            (blockGet (P1.drop (commonPrefixLength P1 T1)))
                            (P1.drop (commonPrefixLength P1 T1)).length
                            (T1.drop (commonPrefixLength P1 T1)) B))
                        (count_transpositions_block
                          (blockGet (P1.drop (commonPrefixLength P1 T1)))
                          (T1.drop (commonPrefixLength P1 T1))
                          (flag_similar_characters_block
                            (blockGet (P1.drop (commonPrefixLength P1 T1)))
                            (P1.drop (commonPrefixLength P1 T1)).length
                            (T1.drop (commonPrefixLength P1 T1)) B)
                          (count_common_chars_multiword
                            (flag_similar_characters_block
                              (blockGet (P1.drop (commonPrefixLength P1 T1)))
                              (P1.drop (commonPrefixLength P1 T1)).length
                              (T1.drop (commonPrefixLength P1 T1)) B)))
                      linarith)]

/-! ## Reference-level neutrality of the suffix trim -/

theorem getD_take {l : List Nat} {m q : Nat} (h : q < m) :
    (l.take m).getD q 0 = l.getD q 0 := by
  rw [List.getD_eq_getElem?_getD, List.getD_eq_getElem?_getD, List.getElem?_take,
    if_pos h]

theorem refFlagGo_append (P : List Nat) (B : Int) :
    ∀ (a b : List Nat) (j : Nat) (fl : FlaggedCharsWord),
      refFlagGo P B j fl (a ++ b) =
        refFlagGo P B (j + a.length) (refFlagGo P B j fl a) b := by
  intro a
  induction a with
  | nil =>
    intro b j fl
    simp [refFlagGo]
  | cons c rest ih =>
    intro b j fl
    rw [List.cons_append, refFlagGo, refFlagGo, ih,
      show j + (c :: rest).length = j + 1 + rest.length by simp; omega]

theorem refStep_inert {P : List Nat} {B : Int} {j : Nat} {fl : FlaggedCharsWord} {c : Nat}
    (h : ((P.length : Nat) : Int) + B ≤ (j : Int)) : refStep P B j fl c = fl := by
  apply apply_none_state
  rw [findLowest_none]
  intro q _ hq
  unfold refCond refWindow
  rw [decide_eq_false (show ¬((j : Int) - B ≤ (q : Int)) by
    rw [Nat.zero_add] at hq
    have : ((q : Nat) : Int) < (P.length : Int) := by exact_mod_cast hq
    omega)]
  simp

theorem refFlagGo_inert {P : List Nat} {B : Int} :
    ∀ (rest : List Nat) (j : Nat) (fl : FlaggedCharsWord),
      ((P.length : Nat) : Int) + B ≤ (j : Int) → refFlagGo P B j fl rest = fl := by
  intro rest
  induction rest with
  | nil =>
    intro j fl _
    rfl
  | cons c r ih =>
    intro j fl h
    rw [refFlagGo, refStep_inert h]
    apply ih
    push_cast
    omega

/-- Dropping text positions whose windows lie entirely past the reference
does not change the reference flags. -/
theorem refFlag_take_text {P T : List Nat} {B : Int} {m : Nat}
    (h : ((P.length : Nat) : Int) + B ≤ (m : Int)) :
    refFlag P (T.take m) B = refFlag P T B := by
  unfold refFlag
  by_cases hm : m ≤ T.length
  · conv =>
      rhs
      rw [← List.take_append_drop m T]
    rw [refFlagGo_append,
      refFlagGo_inert (T.drop m) (0 + (T.take m).length)
        (refFlagGo P B 0 ⟨0, 0⟩ (T.take m))
        (by rw [Nat.zero_add, List.length_take_of_le hm]; exact h)]
  · rw [List.take_of_length_le (by omega)]

/-- Dropping the same text suffix does not change the reference
transposition count, provided the text flags stay inside the kept part. -/
theorem refTrans_take_text {P T : List Nat} {m : Nat} {pf tf : Nat}
    (htf : ∀ q, tf.testBit q = true → q < (T.take m).length) :
    refTrans P (T.take m) pf tf = refTrans P T pf tf := by
  unfold refTrans
  have hb : bitsBelow T.length tf = bitsBelow (T.take m).length tf := by
    apply bitsBelow_high (by rw [List.length_take]; omega)
    intro i hi
    cases hbit : tf.testBit i
    · rfl
    · exact absurd (htf i hbit) (by omega)
  rw [← hb]
  apply List.countP_congr
  intro pr hpr
  have hmem := (List.of_mem_zip hpr).2
  have hq : pr.2 < (T.take m).length := by
    rw [hb] at hmem
    unfold bitsBelow at hmem
    rw [List.mem_filter, List.mem_range] at hmem
    exact hmem.1
  constructor <;> intro hx <;> rw [decide_eq_true_eq] at hx <;> apply decide_eq_true
  · rw [getD_take (by rw [List.length_take] at hq; omega)] at hx
    exact hx
  · rw [getD_take (by rw [List.length_take] at hq; omega)]
    exact hx

/-- The symmetric fact for the reference side of the transposition
count. -/
theorem refTrans_take_pattern {P T : List Nat} {m : Nat} {pf tf : Nat}
    (hpf : ∀ p, pf.testBit p = true → p < (P.take m).length) :
    refTrans (P.take m) T pf tf = refTrans P T pf tf := by
  unfold refTrans
  have hb : bitsBelow P.length pf = bitsBelow (P.take m).length pf := by
    apply bitsBelow_high (by rw [List.length_take]; omega)
    intro i hi
    cases hbit : pf.testBit i
    · rfl
    · exact absurd (hpf i hbit) (by omega)
  rw [← hb]
  apply List.countP_congr
  intro pr hpr
  have hmem := (List.of_mem_zip hpr).1
  have hp : pr.1 < (P.take m).length := by
    rw [hb] at hmem
    unfold bitsBelow at hmem
    rw [List.mem_filter, List.mem_range] at hmem
    exact hmem.1
  constructor <;> intro hx <;> rw [decide_eq_true_eq] at hx <;> apply decide_eq_true
  · rw [getD_take (by rw [List.length_take] at hp; omega)] at hx
    exact hx
  · rw [getD_take (by rw [List.length_take] at hp; omega)]
    exact hx

theorem findLowest_congr_ext {f g : Nat → Bool} {m len : Nat}
    (hm : m ≤ len) (hagree : ∀ p, p < m → f p = g p)
    (hhigh : ∀ p, m ≤ p → p < len → g p = false) :
    findLowest f 0 m = findLowest g 0 len := by
  cases hres : findLowest f 0 m with
  | none =>
    rw [findLowest_none] at hres
    symm
    rw [findLowest_none]
    intro q hq1 hq2
    by_cases hqm : q < m
    · rw [← hagree q hqm]
      exact hres q hq1 (by omega)
    · exact hhigh q (by omega) (by omega)
  | some p =>
    obtain ⟨h1, h2, h3, h4⟩ := findLowest_some hres
    symm
    rw [findLowest_some_iff]
    refine ⟨Nat.zero_le _, by omega, by rw [← hagree p (by omega)]; exact h3, ?_⟩
    intro q hq1 hq2
    rw [← hagree q (by omega)]
    exact h4 q hq1 hq2

theorem refStep_take_pattern {P : List Nat} {B : Int} {j : Nat} {fl : FlaggedCharsWord}
    {c : Nat} {m : Nat} (hm : m ≤ P.length) (hj : (j : Int) + B < (m : Int)) :
    refStep (P.take m) B j fl c = refStep P B j fl c := by
  unfold refStep
  have heq : findLowest (refCond (P.take m) B fl c j) 0 (P.take m).length =
      findLowest (refCond P B fl c j) 0 P.length := by
    rw [List.length_take_of_le hm]
    apply findLowest_congr_ext hm
    · intro p hp
      unfold refCond
      rw [getD_take hp]
    · intro p hp1 hp2
      unfold refCond refWindow
      rw [decide_eq_false (show ¬((p : Int) ≤ (j : Int) + B) by
        have : ((m : Nat) : Int) ≤ (p : Int) := by exact_mod_cast hp1
        omega)]
      simp
  rw [heq]

theorem refFlagGo_take_pattern {P : List Nat} {B : Int} {m : Nat} (hm : m ≤ P.length) :
    ∀ (rest : List Nat) (j : Nat) (fl : FlaggedCharsWord),
      ((j : Int) + rest.length) + B ≤ (m : Int) →
      refFlagGo (P.take m) B j fl rest = refFlagGo P B j fl rest := by
  intro rest
  induction rest with
  | nil =>
    intro j fl _
    rfl
  | cons c r ih =>
    intro j fl h
    simp only [List.length_cons] at h
    push_cast at h
    rw [refFlagGo, refFlagGo, refStep_take_pattern hm (by omega), ih _ _ (by push_cast; omega)]

/-- Dropping reference positions beyond every admissible window does not
change the reference flags. -/
theorem refFlag_take_pattern {P T : List Nat} {B : Int} {m : Nat} (hm : m ≤ P.length)
    (h : ((T.length : Nat) : Int) + B ≤ (m : Int)) :
    refFlag (P.take m) T B = refFlag P T B := by
  unfold refFlag
  exact refFlagGo_take_pattern hm T 0 ⟨0, 0⟩ (by push_cast at h ⊢; omega)

theorem commonPrefixLength_take_right :
    ∀ (a b : List Nat) (k : Nat), commonPrefixLength a b ≤ k →
      commonPrefixLength a (b.take k) = commonPrefixLength a b := by
  intro a
  induction a with
  | nil =>
    intro b k _
    cases b <;> cases k <;> rfl
  | cons x xs ih =>
    intro b k hk
    cases b with
    | nil =>
      cases k <;> rfl
    | cons y ys =>
      cases k with
      | zero =>
        rw [commonPrefixLength] at hk
        by_cases hxy : x = y
        · rw [if_pos hxy] at hk
          omega
        · rw [List.take_zero]
          rw [commonPrefixLength, if_neg hxy]
          rfl
      | succ k =>
        rw [List.take_succ_cons, commonPrefixLength, commonPrefixLength]
        by_cases hxy : x = y
        · rw [if_pos hxy, if_pos hxy]
          rw [commonPrefixLength, if_pos hxy] at hk
          rw [ih ys k (by omega)]
        · rw [if_neg hxy, if_neg hxy]

theorem commonPrefixLength_take_left :
    ∀ (a b : List Nat) (k : Nat), commonPrefixLength a b ≤ k →
      commonPrefixLength (a.take k) b = commonPrefixLength a b := by
  intro a
  induction a with
  | nil =>
    intro b k _
    rw [List.take_nil]
  | cons x xs ih =>
    intro b k hk
    cases b with
    | nil =>
      cases k <;> rfl
    | cons y ys =>
      cases k with
      | zero =>
        rw [commonPrefixLength] at hk
        by_cases hxy : x = y
        · rw [if_pos hxy] at hk
          omega
        · rw [List.take_zero]
          rw [commonPrefixLength, if_neg hxy]
          rfl
      | succ k =>
        rw [List.take_succ_cons, commonPrefixLength, commonPrefixLength]
        by_cases hxy : x = y
        · rw [if_pos hxy, if_pos hxy]
          rw [commonPrefixLength, if_pos hxy] at hk
          rw [ih ys k (by omega)]
        · rw [if_neg hxy, if_neg hxy]

/-- Modelled from the spec: the same scalar pipeline with **no**
`remove_suffix` call — degenerate cases, length filter, 1×1 shortcut,
bound from the two lengths, common-prefix strip, common-character filter,
score and cutoff are unchanged, while the flagging and transposition
stages are taken at their reference semantics (the word and block stages
that the real pipeline runs on the *trimmed* ranges are proved equal to
those reference stages elsewhere; running the C++ block stage untrimmed
would index out of bounds, so the untrimmed computation only exists at
the specification level). -/
def jaro_similarity_notrim (P T : List Nat) (score_cutoff : ℚ) : ℚ :=
  let P_len := P.length
  let T_len := T.length
  if 1 < score_cutoff then 0
  else if P_len = 0 ∧ T_len = 0 then 1
  else if !jaro_length_filter P_len T_len score_cutoff then 0
  else if P_len = 1 ∧ T_len = 1 then (if P.getD 0 0 = T.getD 0 0 then 1 else 0)
  else
    let Bound := jaro_bounds_len P_len T_len
    let l := commonPrefixLength P T
    let P2 := P.drop l
    let T2 := T.drop l
    if P2.length = 0 ∨ T2.length = 0 then
      let Sim := jaro_calculate_similarity P_len T_len l 0
      if Sim ≥ score_cutoff then Sim else 0
    else
      let fl := refFlag P2 T2 Bound
      let CommonChars := l + countBits P2.length fl.P_flag
      if !jaro_common_char_filter P_len T_len CommonChars score_cutoff then 0
      else
        let Transpositions := refTrans P2 T2 fl.P_flag fl.T_flag
        let Sim := jaro_calculate_similarity P_len T_len CommonChars Transpositions
        if Sim ≥ score_cutoff then Sim else 0

theorem jaro_bounds_len_eq_max (P_len T_len : Nat) :
    jaro_bounds_len P_len T_len = ((max P_len T_len : Nat) : Int) / 2 - 1 := by
  unfold jaro_bounds_len
  by_cases h : T_len > P_len
  · rw [if_pos h]
    congr 2
    omega
  · rw [if_neg h]
    congr 2
    omega

theorem notrim_eval_gt1 (P T : List Nat) {c : ℚ} (h : 1 < c) :
    jaro_similarity_notrim P T c = 0 := by
  unfold jaro_similarity_notrim
  rw [if_pos h]

theorem notrim_eval_both (P T : List Nat) {c : ℚ} (hc : ¬ 1 < c)
    (hboth : P.length = 0 ∧ T.length = 0) : jaro_similarity_notrim P T c = 1 := by
  unfold jaro_similarity_notrim
  rw [if_neg hc, if_pos hboth]

theorem notrim_eval_lenrej (P T : List Nat) {c : ℚ} (hc : ¬ 1 < c)
    (hboth : ¬(P.length = 0 ∧ T.length = 0))
    (hlf : jaro_length_filter P.length T.length c = false) :
    jaro_similarity_notrim P T c = 0 := by
  unfold jaro_similarity_notrim
  rw [if_neg hc, if_neg hboth, hlf]
  simp

theorem notrim_eval_11 (P T : List Nat) {c : ℚ} (hc : ¬ 1 < c)
    (hboth : ¬(P.length = 0 ∧ T.length = 0))
    (hlf : jaro_length_filter P.length T.length c = true)
    (h11 : P.length = 1 ∧ T.length = 1) :
    jaro_similarity_notrim P T c = (if P.getD 0 0 = T.getD 0 0 then 1 else 0) := by
  unfold jaro_similarity_notrim
  rw [if_neg hc, if_neg hboth, hlf]
  simp only [Bool.not_true, Bool.false_eq_true, if_false]
  rw [if_pos h11]

theorem notrim_eval_main (P T : List Nat) (c : ℚ)
    (hc : ¬ 1 < c) (hboth : ¬(P.length = 0 ∧ T.length = 0))
    (hlen : jaro_length_filter P.length T.length c = true)
    (h11 : ¬(P.length = 1 ∧ T.length = 1)) :
    (((P.drop (commonPrefixLength P T)).length = 0 ∨
        (T.drop (commonPrefixLength P T)).length = 0) →
      jaro_similarity_notrim P T c =
        (if specScore P.length T.length (commonPrefixLength P T) 0 ≥ c
          then specScore P.length T.length (commonPrefixLength P T) 0 else 0)) ∧
    (¬((P.drop (commonPrefixLength P T)).length = 0 ∨
        (T.drop (commonPrefixLength P T)).length = 0) →
      (jaro_common_char_filter P.length T.length
          (commonPrefixLength P T + countBits (P.drop (commonPrefixLength P T)).length
            (refFlag (P.drop (commonPrefixLength P T)) (T.drop (commonPrefixLength P T))
              (jaro_bounds_len P.length T.length)).P_flag) c = false →
        jaro_similarity_notrim P T c = 0) ∧
      (jaro_common_char_filter P.length T.length
          (commonPrefixLength P T + countBits (P.drop (commonPrefixLength P T)).length
            (refFlag (P.drop (commonPrefixLength P T)) (T.drop (commonPrefixLength P T))
              (jaro_bounds_len P.length T.length)).P_flag) c = true →
        jaro_similarity_notrim P T c =
          (if specScore P.length T.length
              (commonPrefixLength P T + countBits (P.drop (commonPrefixLength P T)).length
                (refFlag (P.drop (commonPrefixLength P T))
                  (T.drop (commonPrefixLength P T))
                  (jaro_bounds_len P.length T.length)).P_flag)
              (refTrans (P.drop (commonPrefixLength P T)) (T.drop (commonPrefixLength P T))
                (refFlag (P.drop (commonPrefixLength P T)) (T.drop (commonPrefixLength P T))
                  (jaro_bounds_len P.length T.length)).P_flag
                (refFlag (P.drop (commonPrefixLength P T)) (T.drop (commonPrefixLength P T))
                  (jaro_bounds_len P.length T.length)).T_flag) ≥ c
            then specScore P.length T.length
              (commonPrefixLength P T + countBits (P.drop (commonPrefixLength P T)).length
                (refFlag (P.drop (commonPrefixLength P T))
                  (T.drop (commonPrefixLength P T))
                  (jaro_bounds_len P.length T.length)).P_flag)
              (refTrans (P.drop (commonPrefixLength P T)) (T.drop (commonPrefixLength P T))
                (refFlag (P.drop (commonPrefixLength P T)) (T.drop (commonPrefixLength P T))
                  (jaro_bounds_len P.length T.length)).P_flag
                (refFlag (P.drop (commonPrefixLength P T)) (T.drop (commonPrefixLength P T))
                  (jaro_bounds_len P.length T.length)).T_flag)
            else 0))) := by
  unfold jaro_similarity_notrim
  rw [if_neg hc, if_neg hboth, hlen]
  simp only [Bool.not_true, Bool.false_eq_true, if_false, if_neg h11]
  refine ⟨?_, ?_⟩
  · intro hempty
    rw [if_pos hempty, jaro_calculate_similarity_eq_specScore]
  · intro hempty
    refine ⟨?_, ?_⟩
    · intro hccf
      rw [if_neg hempty, hccf]
      simp
    · intro hccf
      rw [if_neg hempty, hccf]
      simp only [Bool.not_true, Bool.false_eq_true, if_false,
        jaro_calculate_similarity_eq_specScore]

/-- Word-path counts expressed at the reference level. -/
theorem word_path_ref_counts (P2 T2 : List Nat) (B : Int)
    (hP64 : P2.length ≤ 64) (hT64 : T2.length ≤ 64) :
    count_common_chars_word (flag_similar_characters_word (occMask P2) T2 B) =
      countBits P2.length (refFlag P2 T2 B).P_flag ∧
    count_transpositions_word (occMask P2) T2
        (flag_similar_characters_word (occMask P2) T2 B) =
      refTrans P2 T2 (refFlag P2 T2 B).P_flag (refFlag P2 T2 B).T_flag := by
  rw [flag_word_occ_eq_refFlag hP64]
  obtain ⟨rP, rT, rcnt⟩ := @refFlag_inv P2 T2 B 64 64 hP64 hT64
  have hhP : ∀ i, P2.length ≤ i → (refFlag P2 T2 B).P_flag.testBit i = false := by
    intro i hi
    cases hb : (refFlag P2 T2 B).P_flag.testBit i
    · rfl
    · exact absurd (rP i hb) (by omega)
  have h1occ : ∀ c p, p < P2.length →
      (occMask P2 c).testBit p = decide (P2.getD p 0 = c) := by
    intro c p hp
    rw [testBit_occMask]
    simp [hp]
  constructor
  · exact (countBits_high hP64 hhP : countBits 64 _ = _)
  · exact count_transpositions_word_eq_refTrans h1occ hP64 hT64 rP rT rcnt

/-- Block-path counts expressed at the reference level. -/
theorem block_path_ref_counts (P2 T2 : List Nat) (B : Int)
    (hB : 0 ≤ B) (hP1 : 1 ≤ P2.length)
    (hguard : ((T2.length : Nat) : Int) ≤ (P2.length : Int) + B) :
    count_common_chars_multiword
        (flag_similar_characters_block (blockGet P2) P2.length T2 B) =
      countBits P2.length (refFlag P2 T2 B).P_flag ∧
    count_transpositions_block (blockGet P2) T2
        (flag_similar_characters_block (blockGet P2) P2.length T2 B)
        (count_common_chars_multiword
          (flag_similar_characters_block (blockGet P2) P2.length T2 B)) =
      refTrans P2 T2 (refFlag P2 T2 B).P_flag (refFlag P2 T2 B).T_flag := by
  have hget64 : ∀ w c, blockGet P2 w c < 2 ^ 64 := fun w c => blockGet_lt P2 w c
  have hget1 : ∀ c p, p < P2.length →
      (blockGet P2 (p / 64) c).testBit (p % 64) = decide (P2.getD p 0 = c) :=
    fun c p hp => testBit_blockGet P2 c p hp
  obtain ⟨e1, e2, e3, e4, e5, e6⟩ := flag_block_eq_refFlag hget64 hget1 hB hP1 hguard
  have hK1 : P2.length ≤
      64 * (flag_similar_characters_block (blockGet P2) P2.length T2 B).P_flag.length := by
    rw [e3]
    omega
  have hK2 : T2.length ≤
      64 * (flag_similar_characters_block (blockGet P2) P2.length T2 B).T_flag.length := by
    rw [e4]
    omega
  obtain ⟨rinvP, rinvT, rcnt⟩ := refFlag_inv hK1 hK2
  obtain ⟨-, -, rcnt2⟩ := @refFlag_inv P2 T2 B P2.length T2.length (le_refl _) (le_refl _)
  have hpf : ∀ p, (combineWords (flag_similar_characters_block
      (blockGet P2) P2.length T2 B).P_flag).testBit p = true → p < P2.length := by
    intro p hp
    rw [e1] at hp
    exact rinvP p hp
  have htf : ∀ q, (combineWords (flag_similar_characters_block
      (blockGet P2) P2.length T2 B).T_flag).testBit q = true → q < T2.length := by
    intro q hq
    rw [e2] at hq
    exact rinvT q hq
  have hcnt : countBits
      (64 * (flag_similar_characters_block (blockGet P2) P2.length T2 B).P_flag.length)
      (combineWords (flag_similar_characters_block (blockGet P2) P2.length T2 B).P_flag) =
      countBits
      (64 * (flag_similar_characters_block (blockGet P2) P2.length T2 B).T_flag.length)
      (combineWords (flag_similar_characters_block (blockGet P2) P2.length T2 B).T_flag) := by
    rw [e1, e2]
    exact rcnt
  have hhighT : ∀ i, T2.length ≤ i →
      (combineWords (flag_similar_characters_block
        (blockGet P2) P2.length T2 B).T_flag).testBit i = false := by
    intro i hi
    rw [e2]
    cases hb : (refFlag P2 T2 B).T_flag.testBit i
    · rfl
    · exact absurd (rinvT i hb) (by omega)
  have hccm : count_common_chars_multiword
      (flag_similar_characters_block (blockGet P2) P2.length T2 B) =
      countBits T2.length (refFlag P2 T2 B).T_flag := by
    rw [count_common_chars_multiword_eq e5 e6 hcnt, countBits_high hK2 hhighT, e2]
  have htrans := count_transpositions_block_eq_refTrans hget1 e5 e6 hpf htf hK1 hK2 hcnt
  rw [e1, e2] at htrans
  exact ⟨hccm.trans rcnt2.symm, htrans⟩

theorem ref_counts_take_text (P2 T2 : List Nat) (B : Int) (m : Nat)
    (h : ((P2.length : Nat) : Int) + B ≤ (m : Int)) :
    countBits P2.length (refFlag P2 (T2.take m) B).P_flag =
      countBits P2.length (refFlag P2 T2 B).P_flag ∧
    refTrans P2 (T2.take m) (refFlag P2 (T2.take m) B).P_flag
        (refFlag P2 (T2.take m) B).T_flag =
      refTrans P2 T2 (refFlag P2 T2 B).P_flag (refFlag P2 T2 B).T_flag := by
  have hfl : refFlag P2 (T2.take m) B = refFlag P2 T2 B := refFlag_take_text h
  obtain ⟨-, rT, -⟩ := @refFlag_inv P2 (T2.take m) B P2.length (T2.take m).length
    (le_refl _) (le_refl _)
  constructor
  · rw [hfl]
  · rw [refTrans_take_text rT, hfl]

theorem ref_counts_take_pattern (P2 T2 : List Nat) (B : Int) (m : Nat)
    (hm : m ≤ P2.length) (h : ((T2.length : Nat) : Int) + B ≤ (m : Int)) :
    countBits (P2.take m).length (refFlag (P2.take m) T2 B).P_flag =
      countBits P2.length (refFlag P2 T2 B).P_flag ∧
    refTrans (P2.take m) T2 (refFlag (P2.take m) T2 B).P_flag
        (refFlag (P2.take m) T2 B).T_flag =
      refTrans P2 T2 (refFlag P2 T2 B).P_flag (refFlag P2 T2 B).T_flag := by
  have hfl : refFlag (P2.take m) T2 B = refFlag P2 T2 B := refFlag_take_pattern hm h
  obtain ⟨rP, -, -⟩ := @refFlag_inv (P2.take m) T2 B (P2.take m).length T2.length
    (le_refl _) (le_refl _)
  have rP' := rP
  rw [hfl] at rP'
  constructor
  · rw [hfl]
    refine (countBits_high (show (P2.take m).length ≤ P2.length by
      rw [List.length_take]; omega) ?_).symm
    intro i hi
    cases hb : (refFlag P2 T2 B).P_flag.testBit i
    · rfl
    · exact absurd (rP' i hb) (by omega)
  · rw [refTrans_take_pattern rP, hfl]

/-- The three possible results of the trimming overload. -/
theorem trim_shape {P T : List Nat} {Bound : Int} {P1 T1 : List Nat}
    (hbt : jaro_bounds_trim P T = (Bound, P1, T1))
    (hP0 : P.length ≠ 0) (hT0 : T.length ≠ 0)
    (h11 : ¬(P.length = 1 ∧ T.length = 1)) :
    (P1 = P ∧ T1 = T) ∨
    (P1 = P ∧ ∃ k : Nat, T1 = T.take k ∧ ((k : Nat) : Int) = (P.length : Int) + Bound ∧
      k < T.length ∧ 0 ≤ Bound) ∨
    (T1 = T ∧ ∃ k : Nat, P1 = P.take k ∧ ((k : Nat) : Int) = (T.length : Int) + Bound ∧
      k < P.length ∧ 0 ≤ Bound) := by
  unfold jaro_bounds_trim at hbt
  by_cases hTP : T.length > P.length
  · rw [if_pos hTP] at hbt
    simp only [Prod.mk.injEq] at hbt
    obtain ⟨hB, hP1, hT1⟩ := hbt
    have hB0 : 0 ≤ Bound := by
      rw [← hB]
      omega
    by_cases htrim : (T.length : Int) > (P.length : Int) + ((T.length : Int) / 2 - 1)
    · rw [if_pos htrim] at hT1
      right
      left
      refine ⟨hP1.symm, ((P.length : Int) + Bound).toNat, ?_, ?_, ?_, hB0⟩
      · rw [← hT1, ← hB]
      · rw [Int.toNat_of_nonneg (by omega)]
      · omega
    · rw [if_neg htrim] at hT1
      exact Or.inl ⟨hP1.symm, hT1.symm⟩
  · rw [if_neg hTP] at hbt
    simp only [Prod.mk.injEq] at hbt
    obtain ⟨hB, hP1, hT1⟩ := hbt
    by_cases htrim : (P.length : Int) > (T.length : Int) + ((P.length : Int) / 2 - 1)
    · have hP2 : 2 ≤ P.length := by
        rcases Nat.lt_or_ge P.length 2 with h2 | h2
        · have hPeq : P.length = 1 := by omega
          have hTeq : T.length = 1 := by
            rw [hPeq] at htrim
            push_cast at htrim
            omega
          exact absurd ⟨hPeq, hTeq⟩ h11
        · exact h2
      have hB0 : 0 ≤ Bound := by
        rw [← hB]
        omega
      rw [if_pos htrim] at hP1
      right
      right
      refine ⟨hT1.symm, ((T.length : Int) + Bound).toNat, ?_, ?_, ?_, hB0⟩
      · rw [← hP1, ← hB]
      · rw [Int.toNat_of_nonneg (by omega)]
      · omega
    · rw [if_neg htrim] at hP1
      exact Or.inl ⟨hP1.symm, hT1.symm⟩

/-- The main pipeline branch of the real entry point agrees with the
trim-free model once the bound, the stripped prefix length, the emptiness
test and the two dispatch paths' counts have been bridged. -/
theorem notrim_eq_of_bridges (P T P1 T1 : List Nat) (B : Int) (c : ℚ)
    (hc : ¬ 1 < c) (hboth : ¬(P.length = 0 ∧ T.length = 0))
    (hlen : jaro_length_filter P.length T.length c = true)
    (h11 : ¬(P.length = 1 ∧ T.length = 1))
    (hbt : jaro_bounds_trim P T = (B, P1, T1))
    (hBeq : jaro_bounds_len P.length T.length = B)
    (hleq : commonPrefixLength P1 T1 = commonPrefixLength P T)
    (hempty_iff :
      ((P1.drop (commonPrefixLength P T)).length = 0 ∨
        (T1.drop (commonPrefixLength P T)).length = 0) ↔
      ((P.drop (commonPrefixLength P T)).length = 0 ∨
        (T.drop (commonPrefixLength P T)).length = 0))
    (hCword :
      ¬((P1.drop (commonPrefixLength P T)).length = 0 ∨
          (T1.drop (commonPrefixLength P T)).length = 0) →
      (P1.drop (commonPrefixLength P T)).length ≤ 64 ∧
          (T1.drop (commonPrefixLength P T)).length ≤ 64 →
      count_common_chars_word
          (flag_similar_characters_word (occMask (P1.drop (commonPrefixLength P T)))
            (T1.drop (commonPrefixLength P T)) B) =
        countBits (P.drop (commonPrefixLength P T)).length
          (refFlag (P.drop (commonPrefixLength P T))
            (T.drop (commonPrefixLength P T)) B).P_flag ∧
      count_transpositions_word (occMask (P1.drop (commonPrefixLength P T)))
          (T1.drop (commonPrefixLength P T))
          (flag_similar_characters_word (occMask (P1.drop (commonPrefixLength P T)))
            (T1.drop (commonPrefixLength P T)) B) =
        refTrans (P.drop (commonPrefixLength P T)) (T.drop (commonPrefixLength P T))
          (refFlag (P.drop (commonPrefixLength P T))
            (T.drop (commonPrefixLength P T)) B).P_flag
          (refFlag (P.drop (commonPrefixLength P T))
            (T.drop (commonPrefixLength P T)) B).T_flag)
    (hCblock :
      ¬((P1.drop (commonPrefixLength P T)).length = 0 ∨
          (T1.drop (commonPrefixLength P T)).length = 0) →
      ¬((P1.drop (commonPrefixLength P T)).length ≤ 64 ∧
          (T1.drop (commonPrefixLength P T)).length ≤ 64) →
      count_common_chars_multiword
          (flag_similar_characters_block (blockGet (P1.drop (commonPrefixLength P T)))
            (P1.drop (commonPrefixLength P T)).length
            (T1.drop (commonPrefixLength P T)) B) =
        countBits (P.drop (commonPrefixLength P T)).length
          (refFlag (P.drop (commonPrefixLength P T))
            (T.drop (commonPrefixLength P T)) B).P_flag ∧
      count_transpositions_block (blockGet (P1.drop (commonPrefixLength P T)))
          (T1.drop (commonPrefixLength P T))
          (flag_similar_characters_block (blockGet (P1.drop (commonPrefixLength P T)))
            (P1.drop (commonPrefixLength P T)).length
            (T1.drop (commonPrefixLength P T)) B)
          (count_common_chars_multiword
            (flag_similar_characters_block (blockGet (P1.drop (commonPrefixLength P T)))
              (P1.drop (commonPrefixLength P T)).length
              (T1.drop (commonPrefixLength P T)) B)) =
        refTrans (P.drop (commonPrefixLength P T)) (T.drop (commonPrefixLength P T))
          (refFlag (P.drop (commonPrefixLength P T))
            (T.drop (commonPrefixLength P T)) B).P_flag
          (refFlag (P.drop (commonPrefixLength P T))
            (T.drop (commonPrefixLength P T)) B).T_flag) :
    jaro_similarity P T c = jaro_similarity_notrim P T c := by
  have hevc := jaro_eval_main P T c B P1 T1 hc hboth hlen h11 hbt
  rw [hleq] at hevc
  have hnev := notrim_eval_main P T c hc hboth hlen h11
  rw [hBeq] at hnev
  by_cases hempty : ((P1.drop (commonPrefixLength P T)).length = 0 ∨
      (T1.drop (commonPrefixLength P T)).length = 0)
  · rw [hevc.1 hempty, hnev.1 (hempty_iff.mp hempty)]
  · have hemptyN : ¬((P.drop (commonPrefixLength P T)).length = 0 ∨
        (T.drop (commonPrefixLength P T)).length = 0) :=
      fun h => hempty (hempty_iff.mpr h)
    by_cases hword : ((P1.drop (commonPrefixLength P T)).length ≤ 64 ∧
        (T1.drop (commonPrefixLength P T)).length ≤ 64)
    · obtain ⟨hCeq, hTeq⟩ := hCword hempty hword
      cases hccf : jaro_common_char_filter P.length T.length
          (commonPrefixLength P T + count_common_chars_word
            (flag_similar_characters_word (occMask (P1.drop (commonPrefixLength P T)))
              (T1.drop (commonPrefixLength P T)) B)) c with
      | false =>
        have hccfN : jaro_common_char_filter P.length T.length
            (commonPrefixLength P T + countBits (P.drop (commonPrefixLength P T)).length
              (refFlag (P.drop (commonPrefixLength P T))
                (T.drop (commonPrefixLength P T)) B).P_flag) c = false := by
          rw [← hCeq]
          exact hccf
        rw [((hevc.2 hempty).1 hword).1 hccf, (hnev.2 hemptyN).1 hccfN]
      | true =>
        have hccfN : jaro_common_char_filter P.length T.length
            (commonPrefixLength P T + countBits (P.drop (commonPrefixLength P T)).length
              (refFlag (P.drop (commonPrefixLength P T))
                (T.drop (commonPrefixLength P T)) B).P_flag) c = true := by
          rw [← hCeq]
          exact hccf
        rw [((hevc.2 hempty).1 hword).2 hccf, (hnev.2 hemptyN).2 hccfN, hCeq, hTeq]
    · obtain ⟨hCeq, hTeq⟩ := hCblock hempty hword
      cases hccf : jaro_common_char_filter P.length T.length
          (commonPrefixLength P T + count_common_chars_multiword
            (flag_similar_characters_block (blockGet (P1.drop (commonPrefixLength P T)))
              (P1.drop (commonPrefixLength P T)).length
              (T1.drop (commonPrefixLength P T)) B)) c with
      | false =>
        have hccfN : jaro_common_char_filter P.length T.length
            (commonPrefixLength P T + countBits (P.drop (commonPrefixLength P T)).length
              (refFlag (P.drop (commonPrefixLength P T))
                (T.drop (commonPrefixLength P T)) B).P_flag) c = false := by
          rw [← hCeq]
          exact hccf
        rw [((hevc.2 hempty).2 hword).1 hccf, (hnev.2 hemptyN).1 hccfN]
      | true =>
        have hccfN : jaro_common_char_filter P.length T.length
            (commonPrefixLength P T + countBits (P.drop (commonPrefixLength P T)).length
              (refFlag (P.drop (commonPrefixLength P T))
                (T.drop (commonPrefixLength P T)) B).P_flag) c = true := by
          rw [← hCeq]
          exact hccf
        rw [((hevc.2 hempty).2 hword).2 hccf, (hnev.2 hemptyN).2 hccfN, hTeq, hCeq]

/-- C6: the suffix trim performed by the range overload of `jaro_bounds`
is neutral — on every input pair and every cutoff the scalar entry point
returns exactly the value of the same pipeline run without the
`remove_suffix` step, because the removed positions lie outside every
search window, the original lengths are used in all formulas, and the
common-prefix length is unchanged. -/
theorem suffix_trim_neutral (P T : List Nat) (c : ℚ) :
    jaro_similarity P T c = jaro_similarity_notrim P T c := by
  by_cases h1c : 1 < c
  · rw [jaro_eval_gt1 P T h1c, notrim_eval_gt1 P T h1c]
  by_cases hboth : P.length = 0 ∧ T.length = 0
  · rw [jaro_eval_both P T h1c hboth, notrim_eval_both P T h1c hboth]
  cases hlfc : jaro_length_filter P.length T.length c with
  | false =>
    rw [jaro_eval_lenrej P T h1c hboth hlfc, notrim_eval_lenrej P T h1c hboth hlfc]
  | true =>
    by_cases h11 : P.length = 1 ∧ T.length = 1
    · rw [jaro_eval_11 P T h1c hboth hlfc h11, notrim_eval_11 P T h1c hboth hlfc h11]
    · obtain ⟨hP0, hT0⟩ := jaro_length_filter_nonzero hlfc
      rcases hbt : jaro_bounds_trim P T with ⟨B, P1, T1⟩
      obtain ⟨hBmax, hP1len, hT1len, hgg⟩ := trim_facts hbt
      have hBeq : jaro_bounds_len P.length T.length = B := by
        rw [jaro_bounds_len_eq_max]
        exact hBmax.symm
      have hl0P := commonPrefixLength_le_left P T
      have hl0T := commonPrefixLength_le_right P T
      rcases trim_shape hbt hP0 hT0 h11 with ⟨hP1, hT1⟩ |
        ⟨hP1, k, hT1, hk, hkT, hB0⟩ | ⟨hT1, k, hP1, hk, hkP, hB0⟩
      · have hP1s := hP1.symm
        subst hP1s
        have hT1s := hT1.symm
        subst hT1s
        refine notrim_eq_of_bridges P T P T B c h1c hboth hlfc h11 hbt hBeq rfl
          Iff.rfl ?_ ?_
        · intro hempty hword
          exact word_path_ref_counts (P.drop (commonPrefixLength P T))
            (T.drop (commonPrefixLength P T)) B hword.1 hword.2
        · intro hempty hword
          push_neg at hempty
          have e1 := List.length_drop (commonPrefixLength P T) P
          have e4 := List.length_drop (commonPrefixLength P T) T
          have hmax65 : 65 ≤ max P.length T.length := by
            rcases not_and_or.mp hword with h | h
            · push_neg at h
              omega
            · push_neg at h
              omega
          have hB0 : 0 ≤ B := by
            rw [hBmax]
            omega
          have hP2ne : 1 ≤ (P.drop (commonPrefixLength P T)).length := by
            have := hempty.1
            omega
          have hguard : (((T.drop (commonPrefixLength P T)).length : Nat) : Int) ≤
              (((P.drop (commonPrefixLength P T)).length : Nat) : Int) + B := by
            have h3 := hgg hB0
            omega
          exact block_path_ref_counts (P.drop (commonPrefixLength P T))
            (T.drop (commonPrefixLength P T)) B hB0 hP2ne hguard
      · have hP1s := hP1.symm
        subst hP1s
        subst hT1
        have hPk : P.length ≤ k := by omega
        have hleq : commonPrefixLength P (T.take k) = commonPrefixLength P T :=
          commonPrefixLength_take_right P T k (le_trans hl0P hPk)
        have htk : (T.take k).length = k := List.length_take_of_le (by omega)
        have e1 := List.length_drop (commonPrefixLength P T) P
        have e2 := List.length_drop (commonPrefixLength P T) (T.take k)
        have e4 := List.length_drop (commonPrefixLength P T) T
        have hdropT : (T.take k).drop (commonPrefixLength P T) =
            (T.drop (commonPrefixLength P T)).take (k - commonPrefixLength P T) :=
          List.drop_take k (commonPrefixLength P T) T
        refine notrim_eq_of_bridges P T P (T.take k) B c h1c hboth hlfc h11 hbt
          hBeq hleq (by omega) ?_ ?_
        · intro hempty hword
          rw [hdropT] at hword ⊢
          have hbound : (((P.drop (commonPrefixLength P T)).length : Nat) : Int) + B ≤
              (((k - commonPrefixLength P T : Nat) : Nat) : Int) := by
            omega
          obtain ⟨w1, w2⟩ := word_path_ref_counts (P.drop (commonPrefixLength P T))
            ((T.drop (commonPrefixLength P T)).take (k - commonPrefixLength P T)) B
            hword.1 hword.2
          obtain ⟨r1, r2⟩ := ref_counts_take_text (P.drop (commonPrefixLength P T))
            (T.drop (commonPrefixLength P T)) B (k - commonPrefixLength P T) hbound
          exact ⟨w1.trans r1, w2.trans r2⟩
        · intro hempty hword
          push_neg at hempty
          rw [hdropT] at hempty ⊢
          have hbound : (((P.drop (commonPrefixLength P T)).length : Nat) : Int) + B ≤
              (((k - commonPrefixLength P T : Nat) : Nat) : Int) := by
            omega
          have hP2ne : 1 ≤ (P.drop (commonPrefixLength P T)).length := by
            have := hempty.1
            omega
          have htklen : ((T.drop (commonPrefixLength P T)).take
              (k - commonPrefixLength P T)).length = k - commonPrefixLength P T :=
            List.length_take_of_le (by omega)
          have hguard : ((((T.drop (commonPrefixLength P T)).take
              (k - commonPrefixLength P T)).length : Nat) : Int) ≤
              (((P.drop (commonPrefixLength P T)).length : Nat) : Int) + B := by
            omega
          obtain ⟨b1, b2⟩ := block_path_ref_counts (P.drop (commonPrefixLength P T))
            ((T.drop (commonPrefixLength P T)).take (k - commonPrefixLength P T)) B
            hB0 hP2ne hguard
          obtain ⟨r1, r2⟩ := ref_counts_take_text (P.drop (commonPrefixLength P T))
            (T.drop (commonPrefixLength P T)) B (k - commonPrefixLength P T) hbound
          exact ⟨b1.trans r1, b2.trans r2⟩
      · have hT1s := hT1.symm
        subst hT1s
        subst hP1
        have hTk : T.length ≤ k := by omega
        have hleq : commonPrefixLength (P.take k) T = commonPrefixLength P T :=
          commonPrefixLength_take_left P T k (le_trans hl0T hTk)
        have hpk : (P.take k).length = k := List.length_take_of_le (by omega)
        have e1 := List.length_drop (commonPrefixLength P T) P
        have e2 := List.length_drop (commonPrefixLength P T) (P.take k)
        have e4 := List.length_drop (commonPrefixLength P T) T
        have hdropP : (P.take k).drop (commonPrefixLength P T) =
            (P.drop (commonPrefixLength P T)).take (k - commonPrefixLength P T) :=
          List.drop_take k (commonPrefixLength P T) P
        refine notrim_eq_of_bridges P T (P.take k) T B c h1c hboth hlfc h11 hbt
          hBeq hleq (by omega) ?_ ?_
        · intro hempty hword
          rw [hdropP] at hword ⊢
          have hm : k - commonPrefixLength P T ≤
              (P.drop (commonPrefixLength P T)).length := by
            omega
          have hbound : (((T.drop (commonPrefixLength P T)).length : Nat) : Int) + B ≤
              (((k - commonPrefixLength P T : Nat) : Nat) : Int) := by
            omega
          obtain ⟨w1, w2⟩ := word_path_ref_counts
            ((P.drop (commonPrefixLength P T)).take (k - commonPrefixLength P T))
            (T.drop (commonPrefixLength P T)) B hword.1 hword.2
          obtain ⟨r1, r2⟩ := ref_counts_take_pattern (P.drop (commonPrefixLength P T))
            (T.drop (commonPrefixLength P T)) B (k - commonPrefixLength P T) hm hbound
          exact ⟨w1.trans r1, w2.trans r2⟩
        · intro hempty hword
          push_neg at hempty
          rw [hdropP] at hempty ⊢
          have hm : k - commonPrefixLength P T ≤
              (P.drop (commonPrefixLength P T)).length := by
            omega
          have hbound : (((T.drop (commonPrefixLength P T)).length : Nat) : Int) + B ≤
              (((k - commonPrefixLength P T : Nat) : Nat) : Int) := by
            omega
          have hptklen : ((P.drop (commonPrefixLength P T)).take
              (k - commonPrefixLength P T)).length = k - commonPrefixLength P T :=
            List.length_take_of_le hm
          have hP2ne : 1 ≤ ((P.drop (commonPrefixLength P T)).take
              (k - commonPrefixLength P T)).length := by
            have := hempty.1
            omega
          have hguard : (((T.drop (commonPrefixLength P T)).length : Nat) : Int) ≤
              ((((P.drop (commonPrefixLength P T)).take
                (k - commonPrefixLength P T)).length : Nat) : Int) + B := by
            omega
          obtain ⟨b1, b2⟩ := block_path_ref_counts
            ((P.drop (commonPrefixLength P T)).take (k - commonPrefixLength P T))
            (T.drop (commonPrefixLength P T)) B hB0 hP2ne hguard
          obtain ⟨r1, r2⟩ := ref_counts_take_pattern (P.drop (commonPrefixLength P T))
            (T.drop (commonPrefixLength P T)) B (k - commonPrefixLength P T) hm hbound
          exact ⟨b1.trans r1, b2.trans r2⟩

/-! ## Prefix-shift decomposition (toward the precomputed-index overload) -/

theorem commonPrefixLength_spec : ∀ (a b : List Nat) (i : Nat),
    i < commonPrefixLength a b → a.getD i 0 = b.getD i 0 := by
  intro a
  induction a with
  | nil =>
    intro b i h
    cases b <;> simp [commonPrefixLength] at h
  | cons x xs ih =>
    intro b i h
    cases b with
    | nil => simp [commonPrefixLength] at h
    | cons y ys =>
      rw [commonPrefixLength] at h
      by_cases hxy : x = y
      · rw [if_pos hxy] at h
        cases i with
        | zero => simpa using hxy
        | succ i =>
          rw [List.getD_cons_succ, List.getD_cons_succ]
          exact ih ys i (by omega)
      · rw [if_neg hxy] at h
        omega

theorem or_shiftLeft (a b n : Nat) : (a ||| b) <<< n = (a <<< n) ||| (b <<< n) := by
  apply Nat.eq_of_testBit_eq
  intro i
  simp [Nat.testBit_shiftLeft, Nat.testBit_lor, Bool.and_or_distrib_left]

theorem prefix_mask_or (j : Nat) : (2 ^ j - 1) ||| (1 <<< j) = 2 ^ (j + 1) - 1 := by
  apply Nat.eq_of_testBit_eq
  intro i
  rw [Nat.testBit_lor, Nat.testBit_two_pow_sub_one, Nat.one_shiftLeft,
    Nat.testBit_two_pow, Nat.testBit_two_pow_sub_one]
  by_cases h : i < j + 1
  · rw [decide_eq_true h]
    by_cases h1 : i < j
    · rw [decide_eq_true h1]
      simp
    · rw [decide_eq_true (show j = i by omega)]
      simp
  · rw [decide_eq_false h, decide_eq_false (show ¬ i < j by omega),
      decide_eq_false (show ¬ j = i by omega)]
    rfl

theorem getD_drop (l : List Nat) (m q : Nat) : (l.drop m).getD q 0 = l.getD (m + q) 0 := by
  rw [List.getD_eq_getElem?_getD, List.getD_eq_getElem?_getD, List.getElem?_drop]

theorem zip_self (xs : List Nat) : xs.zip xs = xs.map (fun a => (a, a)) := by
  induction xs with
  | nil => rfl
  | cons x xs ih => rw [List.zip_cons_cons, List.map_cons, ih]

theorem refTrans_zero (P T : List Nat) : refTrans P T 0 0 = 0 := by
  unfold refTrans
  rw [bitsBelow_zero_right]
  rfl

theorem refFlagGo_nil_pattern {B : Int} : ∀ (rest : List Nat) (j : Nat)
    (fl : FlaggedCharsWord), refFlagGo [] B j fl rest = fl := by
  intro rest
  induction rest with
  | nil => intro j fl; rfl
  | cons c rest ih =>
    intro j fl
    rw [refFlagGo]
    have hstep : refStep [] B j fl c = fl := rfl
    rw [hstep]
    exact ih (j + 1) fl

theorem findLowest_shift {f g : Nat → Bool} {l n : Nat}
    (hlow : ∀ p, p < l → f p = false)
    (hshift : ∀ q, q < n → f (l + q) = g q) :
    findLowest f 0 (l + n) = (findLowest g 0 n).map (fun q => l + q) := by
  cases hres : findLowest g 0 n with
  | none =>
    rw [findLowest_none] at hres
    simp only [Option.map_none']
    rw [findLowest_none]
    intro q _ hq
    by_cases hql : q < l
    · exact hlow q hql
    · rw [show q = l + (q - l) from by omega, hshift (q - l) (by omega)]
      exact hres (q - l) (Nat.zero_le _) (by omega)
  | some q =>
    obtain ⟨-, hqn, hg, hmin⟩ := findLowest_some_iff.mp hres
    simp only [Option.map_some']
    rw [findLowest_some_iff]
    refine ⟨Nat.zero_le _, by omega, ?_, ?_⟩
    · rw [hshift q (by omega)]
      exact hg
    · intro p _ hp
      by_cases hpl : p < l
      · exact hlow p hpl
      · rw [show p = l + (p - l) from by omega, hshift (p - l) (by omega)]
        exact hmin (p - l) (Nat.zero_le _) (by omega)

theorem countBits_prefix_split {K l x : Nat} (hl : l ≤ K) :
    countBits K ((2 ^ l - 1) ||| (x <<< l)) = l + countBits (K - l) x := by
  have hdisj : ∀ i, ¬((2 ^ l - 1).testBit i = true ∧ (x <<< l).testBit i = true) := by
    intro i hi
    obtain ⟨h1, h2⟩ := hi
    rw [Nat.testBit_two_pow_sub_one, decide_eq_true_eq] at h1
    rw [Nat.testBit_shiftLeft] at h2
    simp [show ¬(i ≥ l) by omega] at h2
  rw [countBits_lor_disjoint hdisj]
  have e1 : countBits K (2 ^ l - 1) = l := by
    rw [countBits_high hl (fun i hi => by
      rw [Nat.testBit_two_pow_sub_one]
      exact decide_eq_false (by omega))]
    rw [countBits, bitsBelow, List.filter_eq_self.mpr (fun a ha => by
      rw [Nat.testBit_two_pow_sub_one]
      exact decide_eq_true (List.mem_range.mp ha)), List.length_range]
  have e2 := countBits_shiftLeft l x (K - l)
  rw [show K - l + l = K from by omega] at e2
  rw [e1, e2]

theorem specScore_zero (P_len T_len : Nat) : specScore P_len T_len 0 0 = 0 := by
  unfold specScore
  norm_num

theorem specScore_zero_trans {P_len T_len C : Nat} (hC : C ≠ 0) :
    specScore P_len T_len C 0 =
      ((C : ℚ) / (P_len : ℚ) + (C : ℚ) / (T_len : ℚ) + 1) / 3 := by
  unfold specScore
  have hCq : ((C : ℚ)) ≠ 0 := by exact_mod_cast hC
  rw [show ((0 / 2 : Nat) : ℚ) = 0 from by norm_num, sub_zero, div_self hCq]

theorem refStep_prefix_run {P1 : List Nat} {B : Int} (hB : 0 ≤ B) {j : Nat} (hj : j < P1.length)
    {c : Nat} (hc : P1.getD j 0 = c) :
    refStep P1 B j ⟨2 ^ j - 1, 2 ^ j - 1⟩ c = ⟨2 ^ (j + 1) - 1, 2 ^ (j + 1) - 1⟩ := by
  unfold refStep
  have hfind : findLowest (refCond P1 B ⟨2 ^ j - 1, 2 ^ j - 1⟩ c j) 0 P1.length = some j := by
    rw [findLowest_some_iff]
    refine ⟨Nat.zero_le _, by omega, ?_, ?_⟩
    · unfold refCond refWindow
      dsimp only
      rw [decide_eq_true hc, Nat.testBit_two_pow_sub_one,
        decide_eq_false (lt_irrefl j), decide_eq_true (show (j : Int) - B ≤ (j : Int) by omega),
        decide_eq_true (show (j : Int) ≤ (j : Int) + B by omega)]
      rfl
    · intro q _ hq
      unfold refCond
      dsimp only
      rw [Nat.testBit_two_pow_sub_one, decide_eq_true hq]
      simp
  rw [hfind]
  dsimp only
  rw [prefix_mask_or]

theorem refFlagGo_prefix_run {P1 T1 : List Nat} {B : Int} (hB : 0 ≤ B) {l : Nat}
    (hlP : l ≤ P1.length) (hlT : l ≤ T1.length)
    (hpre : ∀ i, i < l → P1.getD i 0 = T1.getD i 0) :
    ∀ (n j : Nat), j + n ≤ l →
      refFlagGo P1 B j ⟨2 ^ j - 1, 2 ^ j - 1⟩ ((T1.drop j).take n) =
        ⟨2 ^ (j + n) - 1, 2 ^ (j + n) - 1⟩ := by
  intro n
  induction n with
  | zero =>
    intro j _
    rw [List.take_zero]
    rfl
  | succ n ih =>
    intro j hjn
    have hjT : j < T1.length := by omega
    rw [List.drop_eq_getElem_cons hjT, List.take_succ_cons, refFlagGo]
    have hc : P1.getD j 0 = T1[j] := by
      rw [hpre j (by omega)]
      exact List.getD_eq_getElem T1 0 hjT
    rw [refStep_prefix_run hB (show j < P1.length by omega) hc]
    have hrec := ih (j + 1) (by omega)
    rw [show j + 1 + n = j + (n + 1) from by omega] at hrec
    exact hrec

theorem refStep_shift {P1 : List Nat} {B : Int} {l : Nat} (hl : l ≤ P1.length)
    (j : Nat) (fl : FlaggedCharsWord) (c : Nat) :
    refStep P1 B (l + j)
        ⟨(2 ^ l - 1) ||| (fl.P_flag <<< l), (2 ^ l - 1) ||| (fl.T_flag <<< l)⟩ c =
      ⟨(2 ^ l - 1) ||| ((refStep (P1.drop l) B j fl c).P_flag <<< l),
       (2 ^ l - 1) ||| ((refStep (P1.drop l) B j fl c).T_flag <<< l)⟩ := by
  have hcond : ∀ q, q < (P1.drop l).length →
      refCond P1 B ⟨(2 ^ l - 1) ||| (fl.P_flag <<< l),
        (2 ^ l - 1) ||| (fl.T_flag <<< l)⟩ c (l + j) (l + q) =
      refCond (P1.drop l) B fl c j q := by
    intro q _
    unfold refCond refWindow
    dsimp only
    have e1 : P1.getD (l + q) 0 = (P1.drop l).getD q 0 := (getD_drop P1 l q).symm
    have e2 : Nat.testBit ((2 ^ l - 1) ||| (fl.P_flag <<< l)) (l + q) =
        fl.P_flag.testBit q := by
      rw [Nat.testBit_lor, Nat.testBit_two_pow_sub_one, Nat.testBit_shiftLeft]
      simp [show ¬(l + q < l) by omega, show l + q ≥ l by omega, Nat.add_sub_cancel_left]
    have e3 : decide (((l + j : Nat) : Int) - B ≤ ((l + q : Nat) : Int)) =
        decide ((j : Int) - B ≤ (q : Int)) := decide_eq_decide.mpr (by push_cast; omega)
    have e4 : decide (((l + q : Nat) : Int) ≤ ((l + j : Nat) : Int) + B) =
        decide ((q : Int) ≤ (j : Int) + B) := decide_eq_decide.mpr (by push_cast; omega)
    rw [e1, e2, e3, e4]
  have hlow : ∀ p, p < l →
      refCond P1 B ⟨(2 ^ l - 1) ||| (fl.P_flag <<< l),
        (2 ^ l - 1) ||| (fl.T_flag <<< l)⟩ c (l + j) p = false := by
    intro p hp
    unfold refCond
    dsimp only
    have hbit : Nat.testBit ((2 ^ l - 1) ||| (fl.P_flag <<< l)) p = true := by
      rw [Nat.testBit_lor, Nat.testBit_two_pow_sub_one, decide_eq_true hp, Bool.true_or]
    rw [hbit]
    simp
  have hsplit : P1.length = l + (P1.drop l).length := by
    rw [List.length_drop]
    omega
  have hfind : findLowest (refCond P1 B ⟨(2 ^ l - 1) ||| (fl.P_flag <<< l),
      (2 ^ l - 1) ||| (fl.T_flag <<< l)⟩ c (l + j)) 0 P1.length =
      (findLowest (refCond (P1.drop l) B fl c j) 0 (P1.drop l).length).map
        (fun q => l + q) := by
    rw [hsplit]
    exact findLowest_shift hlow hcond
  unfold refStep
  rw [hfind]
  cases hres : findLowest (refCond (P1.drop l) B fl c j) 0 (P1.drop l).length with
  | none => rfl
  | some q =>
    simp only [Option.map_some']
    congr 1
    · rw [or_shiftLeft, ← Nat.shiftLeft_add, show q + l = l + q from Nat.add_comm q l,
        Nat.lor_assoc]
    · rw [or_shiftLeft, ← Nat.shiftLeft_add, show j + l = l + j from Nat.add_comm j l,
        Nat.lor_assoc]

theorem refFlagGo_shift {P1 : List Nat} {B : Int} {l : Nat} (hl : l ≤ P1.length) :
    ∀ (rest : List Nat) (j : Nat) (fl : FlaggedCharsWord),
      refFlagGo P1 B (l + j)
          ⟨(2 ^ l - 1) ||| (fl.P_flag <<< l), (2 ^ l - 1) ||| (fl.T_flag <<< l)⟩ rest =
        ⟨(2 ^ l - 1) ||| ((refFlagGo (P1.drop l) B j fl rest).P_flag <<< l),
         (2 ^ l - 1) ||| ((refFlagGo (P1.drop l) B j fl rest).T_flag <<< l)⟩ := by
  intro rest
  induction rest with
  | nil => intro j fl; rfl
  | cons c rest ih =>
    intro j fl
    rw [refFlagGo, refFlagGo, refStep_shift hl j fl c]
    have hrec := ih (j + 1) (refStep (P1.drop l) B j fl c)
    rw [show l + (j + 1) = l + j + 1 from by omega] at hrec
    exact hrec

theorem refFlag_prefix_decomp {P1 T1 : List Nat} {B : Int} (hB : 0 ≤ B) {l : Nat}
    (hlP : l ≤ P1.length) (hlT : l ≤ T1.length)
    (hpre : ∀ i, i < l → P1.getD i 0 = T1.getD i 0) :
    refFlag P1 T1 B =
      ⟨(2 ^ l - 1) ||| ((refFlag (P1.drop l) (T1.drop l) B).P_flag <<< l),
       (2 ^ l - 1) ||| ((refFlag (P1.drop l) (T1.drop l) B).T_flag <<< l)⟩ := by
  unfold refFlag
  conv_lhs => rw [← List.take_append_drop l T1]
  rw [refFlagGo_append]
  have h1 : refFlagGo P1 B 0 ⟨0, 0⟩ (T1.take l) = ⟨2 ^ l - 1, 2 ^ l - 1⟩ := by
    have hrun := refFlagGo_prefix_run hB hlP hlT hpre l 0 (by omega)
    rw [List.drop_zero] at hrun
    norm_num at hrun
    exact hrun
  rw [h1, show 0 + (T1.take l).length = l + 0 from by
    rw [List.length_take_of_le hlT]
    omega]
  have h2 := @refFlagGo_shift P1 B l hlP (T1.drop l) 0 ⟨0, 0⟩
  dsimp only at h2
  rw [Nat.zero_shiftLeft, Nat.or_zero] at h2
  exact h2

theorem refTrans_prefix_split {P1 T1 : List Nat} {l : Nat}
    (hlP : l ≤ P1.length) (hlT : l ≤ T1.length)
    (hpre : ∀ i, i < l → P1.getD i 0 = T1.getD i 0) (pf tf : Nat) :
    refTrans P1 T1 ((2 ^ l - 1) ||| (pf <<< l)) ((2 ^ l - 1) ||| (tf <<< l)) =
      refTrans (P1.drop l) (T1.drop l) pf tf := by
  have hbb : ∀ (m x : Nat), bitsBelow (l + m) ((2 ^ l - 1) ||| (x <<< l)) =
      List.range l ++ (bitsBelow m x).map (fun q => l + q) := by
    intro m x
    unfold bitsBelow
    rw [List.range_add l m, List.filter_append]
    congr 1
    · apply List.filter_eq_self.mpr
      intro a ha
      rw [Nat.testBit_lor, Nat.testBit_two_pow_sub_one,
        decide_eq_true (List.mem_range.mp ha), Bool.true_or]
    · rw [List.filter_map]
      congr 1
      apply List.filter_congr
      intro q _
      simp only [Function.comp_apply]
      rw [Nat.testBit_lor, Nat.testBit_two_pow_sub_one, Nat.testBit_shiftLeft]
      simp [show ¬(l + q < l) by omega, show l + q ≥ l by omega, Nat.add_sub_cancel_left]
  unfold refTrans
  have eP := hbb (P1.length - l) pf
  rw [show l + (P1.length - l) = P1.length from by omega] at eP
  have eT := hbb (T1.length - l) tf
  rw [show l + (T1.length - l) = T1.length from by omega] at eT
  rw [eP, eT, List.zip_append (by rw [List.length_range]),
    List.countP_append, zip_self, List.countP_map, List.zip_map, List.countP_map]
  have h0 : (List.range l).countP
      ((fun pr => decide (P1.getD pr.1 0 ≠ T1.getD pr.2 0)) ∘ (fun a => (a, a))) = 0 := by
    apply List.countP_eq_zero.mpr
    intro a ha
    simp only [Function.comp_apply]
    rw [hpre a (List.mem_range.mp ha)]
    simp
  rw [h0, Nat.zero_add]
  have hPl : (P1.drop l).length = P1.length - l := List.length_drop l P1
  have hTl : (T1.drop l).length = T1.length - l := List.length_drop l T1
  rw [hPl, hTl]
  apply List.countP_congr
  intro pr hpr
  simp only [Function.comp_apply, Prod.map_fst, Prod.map_snd]
  constructor <;> intro hx <;> rw [decide_eq_true_eq] at hx <;> apply decide_eq_true
  · rw [getD_drop, getD_drop]
    exact hx
  · rw [getD_drop, getD_drop] at hx
    exact hx

theorem refFlag_prefix_counts {P1 T1 : List Nat} {B : Int} (hB : 0 ≤ B) {l : Nat}
    (hlP : l ≤ P1.length) (hlT : l ≤ T1.length)
    (hpre : ∀ i, i < l → P1.getD i 0 = T1.getD i 0) :
    countBits P1.length (refFlag P1 T1 B).P_flag =
      l + countBits (P1.drop l).length (refFlag (P1.drop l) (T1.drop l) B).P_flag ∧
    refTrans P1 T1 (refFlag P1 T1 B).P_flag (refFlag P1 T1 B).T_flag =
      refTrans (P1.drop l) (T1.drop l) (refFlag (P1.drop l) (T1.drop l) B).P_flag
        (refFlag (P1.drop l) (T1.drop l) B).T_flag := by
  have hdec := refFlag_prefix_decomp hB hlP hlT hpre
  constructor
  · rw [hdec]
    dsimp only
    rw [countBits_prefix_split hlP, List.length_drop]
  · rw [hdec]
    dsimp only
    exact refTrans_prefix_split hlP hlT hpre _ _

theorem testBit_blockGet_zero (P : List Nat) (c p : Nat) (hp : p < 64) :
    (blockGet P 0 c).testBit p = (occMask P c).testBit p := by
  unfold blockGet
  rw [Nat.mul_zero, Nat.shiftRight_zero, Nat.testBit_and, Nat.testBit_two_pow_sub_one,
    decide_eq_true hp, Bool.and_true]

/-- Word-path counts at the reference level when the occurrence data comes
from word 0 of a (possibly longer) precomputed pattern: stale occurrence
bits beyond the processed pattern must lie outside every window. -/
theorem word_path_pm_ref_counts (Pfull P1 T1 : List Nat) (B : Int)
    (hP64 : P1.length ≤ 64) (hT64 : T1.length ≤ 64)
    (hPlen : P1.length ≤ Pfull.length)
    (hagree : ∀ p, p < P1.length → Pfull.getD p 0 = P1.getD p 0)
    (hgap : (T1.length : Int) - 1 + B < (P1.length : Int) ∨ Pfull.length = P1.length) :
    count_common_chars_word (flag_similar_characters_word (blockGet Pfull 0) T1 B) =
      countBits P1.length (refFlag P1 T1 B).P_flag ∧
    count_transpositions_word (blockGet Pfull 0) T1
        (flag_similar_characters_word (blockGet Pfull 0) T1 B) =
      refTrans P1 T1 (refFlag P1 T1 B).P_flag (refFlag P1 T1 B).T_flag := by
  have h1 : ∀ c p, p < P1.length →
      (blockGet Pfull 0 c).testBit p = decide (P1.getD p 0 = c) := by
    intro c p hp
    rw [testBit_blockGet_zero Pfull c p (by omega), testBit_occMask,
      decide_eq_true (show p < Pfull.length by omega), Bool.true_and, hagree p hp]
  have h2 : ∀ c p, P1.length ≤ p → (p : Int) ≤ (T1.length : Int) - 1 + B →
      (blockGet Pfull 0 c).testBit p = false := by
    intro c p hp hle
    rcases hgap with hgap | hgap
    · omega
    · by_cases h64 : p < 64
      · rw [testBit_blockGet_zero Pfull c p h64, testBit_occMask,
          decide_eq_false (show ¬ p < Pfull.length by omega), Bool.false_and]
      · exact testBit_false_of_lt_two_pow (blockGet_lt Pfull 0 c) (by omega)
  rw [flag_word_eq_refFlag hP64 h1 h2]
  obtain ⟨rP, rT, rcnt⟩ := @refFlag_inv P1 T1 B 64 64 hP64 hT64
  have hhP : ∀ i, P1.length ≤ i → (refFlag P1 T1 B).P_flag.testBit i = false := by
    intro i hi
    cases hb : (refFlag P1 T1 B).P_flag.testBit i
    · rfl
    · exact absurd (rP i hb) (by omega)
  constructor
  · exact (countBits_high hP64 hhP : countBits 64 _ = _)
  · exact count_transpositions_word_eq_refTrans h1 hP64 hT64 rP rT rcnt

/-- Block-path counts at the reference level, for any occurrence source
that agrees with the processed pattern on its positions. -/
theorem block_path_ref_counts_of_get {get : Nat → Nat → Nat} (P2 T2 : List Nat) (B : Int)
    (hget64 : ∀ w c, get w c < 2 ^ 64)
    (hget1 : ∀ c p, p < P2.length →
      (get (p / 64) c).testBit (p % 64) = decide (P2.getD p 0 = c))
    (hB : 0 ≤ B) (hP1 : 1 ≤ P2.length)
    (hguard : ((T2.length : Nat) : Int) ≤ (P2.length : Int) + B) :
    count_common_chars_multiword
        (flag_similar_characters_block get P2.length T2 B) =
      countBits P2.length (refFlag P2 T2 B).P_flag ∧
    count_transpositions_block get T2
        (flag_similar_characters_block get P2.length T2 B)
        (count_common_chars_multiword
          (flag_similar_characters_block get P2.length T2 B)) =
      refTrans P2 T2 (refFlag P2 T2 B).P_flag (refFlag P2 T2 B).T_flag := by
  obtain ⟨e1, e2, e3, e4, e5, e6⟩ := flag_block_eq_refFlag hget64 hget1 hB hP1 hguard
  have hK1 : P2.length ≤
      64 * (flag_similar_characters_block get P2.length T2 B).P_flag.length := by
    rw [e3]
    omega
  have hK2 : T2.length ≤
      64 * (flag_similar_characters_block get P2.length T2 B).T_flag.length := by
    rw [e4]
    omega
  obtain ⟨rinvP, rinvT, rcnt⟩ := refFlag_inv hK1 hK2
  obtain ⟨-, -, rcnt2⟩ := @refFlag_inv P2 T2 B P2.length T2.length (le_refl _) (le_refl _)
  have hpf : ∀ p, (combineWords (flag_similar_characters_block
      get P2.length T2 B).P_flag).testBit p = true → p < P2.length := by
    intro p hp
    rw [e1] at hp
    exact rinvP p hp
  have htf : ∀ q, (combineWords (flag_similar_characters_block
      get P2.length T2 B).T_flag).testBit q = true → q < T2.length := by
    intro q hq
    rw [e2] at hq
    exact rinvT q hq
  have hcnt : countBits
      (64 * (flag_similar_characters_block get P2.length T2 B).P_flag.length)
      (combineWords (flag_similar_characters_block get P2.length T2 B).P_flag) =
      countBits
      (64 * (flag_similar_characters_block get P2.length T2 B).T_flag.length)
      (combineWords (flag_similar_characters_block get P2.length T2 B).T_flag) := by
    rw [e1, e2]
    exact rcnt
  have hhighT : ∀ i, T2.length ≤ i →
      (combineWords (flag_similar_characters_block
        get P2.length T2 B).T_flag).testBit i = false := by
    intro i hi
    rw [e2]
    cases hb : (refFlag P2 T2 B).T_flag.testBit i
    · rfl
    · exact absurd (rinvT i hb) (by omega)
  have hccm : count_common_chars_multiword
      (flag_similar_characters_block get P2.length T2 B) =
      countBits T2.length (refFlag P2 T2 B).T_flag := by
    rw [count_common_chars_multiword_eq e5 e6 hcnt, countBits_high hK2 hhighT, e2]
  have htrans := count_transpositions_block_eq_refTrans hget1 e5 e6 hpf htf hK1 hK2 hcnt
  rw [e1, e2] at htrans
  exact ⟨hccm.trans rcnt2.symm, htrans⟩

/-- Instantiation of the block bridge for the precomputed-index overload:
`get` reads the full pattern's occurrence words while only the trimmed
pattern is processed. -/
theorem block_path_pm_ref_counts (Pfull P1 T1 : List Nat) (B : Int)
    (hPlen : P1.length ≤ Pfull.length)
    (hagree : ∀ p, p < P1.length → Pfull.getD p 0 = P1.getD p 0)
    (hB : 0 ≤ B) (hP1 : 1 ≤ P1.length)
    (hguard : ((T1.length : Nat) : Int) ≤ (P1.length : Int) + B) :
    count_common_chars_multiword
        (flag_similar_characters_block (blockGet Pfull) P1.length T1 B) =
      countBits P1.length (refFlag P1 T1 B).P_flag ∧
    count_transpositions_block (blockGet Pfull) T1
        (flag_similar_characters_block (blockGet Pfull) P1.length T1 B)
        (count_common_chars_multiword
          (flag_similar_characters_block (blockGet Pfull) P1.length T1 B)) =
      refTrans P1 T1 (refFlag P1 T1 B).P_flag (refFlag P1 T1 B).T_flag :=
  block_path_ref_counts_of_get P1 T1 B (fun w c => blockGet_lt Pfull w c)
    (fun c p hp => by rw [testBit_blockGet Pfull c p (by omega), hagree p hp])
    hB hP1 hguard

/-- The `BlockPatternMatchVector` overload of `jaro_similarity` (line 406):
same pipeline as the plain entry point, except that no
`remove_common_prefix` is performed (`CommonChars` starts at 0) and the
occurrence data is the index precomputed over the **full** pattern
argument — the word path reads word 0 of that index and the block path
reads all of it, even though only the trimmed pattern is processed.  The
index itself (`PatternMatchVector.hpp`, not under `src/`) is modelled from
the spec as `blockGet` over the full pattern. -/
def jaro_similarity_pm (P T : List Nat) (score_cutoff : ℚ) : ℚ :=
  let P_len := P.length
  let T_len := T.length
  if 1 < score_cutoff then 0
  else if P_len = 0 ∧ T_len = 0 then 1
  else if !jaro_length_filter P_len T_len score_cutoff then 0
  else if P_len = 1 ∧ T_len = 1 then (if P.getD 0 0 = T.getD 0 0 then 1 else 0)
  else
    let bt := jaro_bounds_trim P T
    let Bound := bt.1
    let P1 := bt.2.1
    let T1 := bt.2.2
    if P1.length = 0 ∨ T1.length = 0 then
      let Sim := jaro_calculate_similarity P_len T_len 0 0
      if Sim ≥ score_cutoff then Sim else 0
    else if P1.length ≤ 64 ∧ T1.length ≤ 64 then
      let get0 := blockGet P 0
      let flagged := flag_similar_characters_word get0 T1 Bound
      let CommonChars := count_common_chars_word flagged
      if !jaro_common_char_filter P_len T_len CommonChars score_cutoff then 0
      else
        let Transpositions := count_transpositions_word get0 T1 flagged
        let Sim := jaro_calculate_similarity P_len T_len CommonChars Transpositions
        if Sim ≥ score_cutoff then Sim else 0
    else
      let get := blockGet P
      let flagged := flag_similar_characters_block get P1.length T1 Bound
      let FlaggedChars := count_common_chars_multiword flagged
      if !jaro_common_char_filter P_len T_len FlaggedChars score_cutoff then 0
      else
        let Transpositions := count_transpositions_block get T1 flagged FlaggedChars
        let Sim := jaro_calculate_similarity P_len T_len FlaggedChars Transpositions
        if Sim ≥ score_cutoff then Sim else 0

theorem pm_eval_gt1 (P T : List Nat) {c : ℚ} (h : 1 < c) :
    jaro_similarity_pm P T c = 0 := by
  unfold jaro_similarity_pm
  rw [if_pos h]

theorem pm_eval_both (P T : List Nat) {c : ℚ} (hc : ¬ 1 < c)
    (hboth : P.length = 0 ∧ T.length = 0) : jaro_similarity_pm P T c = 1 := by
  unfold jaro_similarity_pm
  rw [if_neg hc, if_pos hboth]

theorem pm_eval_lenrej (P T : List Nat) {c : ℚ} (hc : ¬ 1 < c)
    (hboth : ¬(P.length = 0 ∧ T.length = 0))
    (hlf : jaro_length_filter P.length T.length c = false) :
    jaro_similarity_pm P T c = 0 := by
  unfold jaro_similarity_pm
  rw [if_neg hc, if_neg hboth, hlf]
  simp

theorem pm_eval_11 (P T : List Nat) {c : ℚ} (hc : ¬ 1 < c)
    (hboth : ¬(P.length = 0 ∧ T.length = 0))
    (hlf : jaro_length_filter P.length T.length c = true)
    (h11 : P.length = 1 ∧ T.length = 1) :
    jaro_similarity_pm P T c = (if P.getD 0 0 = T.getD 0 0 then 1 else 0) := by
  unfold jaro_similarity_pm
  rw [if_neg hc, if_neg hboth, hlf]
  simp only [Bool.not_true, Bool.false_eq_true, if_false]
  rw [if_pos h11]

/-- Evaluation of the precomputed-index overload on the main pipeline,
one equation per branch. -/
theorem pm_eval_main (P T : List Nat) (c : ℚ) (B : Int) (P1 T1 : List Nat)
    (hc : ¬ 1 < c) (hboth : ¬(P.length = 0 ∧ T.length = 0))
    (hlen : jaro_length_filter P.length T.length c = true)
    (h11 : ¬(P.length = 1 ∧ T.length = 1))
    (hbt : jaro_bounds_trim P T = (B, P1, T1)) :
    ((P1.length = 0 ∨ T1.length = 0) →
      jaro_similarity_pm P T c =
        (if specScore P.length T.length 0 0 ≥ c
          then specScore P.length T.length 0 0 else 0)) ∧
    (¬(P1.length = 0 ∨ T1.length = 0) →
      (P1.length ≤ 64 ∧ T1.length ≤ 64 →
        (jaro_common_char_filter P.length T.length
            (count_common_chars_word
              (flag_similar_characters_word (blockGet P 0) T1 B)) c = false →
          jaro_similarity_pm P T c = 0) ∧
        (jaro_common_char_filter P.length T.length
            (count_common_chars_word
              (flag_similar_characters_word (blockGet P 0) T1 B)) c = true →
          jaro_similarity_pm P T c =
            (if specScore P.length T.length
                (count_common_chars_word
                  (flag_similar_characters_word (blockGet P 0) T1 B))
                (count_transpositions_word (blockGet P 0) T1
                  (flag_similar_characters_word (blockGet P 0) T1 B)) ≥ c
              then specScore P.length T.length
                (count_common_chars_word
                  (flag_similar_characters_word (blockGet P 0) T1 B))
                (count_transpositions_word (blockGet P 0) T1
                  (flag_similar_characters_word (blockGet P 0) T1 B))
              else 0))) ∧
      (¬(P1.length ≤ 64 ∧ T1.length ≤ 64) →
        (jaro_common_char_filter P.length T.length
            (count_common_chars_multiword
              (flag_similar_characters_block (blockGet P) P1.length T1 B)) c = false →
          jaro_similarity_pm P T c = 0) ∧
        (jaro_common_char_filter P.length T.length
            (count_common_chars_multiword
              (flag_similar_characters_block (blockGet P) P1.length T1 B)) c = true →
          jaro_similarity_pm P T c =
            (if specScore P.length T.length
                (count_common_chars_multiword
                  (flag_similar_characters_block (blockGet P) P1.length T1 B))
                (count_transpositions_block (blockGet P) T1
                  (flag_similar_characters_block (blockGet P) P1.length T1 B)
                  (count_common_chars_multiword
                    (flag_similar_characters_block (blockGet P) P1.length T1 B))) ≥ c
              then specScore P.length T.length
                (count_common_chars_multiword
                  (flag_similar_characters_block (blockGet P) P1.length T1 B))
                (count_transpositions_block (blockGet P) T1
                  (flag_similar_characters_block (blockGet P) P1.length T1 B)
                  (count_common_chars_multiword
                    (flag_similar_characters_block (blockGet P) P1.length T1 B)))
              else 0)))) := by
  unfold jaro_similarity_pm
  rw [if_neg hc, if_neg hboth, hlen]
  simp only [Bool.not_true, Bool.false_eq_true, if_false, if_neg h11, hbt]
  refine ⟨?_, ?_⟩
  · intro hempty
    rw [if_pos hempty, jaro_calculate_similarity_eq_specScore]
  · intro hempty
    rw [if_neg hempty]
    refine ⟨?_, ?_⟩
    · intro hword
      rw [if_pos hword]
      refine ⟨?_, ?_⟩
      · intro hccf
        rw [hccf]
        simp
      · intro hccf
        rw [hccf]
        simp only [Bool.not_true, Bool.false_eq_true, if_false,
          jaro_calculate_similarity_eq_specScore]
    · intro hword
      rw [if_neg hword]
      refine ⟨?_, ?_⟩
      · intro hccf
        rw [hccf]
        simp
      · intro hccf
        rw [hccf]
        simp only [Bool.not_true, Bool.false_eq_true, if_false,
          jaro_calculate_similarity_eq_specScore]

/-- C7: the overload taking a precomputed occurrence index for the full
pattern returns exactly the same score as the plain entry point on every
input pair and cutoff, even though it skips the common-prefix removal and
may dispatch to the block path where the plain overload, after stripping a
shared prefix, uses the word path. -/
theorem precomputed_index_overload_agrees (P T : List Nat) (c : ℚ) :
    jaro_similarity_pm P T c = jaro_similarity P T c := by
  by_cases h1c : 1 < c
  · rw [pm_eval_gt1 P T h1c, jaro_eval_gt1 P T h1c]
  by_cases hboth : P.length = 0 ∧ T.length = 0
  · rw [pm_eval_both P T h1c hboth, jaro_eval_both P T h1c hboth]
  cases hlfc : jaro_length_filter P.length T.length c with
  | false =>
    rw [pm_eval_lenrej P T h1c hboth hlfc, jaro_eval_lenrej P T h1c hboth hlfc]
  | true =>
    by_cases h11 : P.length = 1 ∧ T.length = 1
    · rw [pm_eval_11 P T h1c hboth hlfc h11, jaro_eval_11 P T h1c hboth hlfc h11]
    · obtain ⟨hP0, hT0⟩ := jaro_length_filter_nonzero hlfc
      rcases hbt : jaro_bounds_trim P T with ⟨B, P1, T1⟩
      obtain ⟨hBmax, hP1len, hT1len, hgg⟩ := trim_facts hbt
      have hB0 : 0 ≤ B := by
        rw [hBmax]
        omega
      have hpack : P1.length ≠ 0 ∧ T1.length ≠ 0 ∧ P1.length ≤ P.length ∧
          (∀ p, p < P1.length → P.getD p 0 = P1.getD p 0) ∧
          ((T1.length : Int) - 1 + B < (P1.length : Int) ∨ P.length = P1.length) := by
        rcases trim_shape hbt hP0 hT0 h11 with ⟨hP1, hT1⟩ |
          ⟨hP1, k, hT1, hk, hkT, _⟩ | ⟨hT1, k, hP1, hk, hkP, _⟩
        · refine ⟨by rw [hP1]; exact hP0, by rw [hT1]; exact hT0,
            by rw [hP1], ?_, Or.inr (by rw [hP1])⟩
          intro p _
          rw [hP1]
        · refine ⟨by rw [hP1]; exact hP0, ?_, by rw [hP1],
            ?_, Or.inr (by rw [hP1])⟩
          · rw [hT1, List.length_take]
            omega
          · intro p _
            rw [hP1]
        · refine ⟨?_, by rw [hT1]; exact hT0, ?_, ?_, Or.inl ?_⟩
          · rw [hP1, List.length_take]
            omega
          · rw [hP1, List.length_take]
            omega
          · intro p hp
            rw [hP1]
            exact (getD_take (by rw [hP1, List.length_take] at hp; omega)).symm
          · rw [hT1, hP1, List.length_take]
            push_cast
            omega
      obtain ⟨hne1, hne2, hPfull, hagree, hgap⟩ := hpack
      have hne : ¬(P1.length = 0 ∨ T1.length = 0) := by omega
      have hguard : ((T1.length : Nat) : Int) ≤ ((P1.length : Nat) : Int) + B := hgg hB0
      have hevM := pm_eval_main P T c B P1 T1 h1c hboth hlfc h11 hbt
      have hevR := jaro_eval_main P T c B P1 T1 h1c hboth hlfc h11 hbt
      have hlP1 := commonPrefixLength_le_left P1 T1
      have hlT1 := commonPrefixLength_le_right P1 T1
      obtain ⟨hcount, htransp⟩ :=
        refFlag_prefix_counts hB0 hlP1 hlT1 (commonPrefixLength_spec P1 T1)
      by_cases hempty2 : ((P1.drop (commonPrefixLength P1 T1)).length = 0 ∨
          (T1.drop (commonPrefixLength P1 T1)).length = 0)
      · rw [hevR.1 hempty2]
        have hC20 : countBits (P1.drop (commonPrefixLength P1 T1)).length
            (refFlag (P1.drop (commonPrefixLength P1 T1))
              (T1.drop (commonPrefixLength P1 T1)) B).P_flag = 0 ∧
            refTrans (P1.drop (commonPrefixLength P1 T1))
              (T1.drop (commonPrefixLength P1 T1))
              (refFlag (P1.drop (commonPrefixLength P1 T1))
                (T1.drop (commonPrefixLength P1 T1)) B).P_flag
              (refFlag (P1.drop (commonPrefixLength P1 T1))
                (T1.drop (commonPrefixLength P1 T1)) B).T_flag = 0 := by
          rcases hempty2 with h | h
          · have hnil := List.length_eq_zero.mp h
            rw [hnil]
            have hrf : refFlag ([] : List Nat)
                (T1.drop (commonPrefixLength P1 T1)) B = ⟨0, 0⟩ := by
              unfold refFlag
              exact refFlagGo_nil_pattern _ 0 _
            rw [hrf]
            exact ⟨countBits_zero_right _, refTrans_zero _ _⟩
          · have hnil := List.length_eq_zero.mp h
            rw [hnil]
            have hrf : refFlag (P1.drop (commonPrefixLength P1 T1))
                ([] : List Nat) B = ⟨0, 0⟩ := rfl
            rw [hrf]
            exact ⟨countBits_zero_right _, refTrans_zero _ _⟩
        have hCfull : countBits P1.length (refFlag P1 T1 B).P_flag =
            commonPrefixLength P1 T1 := by
          rw [hcount, hC20.1]
          omega
        have hTfull : refTrans P1 T1 (refFlag P1 T1 B).P_flag
            (refFlag P1 T1 B).T_flag = 0 := by
          rw [htransp, hC20.2]
        by_cases hw1 : (P1.length ≤ 64 ∧ T1.length ≤ 64)
        · obtain ⟨m1, m2⟩ := word_path_pm_ref_counts P P1 T1 B hw1.1 hw1.2
            hPfull hagree hgap
          have hCpm := m1.trans hCfull
          have hTpm := m2.trans hTfull
          cases hccf : jaro_common_char_filter P.length T.length
              (count_common_chars_word
                (flag_similar_characters_word (blockGet P 0) T1 B)) c with
          | false =>
            rw [((hevM.2 hne).1 hw1).1 hccf]
            rw [hCpm] at hccf
            by_cases hl0 : commonPrefixLength P1 T1 = 0
            · rw [hl0, specScore_zero]
              split <;> rfl
            · have hbd := jaro_common_char_filter_false hl0 hccf
              rw [specScore_zero_trans hl0, if_neg hbd]
          | true =>
            rw [((hevM.2 hne).1 hw1).2 hccf, hCpm, hTpm]
        · obtain ⟨m1, m2⟩ := block_path_pm_ref_counts P P1 T1 B hPfull hagree hB0
            (by omega) hguard
          have hCpm := m1.trans hCfull
          have hTpm := m2.trans hTfull
          cases hccf : jaro_common_char_filter P.length T.length
              (count_common_chars_multiword
                (flag_similar_characters_block (blockGet P) P1.length T1 B)) c with
          | false =>
            rw [((hevM.2 hne).2 hw1).1 hccf]
            rw [hCpm] at hccf
            by_cases hl0 : commonPrefixLength P1 T1 = 0
            · rw [hl0, specScore_zero]
              split <;> rfl
            · have hbd := jaro_common_char_filter_false hl0 hccf
              rw [specScore_zero_trans hl0, if_neg hbd]
          | true =>
            rw [((hevM.2 hne).2 hw1).2 hccf, hTpm, hCpm]
      · have hne2' := hempty2
        push_neg at hne2'
        have hldP := List.length_drop (commonPrefixLength P1 T1) P1
        have hldT := List.length_drop (commonPrefixLength P1 T1) T1
        have hP2ne : 1 ≤ (P1.drop (commonPrefixLength P1 T1)).length := by
          have := hne2'.1
          omega
        have hguard2 : (((T1.drop (commonPrefixLength P1 T1)).length : Nat) : Int) ≤
            (((P1.drop (commonPrefixLength P1 T1)).length : Nat) : Int) + B := by
          omega
        have hpmval : jaro_similarity_pm P T c =
            (if jaro_common_char_filter P.length T.length
                (commonPrefixLength P1 T1 +
                  countBits (P1.drop (commonPrefixLength P1 T1)).length
                    (refFlag (P1.drop (commonPrefixLength P1 T1))
                      (T1.drop (commonPrefixLength P1 T1)) B).P_flag) c then
              (if specScore P.length T.length
                  (commonPrefixLength P1 T1 +
                    countBits (P1.drop (commonPrefixLength P1 T1)).length
                      (refFlag (P1.drop (commonPrefixLength P1 T1))
                        (T1.drop (commonPrefixLength P1 T1)) B).P_flag)
                  (refTrans (P1.drop (commonPrefixLength P1 T1))
                    (T1.drop (commonPrefixLength P1 T1))
                    (refFlag (P1.drop (commonPrefixLength P1 T1))
                      (T1.drop (commonPrefixLength P1 T1)) B).P_flag
                    (refFlag (P1.drop (commonPrefixLength P1 T1))
                      (T1.drop (commonPrefixLength P1 T1)) B).T_flag) ≥ c
                then specScore P.length T.length
                  (commonPrefixLength P1 T1 +
                    countBits (P1.drop (commonPrefixLength P1 T1)).length
                      (refFlag (P1.drop (commonPrefixLength P1 T1))
                        (T1.drop (commonPrefixLength P1 T1)) B).P_flag)
                  (refTrans (P1.drop (commonPrefixLength P1 T1))
                    (T1.drop (commonPrefixLength P1 T1))
                    (refFlag (P1.drop (commonPrefixLength P1 T1))
                      (T1.drop (commonPrefixLength P1 T1)) B).P_flag
                    (refFlag (P1.drop (commonPrefixLength P1 T1))
                      (T1.drop (commonPrefixLength P1 T1)) B).T_flag)
                else 0)
            else 0) := by
          by_cases hw1 : (P1.length ≤ 64 ∧ T1.length ≤ 64)
          · obtain ⟨m1, m2⟩ := word_path_pm_ref_counts P P1 T1 B hw1.1 hw1.2
              hPfull hagree hgap
            have hCpm := m1.trans hcount
            have hTpm := m2.trans htransp
            cases hccf : jaro_common_char_filter P.length T.length
                (commonPrefixLength P1 T1 +
                  countBits (P1.drop (commonPrefixLength P1 T1)).length
                    (refFlag (P1.drop (commonPrefixLength P1 T1))
                      (T1.drop (commonPrefixLength P1 T1)) B).P_flag) c with
            | false =>
              have hccfM : jaro_common_char_filter P.length T.length
                  (count_common_chars_word
                    (flag_similar_characters_word (blockGet P 0) T1 B)) c = false := by
                rw [hCpm]
                exact hccf
              rw [((hevM.2 hne).1 hw1).1 hccfM]
              simp
            | true =>
              have hccfM : jaro_common_char_filter P.length T.length
                  (count_common_chars_word
                    (flag_similar_characters_word (blockGet P 0) T1 B)) c = true := by
                rw [hCpm]
                exact hccf
              rw [((hevM.2 hne).1 hw1).2 hccfM, hCpm, hTpm]
              simp
          · obtain ⟨m1, m2⟩ := block_path_pm_ref_counts P P1 T1 B hPfull hagree hB0
              (by omega) hguard
            have hCpm := m1.trans hcount
            have hTpm := m2.trans htransp
            cases hccf : jaro_common_char_filter P.length T.length
                (commonPrefixLength P1 T1 +
                  countBits (P1.drop (commonPrefixLength P1 T1)).length
                    (refFlag (P1.drop (commonPrefixLength P1 T1))
                      (T1.drop (commonPrefixLength P1 T1)) B).P_flag) c with
            | false =>
              have hccfM : jaro_common_char_filter P.length T.length
                  (count_common_chars_multiword
                    (flag_similar_characters_block (blockGet P) P1.length T1 B)) c =
                  false := by
                rw [hCpm]
                exact hccf
              rw [((hevM.2 hne).2 hw1).1 hccfM]
              simp
            | true =>
              have hccfM : jaro_common_char_filter P.length T.length
                  (count_common_chars_multiword
                    (flag_similar_characters_block (blockGet P) P1.length T1 B)) c =
                  true := by
                rw [hCpm]
                exact hccf
              rw [((hevM.2 hne).2 hw1).2 hccfM, hTpm, hCpm]
              simp
        have hplval : jaro_similarity P T c =
            (if jaro_common_char_filter P.length T.length
                (commonPrefixLength P1 T1 +
                  countBits (P1.drop (commonPrefixLength P1 T1)).length
                    (refFlag (P1.drop (commonPrefixLength P1 T1))
                      (T1.drop (commonPrefixLength P1 T1)) B).P_flag) c then
              (if specScore P.length T.length
                  (commonPrefixLength P1 T1 +
                    countBits (P1.drop (commonPrefixLength P1 T1)).length
                      (refFlag (P1.drop (commonPrefixLength P1 T1))
                        (T1.drop (commonPrefixLength P1 T1)) B).P_flag)
                  (refTrans (P1.drop (commonPrefixLength P1 T1))
                    (T1.drop (commonPrefixLength P1 T1))
                    (refFlag (P1.drop (commonPrefixLength P1 T1))
                      (T1.drop (commonPrefixLength P1 T1)) B).P_flag
                    (refFlag (P1.drop (commonPrefixLength P1 T1))
                      (T1.drop (commonPrefixLength P1 T1)) B).T_flag) ≥ c
                then specScore P.length T.length
                  (commonPrefixLength P1 T1 +
                    countBits (P1.drop (commonPrefixLength P1 T1)).length
                      (refFlag (P1.drop (commonPrefixLength P1 T1))
                        (T1.drop (commonPrefixLength P1 T1)) B).P_flag)
                  (refTrans (P1.drop (commonPrefixLength P1 T1))
                    (T1.drop (commonPrefixLength P1 T1))
                    (refFlag (P1.drop (commonPrefixLength P1 T1))
                      (T1.drop (commonPrefixLength P1 T1)) B).P_flag
                    (refFlag (P1.drop (commonPrefixLength P1 T1))
                      (T1.drop (commonPrefixLength P1 T1)) B).T_flag)
                else 0)
            else 0) := by
          by_cases hw2 : ((P1.drop (commonPrefixLength P1 T1)).length ≤ 64 ∧
              (T1.drop (commonPrefixLength P1 T1)).length ≤ 64)
          · obtain ⟨r1, r2⟩ := word_path_ref_counts
              (P1.drop (commonPrefixLength P1 T1))
              (T1.drop (commonPrefixLength P1 T1)) B hw2.1 hw2.2
            have hCpl : commonPrefixLength P1 T1 + count_common_chars_word
                (flag_similar_characters_word
                  (occMask (P1.drop (commonPrefixLength P1 T1)))
                  (T1.drop (commonPrefixLength P1 T1)) B) =
                commonPrefixLength P1 T1 +
                  countBits (P1.drop (commonPrefixLength P1 T1)).length
                    (refFlag (P1.drop (commonPrefixLength P1 T1))
                      (T1.drop (commonPrefixLength P1 T1)) B).P_flag := by
              rw [r1]
            cases hccf : jaro_common_char_filter P.length T.length
                (commonPrefixLength P1 T1 +
                  countBits (P1.drop (commonPrefixLength P1 T1)).length
                    (refFlag (P1.drop (commonPrefixLength P1 T1))
                      (T1.drop (commonPrefixLength P1 T1)) B).P_flag) c with
            | false =>
              have hccfR : jaro_common_char_filter P.length T.length
                  (commonPrefixLength P1 T1 + count_common_chars_word
                    (flag_similar_characters_word
                      (occMask (P1.drop (commonPrefixLength P1 T1)))
                      (T1.drop (commonPrefixLength P1 T1)) B)) c = false := by
                rw [hCpl]
                exact hccf
              rw [((hevR.2 hempty2).1 hw2).1 hccfR]
              simp
            | true =>
              have hccfR : jaro_common_char_filter P.length T.length
                  (commonPrefixLength P1 T1 + count_common_chars_word
                    (flag_similar_characters_word
                      (occMask (P1.drop (commonPrefixLength P1 T1)))
                      (T1.drop (commonPrefixLength P1 T1)) B)) c = true := by
                rw [hCpl]
                exact hccf
              rw [((hevR.2 hempty2).1 hw2).2 hccfR, hCpl, r2]
              simp
          · obtain ⟨r1, r2⟩ := block_path_ref_counts
              (P1.drop (commonPrefixLength P1 T1))
              (T1.drop (commonPrefixLength P1 T1)) B hB0 hP2ne hguard2
            have hCpl : commonPrefixLength P1 T1 + count_common_chars_multiword
                (flag_similar_characters_block
                  (blockGet (P1.drop (commonPrefixLength P1 T1)))
                  (P1.drop (commonPrefixLength P1 T1)).length
                  (T1.drop (commonPrefixLength P1 T1)) B) =
                commonPrefixLength P1 T1 +
                  countBits (P1.drop (commonPrefixLength P1 T1)).length
                    (refFlag (P1.drop (commonPrefixLength P1 T1))
                      (T1.drop (commonPrefixLength P1 T1)) B).P_flag := by
              rw [r1]
            cases hccf : jaro_common_char_filter P.length T.length
                (commonPrefixLength P1 T1 +
                  countBits (P1.drop (commonPrefixLength P1 T1)).length
                    (refFlag (P1.drop (commonPrefixLength P1 T1))
                      (T1.drop (commonPrefixLength P1 T1)) B).P_flag) c with
            | false =>
              have hccfR : jaro_common_char_filter P.length T.length
                  (commonPrefixLength P1 T1 + count_common_chars_multiword
                    (flag_similar_characters_block
                      (blockGet (P1.drop (commonPrefixLength P1 T1)))
                      (P1.drop (commonPrefixLength P1 T1)).length
                      (T1.drop (commonPrefixLength P1 T1)) B)) c = false := by
                rw [hCpl]
                exact hccf
              rw [((hevR.2 hempty2).2 hw2).1 hccfR]
              simp
            | true =>
              have hccfR : jaro_common_char_filter P.length T.length
                  (commonPrefixLength P1 T1 + count_common_chars_multiword
                    (flag_similar_characters_block
                      (blockGet (P1.drop (commonPrefixLength P1 T1)))
                      (P1.drop (commonPrefixLength P1 T1)).length
                      (T1.drop (commonPrefixLength P1 T1)) B)) c = true := by
                rw [hCpl]
                exact hccf
              rw [((hevR.2 hempty2).2 hw2).2 hccfR, r2, hCpl]
              simp
        rw [hpmval, hplval]

/-! ## The SIMD batched scorer, one lane (`jaro_similarity_simd`, line 454) -/

/-- Modelled from the spec: `bit_mask_lsb<VecType>` for a `w`-bit lane
type (`details/intrinsics.hpp`, not under `src/`) — saturates at the lane
width. -/
def bit_mask_lsbW (w : Nat) (n : Int) : Nat :=
  if n ≤ 0 then 0
  else if n < (w : Int) then (1 <<< n.toNat) - 1
  else (1 <<< w) - 1

/-- Bitwise complement within a `w`-bit lane. -/
def compW (w n : Nat) : Nat := (2 ^ w - 1) ^^^ n

/-- Modelled from the spec: the `w`-bit occurrence slot a lane reads from
the packed `BlockPatternMatchVector` of the batch (each pattern of the
batch occupies one `w`-bit slot of the 64-bit words; for a pattern of
length `≤ w` the slot is its occurrence mask truncated to `w` bits). -/
def laneGet (w : Nat) (P : List Nat) (c : Nat) : Nat := occMask P c &&& (2 ^ w - 1)

/-- One lane of the SIMD flagging loop (lines 517–528), with the vector
intrinsics (`andnot`, `blsi`, lane-wise shift, compare and blend — from
the SIMD headers, not under `src/`, modelled from the spec) projected to
this lane: `PM_j = (X & boundMask) & ~P_flag`; the lane's text-flag bit
is the current `counter` (which shifts and **wraps at `w` bits**), and the
bound mask grows by one bit while `boundMask ≤ boundMaskSize`, both masks
saturating at the lane width. -/
def simd_lane_flag (w : Nat) (get : Nat → Nat) (bms : Nat) :
    List Nat → FlaggedCharsWord → Nat → Nat → FlaggedCharsWord
  | [], fl, _, _ => fl
  | ch :: rest, fl, counter, boundMask =>
      let X := get ch
      let PM_j := X &&& boundMask &&& compW w fl.P_flag
      let fl' : FlaggedCharsWord :=
        ⟨fl.P_flag ||| blsi PM_j, fl.T_flag ||| (if PM_j ≠ 0 then counter else 0)⟩
      simd_lane_flag w get bms rest fl' ((counter <<< 1) % 2 ^ w)
        (((boundMask <<< 1) % 2 ^ w) ||| (if boundMask ≤ bms then 1 else 0))

/-- One lane of `jaro_similarity_simd` (line 454) for a batch whose lanes
all hold the same pattern (so the batch-wide `lastRelevantChar` equals
this lane's `s1_len + Bound`): the degenerate branches (lines 473–485),
the per-lane bound masks (lines 495–505), the shared suffix trim of the
text (line 507), the lane flagging loop, and the per-lane scoring tail
(lines 535–564), which filters on the original lengths, counts the lane's
transpositions with the scalar word-path walk over the **untrimmed** text
and thresholds the score. -/
def jaro_similarity_simd_lane (w : Nat) (P T : List Nat) (score_cutoff : ℚ) : ℚ :=
  if 1 < score_cutoff then 0
  else if T.length = 0 then (if P.length = 0 then 1 else 0)
  else
    let Bound := jaro_bounds_len P.length T.length
    let boundMaskSize := bit_mask_lsbW w (2 * Bound)
    let boundMask0 := bit_mask_lsbW w (Bound + 1)
    let lastRelevantChar := (P.length : Int) + Bound
    let s2cur := if (T.length : Int) > lastRelevantChar then T.take lastRelevantChar.toNat
      else T
    let fl := simd_lane_flag w (laneGet w P) boundMaskSize s2cur ⟨0, 0⟩ 1 boundMask0
    let CommonChars := countBits w fl.P_flag
    if !jaro_common_char_filter P.length T.length CommonChars score_cutoff then 0
    else
      let Transpositions := count_transpositions_word (laneGet w P) T fl
      let Sim := jaro_calculate_similarity P.length T.length CommonChars Transpositions
      if Sim ≥ score_cutoff then Sim else 0

/-- C8: refuted — a SIMD lane does **not** always match the scalar
single-pair similarity.  On an 8-bit lane the bound mask saturates at the
lane width (`bit_mask_lsb<VecType>(Bound+1)` with `Bound + 1 > 8` is
all-ones and then never stops growing back to all-ones), so the sliding
window never slides, and the lane's text-position counter wraps after 8
steps.  Against pattern `[1,2]` and the 20-symbol text with a `1` at
position 10 (all other symbols `9`) at cutoff 0, the lane flags reference
position 0 from text position 10 — a position the scalar window
`[10−9, 10+9]` excludes — and reports `31/60`, while the scalar entry
point returns `0`. -/
theorem simd_lane_diverges :
    jaro_similarity_simd_lane 8 [1, 2]
        (List.replicate 10 9 ++ 1 :: List.replicate 9 9) 0 = 31 / 60 ∧
    jaro_similarity [1, 2] (List.replicate 10 9 ++ 1 :: List.replicate 9 9) 0 = 0 ∧
    ((31 / 60 : ℚ) ≠ 0) := by
  have hT20 : (List.replicate 10 9 ++ 1 :: List.replicate 9 9).length = 20 := by decide
  refine ⟨?_, ?_, by norm_num⟩
  · unfold jaro_similarity_simd_lane
    have hlen0 : ¬ ((List.replicate 10 9 ++ 1 :: List.replicate 9 9 : List Nat).length = 0) := by
      decide
    rw [if_neg (show ¬ (1 : ℚ) < 0 by norm_num), if_neg hlen0]
    dsimp only
    have e1 : jaro_bounds_len [1, 2].length
        (List.replicate 10 9 ++ 1 :: List.replicate 9 9).length = 9 := by decide
    rw [e1]
    have econd : (((List.replicate 10 9 ++ 1 :: List.replicate 9 9) : List Nat).length : Int) >
        (([1, 2] : List Nat).length : Int) + 9 := by decide
    rw [if_pos econd]
    have e3 : ((([1, 2] : List Nat).length : Int) + 9).toNat = 11 := by decide
    rw [e3]
    have e4 : simd_lane_flag 8 (laneGet 8 [1, 2]) (bit_mask_lsbW 8 (2 * 9))
        ((List.replicate 10 9 ++ 1 :: List.replicate 9 9).take 11) ⟨0, 0⟩ 1
        (bit_mask_lsbW 8 (9 + 1)) = ⟨1, 0⟩ := by decide
    rw [e4]
    have e5 : countBits 8 (FlaggedCharsWord.mk 1 0).P_flag = 1 := by decide
    rw [e5]
    rw [jaro_common_char_filter_zero (show (1 : Nat) ≠ 0 by decide)]
    simp only [Bool.not_true, Bool.false_eq_true, if_false]
    have e7 : count_transpositions_word (laneGet 8 [1, 2])
        (List.replicate 10 9 ++ 1 :: List.replicate 9 9) ⟨1, 0⟩ = 0 := by decide
    rw [e7]
    have e8 : jaro_calculate_similarity [1, 2].length
        (List.replicate 10 9 ++ 1 :: List.replicate 9 9).length 1 0 = 31 / 60 := by
      rw [show [1, 2].length = 2 from rfl, hT20]
      unfold jaro_calculate_similarity
      norm_num
    rw [e8, if_pos (show (31 / 60 : ℚ) ≥ 0 by norm_num)]
  · have hbt : jaro_bounds_trim [1, 2] (List.replicate 10 9 ++ 1 :: List.replicate 9 9) =
        (9, [1, 2], (List.replicate 10 9 ++ 1 :: List.replicate 9 9).take 11) := by decide
    have hev := jaro_eval_main [1, 2] (List.replicate 10 9 ++ 1 :: List.replicate 9 9) 0 9
      [1, 2] ((List.replicate 10 9 ++ 1 :: List.replicate 9 9).take 11)
      (by norm_num) (by decide) (jaro_length_filter_zero (by decide) (by decide))
      (by decide) hbt
    have hne' : ¬((([1, 2] : List Nat).drop (commonPrefixLength [1, 2]
        ((List.replicate 10 9 ++ 1 :: List.replicate 9 9).take 11))).length = 0 ∨
        (((List.replicate 10 9 ++ 1 :: List.replicate 9 9).take 11).drop
          (commonPrefixLength [1, 2]
            ((List.replicate 10 9 ++ 1 :: List.replicate 9 9).take 11))).length = 0) := by
      decide
    have hword : (([1, 2] : List Nat).drop (commonPrefixLength [1, 2]
        ((List.replicate 10 9 ++ 1 :: List.replicate 9 9).take 11))).length ≤ 64 ∧
        (((List.replicate 10 9 ++ 1 :: List.replicate 9 9).take 11).drop
          (commonPrefixLength [1, 2]
            ((List.replicate 10 9 ++ 1 :: List.replicate 9 9).take 11))).length ≤ 64 := by
      decide
    have hccf : jaro_common_char_filter [1, 2].length
        (List.replicate 10 9 ++ 1 :: List.replicate 9 9).length
        (commonPrefixLength [1, 2] ((List.replicate 10 9 ++ 1 :: List.replicate 9 9).take 11) +
          count_common_chars_word (flag_similar_characters_word
            (occMask (([1, 2] : List Nat).drop (commonPrefixLength [1, 2]
              ((List.replicate 10 9 ++ 1 :: List.replicate 9 9).take 11))))
            (((List.replicate 10 9 ++ 1 :: List.replicate 9 9).take 11).drop
              (commonPrefixLength [1, 2]
                ((List.replicate 10 9 ++ 1 :: List.replicate 9 9).take 11))) 9)) 0 =
        false := by decide
    exact ((hev.2 hne').1 hword).1 hccf

/-! ## Per-symbol greedy matching (toward symmetry of the entry point) -/

/-- Positions `i < j` of `L` holding symbol `s`, in increasing order. -/
def posOf (L : List Nat) (j : Nat) (s : Nat) : List Nat :=
  (List.range j).filter (fun i => decide (L.getD i 0 = s))

/-- The class-local greedy matching: for each text position (second list,
in order) take the lowest remaining reference position (first list) inside
its window.  Returns the matched pairs and the remaining reference
positions. -/
def greedyT (B : Int) : List Nat → List Nat → List (Nat × Nat) × List Nat
  | ps, [] => ([], ps)
  | ps, t :: ts =>
      match ps.find? (fun p => refWindow B t p) with
      | some p => ((p, t) :: (greedyT B (ps.erase p) ts).1, (greedyT B (ps.erase p) ts).2)
      | none => greedyT B ps ts

theorem greedyT_cons_some {B : Int} {t p : Nat} {ps ts : List Nat}
    (h : ps.find? (fun q => refWindow B t q) = some p) :
    greedyT B ps (t :: ts) =
      ((p, t) :: (greedyT B (ps.erase p) ts).1, (greedyT B (ps.erase p) ts).2) := by
  rw [greedyT, h]

theorem greedyT_cons_none {B : Int} {t : Nat} {ps ts : List Nat}
    (h : ps.find? (fun q => refWindow B t q) = none) :
    greedyT B ps (t :: ts) = greedyT B ps ts := by
  rw [greedyT, h]

theorem greedyT_nil_left (B : Int) : ∀ ts, greedyT B [] ts = ([], []) := by
  intro ts
  induction ts with
  | nil => rfl
  | cons t ts ih =>
    have hf : ([] : List Nat).find? (fun q => refWindow B t q) = none := rfl
    rw [greedyT_cons_none hf]
    exact ih

theorem greedyT_append (B : Int) : ∀ (ts us ps : List Nat),
    greedyT B ps (ts ++ us) =
      ((greedyT B ps ts).1 ++ (greedyT B (greedyT B ps ts).2 us).1,
       (greedyT B (greedyT B ps ts).2 us).2) := by
  intro ts
  induction ts with
  | nil => intro us ps; rfl
  | cons t ts ih =>
    intro us ps
    rw [List.cons_append]
    cases h : ps.find? (fun q => refWindow B t q) with
    | some p =>
      rw [greedyT_cons_some h, greedyT_cons_some h, ih]
      rfl
    | none =>
      rw [greedyT_cons_none h, greedyT_cons_none h, ih]

theorem refWindow_symm (B : Int) (t p : Nat) : refWindow B p t = refWindow B t p := by
  unfold refWindow
  rw [show decide ((p : Int) - B ≤ (t : Int)) = decide ((p : Int) ≤ (t : Int) + B) from
      decide_eq_decide.mpr (by omega),
    show decide ((t : Int) ≤ (p : Int) + B) = decide ((t : Int) - B ≤ (p : Int)) from
      decide_eq_decide.mpr (by omega),
    Bool.and_comm]

theorem greedyT_mem (B : Int) : ∀ (ts ps : List Nat) (pr : Nat × Nat),
    pr ∈ (greedyT B ps ts).1 → pr.1 ∈ ps ∧ pr.2 ∈ ts := by
  intro ts
  induction ts with
  | nil =>
    intro ps pr h
    simp [greedyT] at h
  | cons t ts ih =>
    intro ps pr h
    cases hf : ps.find? (fun q => refWindow B t q) with
    | some p =>
      rw [greedyT_cons_some hf] at h
      rcases List.mem_cons.mp h with h | h
      · subst h
        exact ⟨List.mem_of_find?_eq_some hf, List.mem_cons_self _ _⟩
      · obtain ⟨h1, h2⟩ := ih (ps.erase p) pr h
        exact ⟨List.mem_of_mem_erase h1, List.mem_cons_of_mem _ h2⟩
    | none =>
      rw [greedyT_cons_none hf] at h
      obtain ⟨h1, h2⟩ := ih ps pr h
      exact ⟨h1, List.mem_cons_of_mem _ h2⟩

theorem greedyT_skip (B : Int) (p : Nat) : ∀ (ts ps' : List Nat),
    (∀ t ∈ ts, refWindow B t p = false) →
    (greedyT B (p :: ps') ts).1 = (greedyT B ps' ts).1 ∧
    (greedyT B (p :: ps') ts).2 = p :: (greedyT B ps' ts).2 := by
  intro ts
  induction ts with
  | nil => intro ps' _; exact ⟨rfl, rfl⟩
  | cons t ts ih =>
    intro ps' hw
    have hp : refWindow B t p = false := hw t (List.mem_cons_self _ _)
    have hwrest : ∀ t'' ∈ ts, refWindow B t'' p = false :=
      fun t'' ht'' => hw t'' (List.mem_cons_of_mem _ ht'')
    cases hf : ps'.find? (fun q => refWindow B t q) with
    | some q =>
      have hf' : (p :: ps').find? (fun q => refWindow B t q) = some q := by
        rw [List.find?_cons_of_neg _ (by simp [hp]), hf]
      have hqp : ¬ p = q := by
        intro hqp'
        have := List.find?_some hf
        rw [← hqp', hp] at this
        cases this
      have herase : (p :: ps').erase q = p :: ps'.erase q := by
        rw [List.erase_cons_tail]
        simp [hqp]
      rw [greedyT_cons_some hf', greedyT_cons_some hf, herase]
      obtain ⟨h1, h2⟩ := ih (ps'.erase q) hwrest
      exact ⟨by rw [h1], by rw [h2]⟩
    | none =>
      have hf' : (p :: ps').find? (fun q => refWindow B t q) = none := by
        rw [List.find?_cons_of_neg _ (by simp [hp]), hf]
      rw [greedyT_cons_none hf', greedyT_cons_none hf]
      exact ih ps' hwrest

theorem greedyT_swap_aux (B : Int) : ∀ (n : Nat) (ps ts : List Nat),
    ps.length + ts.length ≤ n →
    List.Pairwise (· < ·) ps → List.Pairwise (· < ·) ts →
    (greedyT B ts ps).1 = ((greedyT B ps ts).1).map Prod.swap := by
  intro n
  induction n with
  | zero =>
    intro ps ts hlen _ _
    have hps : ps = [] := List.length_eq_zero.mp (by omega)
    have hts : ts = [] := List.length_eq_zero.mp (by omega)
    subst hps
    subst hts
    rfl
  | succ n ih =>
    intro ps ts hlen hsp hst
    cases ts with
    | nil =>
      rw [greedyT_nil_left]
      rfl
    | cons t ts' =>
      cases ps with
      | nil =>
        rw [greedyT_nil_left]
        rfl
      | cons p ps' =>
        obtain ⟨hpHead, hsp'⟩ := List.pairwise_cons.mp hsp
        obtain ⟨htHead, hst'⟩ := List.pairwise_cons.mp hst
        by_cases hw : refWindow B t p = true
        · have hfP : (p :: ps').find? (fun q => refWindow B t q) = some p :=
            List.find?_cons_of_pos _ hw
          have hfT : (t :: ts').find? (fun q => refWindow B p q) = some t :=
            List.find?_cons_of_pos _ (by rw [refWindow_symm]; exact hw)
          rw [greedyT_cons_some hfT, greedyT_cons_some hfP, List.erase_cons_head,
            List.erase_cons_head, List.map_cons]
          exact congrArg _ (ih ps' ts' (by simp at hlen ⊢; omega) hsp' hst')
        · have hwin : ¬((t : Int) - B ≤ (p : Int) ∧ (p : Int) ≤ (t : Int) + B) := by
            intro hcon
            apply hw
            unfold refWindow
            rw [decide_eq_true hcon.1, decide_eq_true hcon.2]
            rfl
          by_cases hlo : (p : Int) < (t : Int) - B
          · have hfT : (t :: ts').find? (fun q => refWindow B p q) = none := by
              rw [List.find?_eq_none]
              intro t'' ht''
              have ht2 : (t : Int) ≤ (t'' : Int) := by
                rcases List.mem_cons.mp ht'' with h | h
                · omega

                · have := htHead t'' h
                  omega
              unfold refWindow
              simp only [Bool.and_eq_true, decide_eq_true_eq]
              omega
            have hskip := greedyT_skip B p (t :: ts') ps' (by
              intro t'' ht''
              have ht2 : (t : Int) ≤ (t'' : Int) := by
                rcases List.mem_cons.mp ht'' with h | h
                · omega
                · have := htHead t'' h
                  omega
              unfold refWindow
              rw [decide_eq_false (by omega : ¬ ((t'' : Int) - B ≤ (p : Int)))]
              rfl)
            rw [greedyT_cons_none hfT, hskip.1]
            exact ih ps' (t :: ts') (by simp at hlen ⊢; omega) hsp' hst
          · have hhi : (t : Int) + B < (p : Int) := by omega
            have hfP : (p :: ps').find? (fun q => refWindow B t q) = none := by
              rw [List.find?_eq_none]
              intro p'' hp''
              have hp2 : (p : Int) ≤ (p'' : Int) := by
                rcases List.mem_cons.mp hp'' with h | h
                · omega
                · have := hpHead p'' h
                  omega
              unfold refWindow
              simp only [Bool.and_eq_true, decide_eq_true_eq]
              omega
            have hskip := greedyT_skip B t (p :: ps') ts' (by
              intro p'' hp''
              have hp2 : (p : Int) ≤ (p'' : Int) := by
                rcases List.mem_cons.mp hp'' with h | h
                · omega
                · have := hpHead p'' h
                  omega
              unfold refWindow
              rw [decide_eq_false (by omega : ¬ ((p'' : Int) - B ≤ (t : Int)))]
              rfl)
            rw [greedyT_cons_none hfP, hskip.1]
            exact ih (p :: ps') ts' (by simp at hlen ⊢; omega) hsp hst'

theorem greedyT_swap (B : Int) (ps ts : List Nat)
    (hp : List.Pairwise (· < ·) ps) (ht : List.Pairwise (· < ·) ts) :
    (greedyT B ts ps).1 = ((greedyT B ps ts).1).map Prod.swap :=
  greedyT_swap_aux B (ps.length + ts.length) ps ts (le_refl _) hp ht

theorem posOf_sorted (L : List Nat) (j s : Nat) : List.Pairwise (· < ·) (posOf L j s) :=
  (List.pairwise_lt_range j).filter _

theorem posOf_nodup (L : List Nat) (j s : Nat) : (posOf L j s).Nodup :=
  (List.nodup_range j).filter _

theorem posOf_mem {L : List Nat} {j s q : Nat} :
    q ∈ posOf L j s ↔ q < j ∧ L.getD q 0 = s := by
  unfold posOf
  simp [List.mem_filter, List.mem_range]

theorem posOf_succ (L : List Nat) (j s : Nat) :
    posOf L (j + 1) s = posOf L j s ++ (if L.getD j 0 = s then [j] else []) := by
  unfold posOf
  rw [List.range_succ, List.filter_append]
  congr 1
  by_cases h : L.getD j 0 = s
  · rw [if_pos h]
    simp only [List.filter_cons, List.filter_nil]
    rw [if_pos (by exact decide_eq_true h)]
  · rw [if_neg h]
    simp only [List.filter_cons, List.filter_nil]
    rw [if_neg (by rw [decide_eq_false h]; exact Bool.false_ne_true)]

theorem findLowest_top (f : Nat → Bool) : ∀ (r s : Nat),
    findLowest f s (r + 1) =
      match findLowest f s r with
      | some p => some p
      | none => if f (s + r) then some (s + r) else none := by
  intro r
  induction r with
  | zero => intro s; rfl
  | succ r ih =>
    intro s
    rw [findLowest]
    by_cases hf : f s
    · rw [if_pos hf, findLowest, if_pos hf]
    · rw [if_neg hf, ih (s + 1), findLowest, if_neg hf,
        show s + 1 + r = s + (r + 1) from by omega]

theorem find?_filter_range (g f : Nat → Bool) : ∀ n,
    ((List.range n).filter g).find? f = findLowest (fun p => g p && f p) 0 n := by
  intro n
  induction n with
  | zero => rfl
  | succ n ih =>
    rw [List.range_succ, List.filter_append, List.find?_append, ih, findLowest_top,
      Nat.zero_add]
    cases hres : findLowest (fun p => g p && f p) 0 n with
    | some p => rfl
    | none =>
      by_cases hg : g n
      · by_cases hfn : f n
        · rw [show List.filter g [n] = [n] from by simp [hg],
            List.find?_cons_of_pos _ hfn]
          simp [hg, hfn]
        · rw [show List.filter g [n] = [n] from by simp [hg],
            List.find?_cons_of_neg _ (by simp [hfn])]
          simp [hg, hfn]
      · rw [show List.filter g [n] = ([] : List Nat) from by simp [hg]]
        simp [hg]

theorem refStep_find_eq (P : List Nat) (B : Int) (fl : FlaggedCharsWord) (c j : Nat) :
    findLowest (refCond P B fl c j) 0 P.length =
      ((posOf P P.length c).filter (fun p => !fl.P_flag.testBit p)).find?
        (fun p => refWindow B j p) := by
  unfold posOf
  rw [List.filter_filter, find?_filter_range]
  congr 1
  funext p
  dsimp only
  unfold refCond
  rw [Bool.and_comm (!fl.P_flag.testBit p) (decide (P.getD p 0 = c))]

theorem map_fst_swap (L : List (Nat × Nat)) :
    (L.map Prod.swap).map Prod.fst = L.map Prod.snd := by
  rw [List.map_map]
  rfl

theorem map_snd_swap (L : List (Nat × Nat)) :
    (L.map Prod.swap).map Prod.snd = L.map Prod.fst := by
  rw [List.map_map]
  rfl

theorem bool_eq_of_iff {a b : Bool} (h : a = true ↔ b = true) : a = b := by
  cases a <;> cases b <;> simp_all

/-- Run invariant of the reference flagger: after the first `j` text
positions, within every symbol class the remaining unflagged reference
positions and the flag bits on both sides are exactly described by the
class-local greedy matching `greedyT`. -/
def flagInv (P T : List Nat) (B : Int) (j : Nat) (fl : FlaggedCharsWord) : Prop :=
  (∀ s, (greedyT B (posOf P P.length s) (posOf T j s)).2 =
      (posOf P P.length s).filter (fun p => !fl.P_flag.testBit p)) ∧
  (∀ p, fl.P_flag.testBit p = true ↔
      p ∈ ((greedyT B (posOf P P.length (P.getD p 0)) (posOf T j (P.getD p 0))).1.map
        Prod.fst)) ∧
  (∀ t, fl.T_flag.testBit t = true ↔
      t ∈ ((greedyT B (posOf P P.length (T.getD t 0)) (posOf T j (T.getD t 0))).1.map
        Prod.snd))

theorem flagInv_zero (P T : List Nat) (B : Int) : flagInv P T B 0 ⟨0, 0⟩ := by
  unfold flagInv
  dsimp only
  refine ⟨?_, ?_, ?_⟩
  · intro s
    exact (List.filter_eq_self.mpr (fun a _ => by rw [Nat.zero_testBit]; rfl)).symm
  · intro p
    constructor
    · intro h
      rw [Nat.zero_testBit] at h
      cases h
    · intro h
      have h' : p ∈ ([] : List Nat) := h
      cases h'
  · intro t
    constructor
    · intro h
      rw [Nat.zero_testBit] at h
      cases h
    · intro h
      have h' : t ∈ ([] : List Nat) := h
      cases h'

theorem flagInv_step {P T : List Nat} {B : Int} {j : Nat} {fl : FlaggedCharsWord}
    (hinv : flagInv P T B j fl) :
    flagInv P T B (j + 1) (refStep P B j fl (T.getD j 0)) := by
  obtain ⟨inv1, inv2, inv3⟩ := hinv
  have hfind := refStep_find_eq P B fl (T.getD j 0) j
  rw [← inv1 (T.getD j 0)] at hfind
  unfold refStep
  rw [hfind]
  cases hone : (greedyT B (posOf P P.length (T.getD j 0))
      (posOf T j (T.getD j 0))).2.find? (fun p => refWindow B j p) with
  | none =>
    have hnostep : ∀ s, greedyT B (posOf P P.length s) (posOf T (j + 1) s) =
        greedyT B (posOf P P.length s) (posOf T j s) := by
      intro s
      by_cases hs : s = T.getD j 0
      · subst hs
        rw [posOf_succ, if_pos rfl, greedyT_append, greedyT_cons_none hone]
        simp only [greedyT, List.append_nil]
      · rw [posOf_succ, if_neg (fun h => hs h.symm), List.append_nil]
    unfold flagInv
    dsimp only
    refine ⟨?_, ?_, ?_⟩
    · intro s
      rw [hnostep s]
      exact inv1 s
    · intro p
      rw [hnostep (P.getD p 0)]
      exact inv2 p
    · intro t
      rw [hnostep (T.getD t 0)]
      exact inv3 t
  | some p =>
    have hpmem1 : p ∈ (posOf P P.length (T.getD j 0)).filter
        (fun q => !fl.P_flag.testBit q) := by
      rw [← inv1 (T.getD j 0)]
      exact List.mem_of_find?_eq_some hone
    obtain ⟨hppos, hpflag⟩ := List.mem_filter.mp hpmem1
    have hpc : P.getD p 0 = T.getD j 0 := (posOf_mem.mp hppos).2
    have hbitP : ∀ q, (fl.P_flag ||| 1 <<< p).testBit q =
        (fl.P_flag.testBit q || decide (p = q)) := by
      intro q
      rw [Nat.testBit_lor, Nat.one_shiftLeft]
      by_cases h : p = q
      · subst h
        rw [Nat.testBit_two_pow_self, decide_eq_true rfl]
      · rw [Nat.testBit_two_pow_of_ne h, decide_eq_false h]
    have hbitT : ∀ t, (fl.T_flag ||| 1 <<< j).testBit t =
        (fl.T_flag.testBit t || decide (j = t)) := by
      intro t
      rw [Nat.testBit_lor, Nat.one_shiftLeft]
      by_cases h : j = t
      · subst h
        rw [Nat.testBit_two_pow_self, decide_eq_true rfl]
      · rw [Nat.testBit_two_pow_of_ne h, decide_eq_false h]
    have hstep : greedyT B (posOf P P.length (T.getD j 0))
        (posOf T (j + 1) (T.getD j 0)) =
        ((greedyT B (posOf P P.length (T.getD j 0)) (posOf T j (T.getD j 0))).1 ++
            [(p, j)],
         (greedyT B (posOf P P.length (T.getD j 0))
            (posOf T j (T.getD j 0))).2.erase p) := by
      rw [posOf_succ, if_pos rfl, greedyT_append, greedyT_cons_some hone]
      simp only [greedyT]
    have hother : ∀ s, ¬ s = T.getD j 0 → posOf T (j + 1) s = posOf T j s := by
      intro s hs
      rw [posOf_succ, if_neg (fun h => hs h.symm), List.append_nil]
    unfold flagInv
    dsimp only
    refine ⟨?_, ?_, ?_⟩
    · intro s
      by_cases hs : s = T.getD j 0
      · subst hs
        have hflt : (posOf P P.length (T.getD j 0)).filter
            (fun q => !(fl.P_flag ||| 1 <<< p).testBit q) =
            (posOf P P.length (T.getD j 0)).filter
            (fun q => (q != p) && !fl.P_flag.testBit q) :=
          List.filter_congr (fun q _ => by
            rw [hbitP q, Bool.not_or]
            by_cases h : p = q
            · subst h
              simp
            · simp [h, Ne.symm h])
        rw [hstep, hflt]
        have hnd : (greedyT B (posOf P P.length (T.getD j 0))
            (posOf T j (T.getD j 0))).2.Nodup := by
          rw [inv1 (T.getD j 0)]
          exact (posOf_nodup P P.length (T.getD j 0)).filter _
        rw [List.Nodup.erase_eq_filter hnd p, inv1 (T.getD j 0), List.filter_filter]
      · rw [hother s hs, inv1 s]
        refine List.filter_congr ?_
        intro q hq
        have hqs : P.getD q 0 = s := (posOf_mem.mp hq).2
        have hqp : ¬ p = q := by
          intro h
          apply hs
          rw [← hqs, ← h]
          exact hpc
        rw [hbitP q, decide_eq_false hqp, Bool.or_false]
    · intro q
      by_cases hq : q = p
      · subst hq
        have hL : (fl.P_flag ||| 1 <<< q).testBit q = true := by
          rw [hbitP q, decide_eq_true rfl, Bool.or_true]
        refine iff_of_true hL ?_
        rw [hpc, hstep]
        simp [List.map_append]
      · have hbq : (fl.P_flag ||| 1 <<< p).testBit q = fl.P_flag.testBit q := by
          rw [hbitP q, decide_eq_false (fun h => hq h.symm), Bool.or_false]
        rw [hbq]
        by_cases hcls : P.getD q 0 = T.getD j 0
        · rw [hcls, hstep]
          rw [List.map_append, List.mem_append]
          have h2 := inv2 q
          rw [hcls] at h2
          constructor
          · intro hb
            exact Or.inl (h2.mp hb)
          · intro hm
            rcases hm with hm | hm
            · exact h2.mpr hm
            · exfalso
              simp at hm
              exact hq hm
        · rw [hother (P.getD q 0) hcls]
          exact inv2 q
    · intro t
      by_cases ht : t = j
      · subst ht
        have hL : (fl.T_flag ||| 1 <<< t).testBit t = true := by
          rw [hbitT t, decide_eq_true rfl, Bool.or_true]
        refine iff_of_true hL ?_
        rw [hstep]
        simp [List.map_append]
      · have hbt2 : (fl.T_flag ||| 1 <<< j).testBit t = fl.T_flag.testBit t := by
          rw [hbitT t, decide_eq_false (fun h => ht h.symm), Bool.or_false]
        rw [hbt2]
        by_cases hcls : T.getD t 0 = T.getD j 0
        · rw [hcls, hstep]
          rw [List.map_append, List.mem_append]
          have h3 := inv3 t
          rw [hcls] at h3
          constructor
          · intro hb
            exact Or.inl (h3.mp hb)
          · intro hm
            rcases hm with hm | hm
            · exact h3.mpr hm
            · exfalso
              simp at hm
              exact ht hm
        · rw [hother (T.getD t 0) hcls]
          exact inv3 t

theorem refFlagGo_flagInv (P T : List Nat) (B : Int) :
    ∀ (k j : Nat) (fl : FlaggedCharsWord), T.length - j ≤ k → j ≤ T.length →
      flagInv P T B j fl →
      flagInv P T B T.length (refFlagGo P B j fl (T.drop j)) := by
  intro k
  induction k with
  | zero =>
    intro j fl hk hj hinv
    have hje : j = T.length := by omega
    subst hje
    rw [List.drop_length]
    simp only [refFlagGo]
    exact hinv
  | succ k ih =>
    intro j fl hk hj hinv
    by_cases hlt : j < T.length
    · rw [List.drop_eq_getElem_cons hlt]
      simp only [refFlagGo]
      rw [show T[j] = T.getD j 0 from (List.getD_eq_getElem T 0 hlt).symm]
      exact ih (j + 1) _ (by omega) (by omega) (flagInv_step hinv)
    · have hje : j = T.length := by omega
      subst hje
      rw [List.drop_length]
      simp only [refFlagGo]
      exact hinv

theorem refFlag_flagInv (P T : List Nat) (B : Int) :
    flagInv P T B T.length (refFlag P T B) := by
  unfold refFlag
  have h := refFlagGo_flagInv P T B T.length 0 ⟨0, 0⟩ (by omega) (by omega)
    (flagInv_zero P T B)
  rw [List.drop_zero] at h
  exact h

/-- The reference flag run is symmetric: swapping the two sequences
exchanges the two flag words. -/
theorem refFlag_comm (P T : List Nat) (B : Int) :
    refFlag T P B = ⟨(refFlag P T B).T_flag, (refFlag P T B).P_flag⟩ := by
  obtain ⟨-, inv2TP, inv3TP⟩ := refFlag_flagInv T P B
  obtain ⟨-, inv2PT, inv3PT⟩ := refFlag_flagInv P T B
  have hswap : ∀ s, (greedyT B (posOf T T.length s) (posOf P P.length s)).1 =
      ((greedyT B (posOf P P.length s) (posOf T T.length s)).1).map Prod.swap :=
    fun s => greedyT_swap B (posOf P P.length s) (posOf T T.length s)
      (posOf_sorted P P.length s) (posOf_sorted T T.length s)
  have hP : (refFlag T P B).P_flag = (refFlag P T B).T_flag := by
    apply Nat.eq_of_testBit_eq
    intro i
    have h1 := inv2TP i
    rw [hswap (T.getD i 0), map_fst_swap] at h1
    exact bool_eq_of_iff (h1.trans (inv3PT i).symm)
  have hT : (refFlag T P B).T_flag = (refFlag P T B).P_flag := by
    apply Nat.eq_of_testBit_eq
    intro i
    have h1 := inv3TP i
    rw [hswap (P.getD i 0), map_snd_swap] at h1
    exact bool_eq_of_iff (h1.trans (inv2PT i).symm)
  calc refFlag T P B = ⟨(refFlag T P B).P_flag, (refFlag T P B).T_flag⟩ := rfl
    _ = ⟨(refFlag P T B).T_flag, (refFlag P T B).P_flag⟩ := by rw [hP, hT]

/-- Common-character count and transposition count of the reference run
are symmetric in the two sequences. -/
theorem refCounts_comm (P T : List Nat) (B : Int) :
    countBits T.length (refFlag T P B).P_flag =
      countBits P.length (refFlag P T B).P_flag ∧
    refTrans T P (refFlag T P B).P_flag (refFlag T P B).T_flag =
      refTrans P T (refFlag P T B).P_flag (refFlag P T B).T_flag := by
  have hc := refFlag_comm P T B
  obtain ⟨-, -, rcnt⟩ := @refFlag_inv P T B P.length T.length (le_refl _) (le_refl _)
  constructor
  · rw [hc]
    exact rcnt.symm
  · rw [hc]
    unfold refTrans
    dsimp only
    rw [← List.zip_swap, List.countP_map]
    congr 1
    funext pr
    dsimp only [Function.comp, Prod.swap]
    exact decide_eq_decide.mpr ne_comm

theorem cpl_comm : ∀ (a b : List Nat), commonPrefixLength b a = commonPrefixLength a b := by
  intro a
  induction a with
  | nil => intro b; cases b <;> rfl
  | cons x as ih =>
    intro b
    cases b with
    | nil => rfl
    | cons y bs =>
      simp only [commonPrefixLength]
      by_cases h : x = y
      · rw [if_pos h.symm, if_pos h, ih bs]
      · rw [if_neg (fun hh => h hh.symm), if_neg h]

theorem specScore_comm (a b C t : Nat) : specScore b a C t = specScore a b C t := by
  unfold specScore
  ring

theorem jaro_length_filter_comm (a b : Nat) (c : ℚ) :
    jaro_length_filter b a c = jaro_length_filter a b c := by
  unfold jaro_length_filter
  by_cases h : a = 0 ∨ b = 0
  · rw [if_pos h, if_pos (Or.symm h)]
  · rw [if_neg h, if_neg (fun hh => h (Or.symm hh))]
    have harith : ((min b a : Nat) : ℚ) / (b : ℚ) + ((min b a : Nat) : ℚ) / (a : ℚ) =
        ((min a b : Nat) : ℚ) / (a : ℚ) + ((min a b : Nat) : ℚ) / (b : ℚ) := by
      rw [Nat.min_comm b a]
      ring
    dsimp only
    rw [harith]

theorem jaro_common_char_filter_comm (a b C : Nat) (c : ℚ) :
    jaro_common_char_filter b a C c = jaro_common_char_filter a b C c := by
  unfold jaro_common_char_filter
  by_cases h : C = 0
  · rw [if_pos h, if_pos h]
  · rw [if_neg h, if_neg h,
      show ((C : ℚ) / (b : ℚ) + (C : ℚ) / (a : ℚ)) =
        ((C : ℚ) / (a : ℚ) + (C : ℚ) / (b : ℚ)) from by ring]

/-- Outside the degenerate `1×1`/empty cases, the trimming overload is
symmetric: swapping the inputs swaps the two kept ranges and keeps the
bound. -/
theorem jaro_bounds_trim_comm {P T : List Nat} {B : Int} {P1 T1 : List Nat}
    (h11 : ¬(P.length = 1 ∧ T.length = 1))
    (hP0 : P.length ≠ 0) (hT0 : T.length ≠ 0)
    (hbt : jaro_bounds_trim P T = (B, P1, T1)) :
    jaro_bounds_trim T P = (B, T1, P1) := by
  rcases Nat.lt_trichotomy P.length T.length with hlt | heq | hgt
  · rw [(jaro_bounds_trim_spec P T).1 hlt] at hbt
    rw [(jaro_bounds_trim_spec T P).2 (by omega)]
    simp only [Prod.mk.injEq] at hbt
    obtain ⟨hB, hP1, hT1⟩ := hbt
    rw [← hB, ← hP1, ← hT1]
  · have hn2 : 2 ≤ P.length := by
      rcases Nat.lt_or_ge P.length 2 with h | h
      · exfalso
        apply h11
        omega
      · exact h
    rw [(jaro_bounds_trim_spec P T).2 (by omega),
      if_neg (by omega : ¬ (P.length : Int) > (T.length : Int) +
        ((P.length : Int) / 2 - 1))] at hbt
    rw [(jaro_bounds_trim_spec T P).2 (by omega),
      if_neg (by omega : ¬ (T.length : Int) > (P.length : Int) +
        ((T.length : Int) / 2 - 1))]
    simp only [Prod.mk.injEq] at hbt
    obtain ⟨hB, hP1, hT1⟩ := hbt
    rw [← hB, ← hP1, ← hT1, heq]
  · rw [(jaro_bounds_trim_spec P T).2 (by omega)] at hbt
    rw [(jaro_bounds_trim_spec T P).1 hgt]
    simp only [Prod.mk.injEq] at hbt
    obtain ⟨hB, hP1, hT1⟩ := hbt
    rw [← hB, ← hP1, ← hT1]

/-- **C5**: `jaro_similarity(A, B, cutoff) = jaro_similarity(B, A, cutoff)`
for all sequences and any common cutoff — the returned score is symmetric
even though the algorithm treats the two arguments asymmetrically
(occurrence index over the first, scan over the second, trimming chosen
by which side is longer). -/
theorem similarity_symmetric (P T : List Nat) (c : ℚ) :
    jaro_similarity P T c = jaro_similarity T P c := by
  by_cases hgt : 1 < c
  · rw [jaro_eval_gt1 P T hgt, jaro_eval_gt1 T P hgt]
  by_cases hboth : P.length = 0 ∧ T.length = 0
  · rw [jaro_eval_both P T hgt hboth, jaro_eval_both T P hgt ⟨hboth.2, hboth.1⟩]
  have hboth' : ¬(T.length = 0 ∧ P.length = 0) := fun h => hboth ⟨h.2, h.1⟩
  cases hlf : jaro_length_filter P.length T.length c with
  | false =>
    rw [jaro_eval_lenrej P T hgt hboth hlf,
      jaro_eval_lenrej T P hgt hboth' (by rw [jaro_length_filter_comm]; exact hlf)]
  | true =>
    have hlf' : jaro_length_filter T.length P.length c = true := by
      rw [jaro_length_filter_comm]
      exact hlf
    obtain ⟨hP0, hT0⟩ := jaro_length_filter_nonzero hlf
    by_cases h11 : P.length = 1 ∧ T.length = 1
    · rw [jaro_eval_11 P T hgt hboth hlf h11,
        jaro_eval_11 T P hgt hboth' hlf' ⟨h11.2, h11.1⟩]
      by_cases heq : P.getD 0 0 = T.getD 0 0
      · rw [if_pos heq, if_pos heq.symm]
      · rw [if_neg heq, if_neg (fun h => heq h.symm)]
    · have h11' : ¬(T.length = 1 ∧ P.length = 1) := fun h => h11 ⟨h.2, h.1⟩
      rcases hbt : jaro_bounds_trim P T with ⟨B, P1, T1⟩
      have hbt' : jaro_bounds_trim T P = (B, T1, P1) :=
        jaro_bounds_trim_comm h11 hP0 hT0 hbt
      have hevPT := jaro_eval_main P T c B P1 T1 hgt hboth hlf h11 hbt
      have hevTP := jaro_eval_main T P c B T1 P1 hgt hboth' hlf' h11' hbt'
      rw [cpl_comm P1 T1] at hevTP
      by_cases hempty : (P1.drop (commonPrefixLength P1 T1)).length = 0 ∨
          (T1.drop (commonPrefixLength P1 T1)).length = 0
      · rw [hevPT.1 hempty, hevTP.1 (Or.symm hempty),
          specScore_comm P.length T.length (commonPrefixLength P1 T1) 0]
      · have hempty' : ¬((T1.drop (commonPrefixLength P1 T1)).length = 0 ∨
            (P1.drop (commonPrefixLength P1 T1)).length = 0) :=
          fun h => hempty (Or.symm h)
        have hne := hempty
        push_neg at hne
        have hPT2 := hevPT.2 hempty
        have hTP2 := hevTP.2 hempty'
        have hcc := refCounts_comm (P1.drop (commonPrefixLength P1 T1))
          (T1.drop (commonPrefixLength P1 T1)) B
        by_cases hword : (P1.drop (commonPrefixLength P1 T1)).length ≤ 64 ∧
            (T1.drop (commonPrefixLength P1 T1)).length ≤ 64
        · have hword' : (T1.drop (commonPrefixLength P1 T1)).length ≤ 64 ∧
              (P1.drop (commonPrefixLength P1 T1)).length ≤ 64 := ⟨hword.2, hword.1⟩
          have hcwPT := word_path_ref_counts (P1.drop (commonPrefixLength P1 T1))
            (T1.drop (commonPrefixLength P1 T1)) B hword.1 hword.2
          have hcwTP := word_path_ref_counts (T1.drop (commonPrefixLength P1 T1))
            (P1.drop (commonPrefixLength P1 T1)) B hword.2 hword.1
          have hCeq : count_common_chars_word (flag_similar_characters_word
                (occMask (T1.drop (commonPrefixLength P1 T1)))
                (P1.drop (commonPrefixLength P1 T1)) B) =
              count_common_chars_word (flag_similar_characters_word
                (occMask (P1.drop (commonPrefixLength P1 T1)))
                (T1.drop (commonPrefixLength P1 T1)) B) := by
            rw [hcwTP.1, hcc.1, ← hcwPT.1]
          have hTeq : count_transpositions_word
                (occMask (T1.drop (commonPrefixLength P1 T1)))
                (P1.drop (commonPrefixLength P1 T1))
                (flag_similar_characters_word
                  (occMask (T1.drop (commonPrefixLength P1 T1)))
                  (P1.drop (commonPrefixLength P1 T1)) B) =
              count_transpositions_word
                (occMask (P1.drop (commonPrefixLength P1 T1)))
                (T1.drop (commonPrefixLength P1 T1))
                (flag_similar_characters_word
                  (occMask (P1.drop (commonPrefixLength P1 T1)))
                  (T1.drop (commonPrefixLength P1 T1)) B) := by
            rw [hcwTP.2, hcc.2, ← hcwPT.2]
          have hfeq : jaro_common_char_filter T.length P.length
                (commonPrefixLength P1 T1 + count_common_chars_word
                  (flag_similar_characters_word
                    (occMask (T1.drop (commonPrefixLength P1 T1)))
                    (P1.drop (commonPrefixLength P1 T1)) B)) c =
              jaro_common_char_filter P.length T.length
                (commonPrefixLength P1 T1 + count_common_chars_word
                  (flag_similar_characters_word
                    (occMask (P1.drop (commonPrefixLength P1 T1)))
                    (T1.drop (commonPrefixLength P1 T1)) B)) c := by
            rw [hCeq, jaro_common_char_filter_comm]
          cases hccf : jaro_common_char_filter P.length T.length
              (commonPrefixLength P1 T1 + count_common_chars_word
                (flag_similar_characters_word
                  (occMask (P1.drop (commonPrefixLength P1 T1)))
                  (T1.drop (commonPrefixLength P1 T1)) B)) c with
          | false =>
            rw [(hPT2.1 hword).1 hccf,
              (hTP2.1 hword').1 (by rw [hfeq]; exact hccf)]
          | true =>
            rw [(hPT2.1 hword).2 hccf,
              (hTP2.1 hword').2 (by rw [hfeq]; exact hccf), hTeq, hCeq,
              specScore_comm P.length T.length _ _]
        · have hword' : ¬((T1.drop (commonPrefixLength P1 T1)).length ≤ 64 ∧
              (P1.drop (commonPrefixLength P1 T1)).length ≤ 64) :=
            fun h => hword ⟨h.2, h.1⟩
          have htf := trim_facts hbt
          have htf' := trim_facts hbt'
          have hbig : 64 < (P1.drop (commonPrefixLength P1 T1)).length ∨
              64 < (T1.drop (commonPrefixLength P1 T1)).length := by
            by_contra hcon
            push_neg at hcon
            exact hword ⟨hcon.1, hcon.2⟩
          have hlenP : (P1.drop (commonPrefixLength P1 T1)).length ≤ P.length := by
            calc (P1.drop (commonPrefixLength P1 T1)).length ≤ P1.length := by
                  rw [List.length_drop]
                  omega
              _ ≤ P.length := htf.2.1
          have hlenT : (T1.drop (commonPrefixLength P1 T1)).length ≤ T.length := by
            calc (T1.drop (commonPrefixLength P1 T1)).length ≤ T1.length := by
                  rw [List.length_drop]
                  omega
              _ ≤ T.length := htf.2.2.1
          have hB0 : 0 ≤ B := by
            rw [htf.1]
            omega
          have hl1 : commonPrefixLength P1 T1 ≤ P1.length :=
            commonPrefixLength_le_left P1 T1
          have hl2 : commonPrefixLength P1 T1 ≤ T1.length :=
            commonPrefixLength_le_right P1 T1
          have hguardPT : (((T1.drop (commonPrefixLength P1 T1)).length : Nat) : Int) ≤
              (((P1.drop (commonPrefixLength P1 T1)).length : Nat) : Int) + B := by
            have h1 := htf.2.2.2 hB0
            rw [List.length_drop, List.length_drop]
            omega
          have hguardTP : (((P1.drop (commonPrefixLength P1 T1)).length : Nat) : Int) ≤
              (((T1.drop (commonPrefixLength P1 T1)).length : Nat) : Int) + B := by
            have h1 := htf'.2.2.2 hB0
            rw [List.length_drop, List.length_drop]
            omega
          have hcbPT := block_path_ref_counts (P1.drop (commonPrefixLength P1 T1))
            (T1.drop (commonPrefixLength P1 T1)) B hB0 (by omega) hguardPT
          have hcbTP := block_path_ref_counts (T1.drop (commonPrefixLength P1 T1))
            (P1.drop (commonPrefixLength P1 T1)) B hB0 (by omega) hguardTP
          have hCeq : count_common_chars_multiword (flag_similar_characters_block
                (blockGet (T1.drop (commonPrefixLength P1 T1)))
                (T1.drop (commonPrefixLength P1 T1)).length
                (P1.drop (commonPrefixLength P1 T1)) B) =
              count_common_chars_multiword (flag_similar_characters_block
                (blockGet (P1.drop (commonPrefixLength P1 T1)))
                (P1.drop (commonPrefixLength P1 T1)).length
                (T1.drop (commonPrefixLength P1 T1)) B) := by
            rw [hcbTP.1, hcc.1, ← hcbPT.1]
          have hTeq : count_transpositions_block
                (blockGet (T1.drop (commonPrefixLength P1 T1)))
                (P1.drop (commonPrefixLength P1 T1))
                (flag_similar_characters_block
                  (blockGet (T1.drop (commonPrefixLength P1 T1)))
                  (T1.drop (commonPrefixLength P1 T1)).length
                  (P1.drop (commonPrefixLength P1 T1)) B)
                (count_common_chars_multiword (flag_similar_characters_block
                  (blockGet (T1.drop (commonPrefixLength P1 T1)))
                  (T1.drop (commonPrefixLength P1 T1)).length
                  (P1.drop (commonPrefixLength P1 T1)) B)) =
              count_transpositions_block
                (blockGet (P1.drop (commonPrefixLength P1 T1)))
                (T1.drop (commonPrefixLength P1 T1))
                (flag_similar_characters_block
                  (blockGet (P1.drop (commonPrefixLength P1 T1)))
                  (P1.drop (commonPrefixLength P1 T1)).length
                  (T1.drop (commonPrefixLength P1 T1)) B)
                (count_common_chars_multiword (flag_similar_characters_block
                  (blockGet (P1.drop (commonPrefixLength P1 T1)))
                  (P1.drop (commonPrefixLength P1 T1)).length
                  (T1.drop (commonPrefixLength P1 T1)) B)) := by
            rw [hcbTP.2, hcc.2, ← hcbPT.2]
          have hfeq : jaro_common_char_filter T.length P.length
                (commonPrefixLength P1 T1 + count_common_chars_multiword
                  (flag_similar_characters_block
                    (blockGet (T1.drop (commonPrefixLength P1 T1)))
                    (T1.drop (commonPrefixLength P1 T1)).length
                    (P1.drop (commonPrefixLength P1 T1)) B)) c =
              jaro_common_char_filter P.length T.length
                (commonPrefixLength P1 T1 + count_common_chars_multiword
                  (flag_similar_characters_block
                    (blockGet (P1.drop (commonPrefixLength P1 T1)))
                    (P1.drop (commonPrefixLength P1 T1)).length
                    (T1.drop (commonPrefixLength P1 T1)) B)) c := by
            rw [hCeq, jaro_common_char_filter_comm]
          cases hccf : jaro_common_char_filter P.length T.length
              (commonPrefixLength P1 T1 + count_common_chars_multiword
                (flag_similar_characters_block
                  (blockGet (P1.drop (commonPrefixLength P1 T1)))
                  (P1.drop (commonPrefixLength P1 T1)).length
                  (T1.drop (commonPrefixLength P1 T1)) B)) c with
          | false =>
            rw [(hPT2.2 hword).1 hccf,
              (hTP2.2 hword').1 (by rw [hfeq]; exact hccf)]
          | true =>
            rw [(hPT2.2 hword).2 hccf,
              (hTP2.2 hword').2 (by rw [hfeq]; exact hccf), hTeq, hCeq,
              specScore_comm P.length T.length _ _]

end RapidFuzz
